import Mathlib

/-!
# BinaryTree.hpp: a shallow embedding

The C++ header defines a binary tree whose nodes carry `parent`, `left` and
`right` raw pointers, three forward iterators that walk the tree through
those links only, and a decoder (`construct`) that builds a tree from a
preorder token stream with a null marker.

Memory is modelled explicitly: a heap is a list of cells, an address is an
index into it, `new` appends a cell, `delete` empties one.  A null pointer is
`none`.  Every function returns in `Except Fault`: dereferencing a null or
dangling pointer and reading a token outside the input range are undefined
behaviour in C++ and are reported as a `Fault`; loops and recursions carry a
fuel argument and report `Fault.outOfFuel` when it is used up.
-/

namespace BinaryTree

/-- Node pointer: `none` is `nullptr`, `some a` is the address of a heap cell. -/
abbrev Ptr := Option Nat

/-- What can go wrong when the C++ code runs on the modelled machine. -/
inductive Fault where
  | nullDeref
  | dangling
  | pastTheEnd
  | outOfFuel
deriving DecidableEq

deriving instance DecidableEq for Except

/-- The struct `_Node`: a value and three raw pointers. -/
structure _Node (α : Type) where
  value : α
  parent : Ptr
  left : Ptr
  right : Ptr
deriving DecidableEq

/-- The free store: cell `a` holds a live node, or `none` once deleted. -/
abbrev Heap (α : Type) := List (Option (_Node α))

/-- The two child members of a node, as targets of a `node_type **`. -/
inductive Side where
  | left
  | right
deriving DecidableEq

/-- A `node_type **` pointing at a child member: the owning node and the member. -/
abbrev SlotPtr := Ptr × Side

variable {α : Type}

/-- Member selected by a side. -/
def _Node.slot (n : _Node α) : Side → Ptr
  | Side.left => n.left
  | Side.right => n.right

/-- Assignment to the member selected by a side. -/
def _Node.setSlot (n : _Node α) : Side → Ptr → _Node α
  | Side.left, p => { n with left := p }
  | Side.right, p => { n with right := p }

/-- Read through a node pointer (`p->...`). -/
def Heap.read (h : Heap α) : Ptr → Except Fault (_Node α)
  | none => Except.error Fault.nullDeref
  | some a =>
    match h[a]? with
    | some (some n) => Except.ok n
    | _ => Except.error Fault.dangling

/-- Overwrite the node stored at a pointer, after a successful read of it. -/
def Heap.modify (h : Heap α) (p : Ptr) (f : _Node α → _Node α) : Except Fault (Heap α) :=
  match p with
  | none => Except.error Fault.nullDeref
  | some a =>
    match h[a]? with
    | some (some n) => Except.ok (h.set a (some (f n)))
    | _ => Except.error Fault.dangling

/-- The expression `new node_type(...)`: the fresh cell is appended, its address is the old size. -/
def Heap.alloc (h : Heap α) (n : _Node α) : Heap α × Nat :=
  (h ++ [some n], h.length)

/-- The statement `delete p`: a no-op on null, otherwise the cell is emptied. -/
def Heap.delete (h : Heap α) : Ptr → Except Fault (Heap α)
  | none => Except.ok h
  | some a =>
    match h[a]? with
    | some (some _) => Except.ok (h.set a none)
    | _ => Except.error Fault.dangling

/-- Read through a `node_type **` (`*tnode`). -/
def Heap.readSlot (h : Heap α) (t : SlotPtr) : Except Fault Ptr :=
  match h.read t.1 with
  | Except.ok n => Except.ok (n.slot t.2)
  | Except.error e => Except.error e

/-- The constructor `_Node(const value_type &_Value)` with both children defaulted to null. -/
def _Node.mk1 (v : α) : _Node α :=
  { value := v, parent := none, left := none, right := none }

/-- The static member `_Node::count` (lines 24-26): 0 on null, else the counts of both children
plus one.  The sum is a `size_t`; it cannot wrap on a tree, whose nodes are distinct objects
in memory. -/
def _Node.count (h : Heap α) : Nat → Ptr → Except Fault Nat
  | _, none => Except.ok 0
  | 0, some _ => Except.error Fault.outOfFuel
  | fuel + 1, some a =>
    match h.read (some a) with
    | Except.error e => Except.error e
    | Except.ok n =>
      match _Node.count h fuel n.left, _Node.count h fuel n.right with
      | Except.error e, _ => Except.error e
      | _, Except.error e => Except.error e
      | Except.ok l, Except.ok r => Except.ok (l + r + 1)

/-- The static member `_Node::depth` (lines 28-30): 0 on null, else the larger of the depths of
both children plus one. -/
def _Node.depth (h : Heap α) : Nat → Ptr → Except Fault Nat
  | _, none => Except.ok 0
  | 0, some _ => Except.error Fault.outOfFuel
  | fuel + 1, some a =>
    match h.read (some a) with
    | Except.error e => Except.error e
    | Except.ok n =>
      match _Node.depth h fuel n.left, _Node.depth h fuel n.right with
      | Except.error e, _ => Except.error e
      | _, Except.error e => Except.error e
      | Except.ok l, Except.ok r => Except.ok (max l r + 1)

/-- The faults that are undefined behaviour of the C++ program: nothing is reported and no
outcome is defined.  The remaining fault is the fuel of the model running out.  The source has
no `throw`, no `assert` and no error return, so no outcome of the model is a reported error. -/
def Fault.isUndefinedBehaviour : Fault → Bool
  | Fault.nullDeref => true
  | Fault.dangling => true
  | Fault.pastTheEnd => true
  | Fault.outOfFuel => false

/-! ## Iterators -/

/-- The members `_Iterator::operator*` and `operator->`: return `_ptr->value`. -/
def _Iterator.deref (h : Heap α) (p : Ptr) : Except Fault α :=
  match h.read p with
  | Except.ok n => Except.ok n.value
  | Except.error e => Except.error e

/-- The member `_Iterator::parent`: wraps `_ptr->parent`. -/
def _Iterator.parent (h : Heap α) (p : Ptr) : Except Fault Ptr :=
  match h.read p with
  | Except.ok n => Except.ok n.parent
  | Except.error e => Except.error e

/-- The member `_Iterator::left`: wraps `_ptr->left`. -/
def _Iterator.left (h : Heap α) (p : Ptr) : Except Fault Ptr :=
  match h.read p with
  | Except.ok n => Except.ok n.left
  | Except.error e => Except.error e

/-- The member `_Iterator::right`: wraps `_ptr->right`. -/
def _Iterator.right (h : Heap α) (p : Ptr) : Except Fault Ptr :=
  match h.read p with
  | Except.ok n => Except.ok n.right
  | Except.error e => Except.error e

/-- The `while (_ptr)` loop of the preorder increment (lines 126-132). -/
def _PreOrder_Iterator.climb (h : Heap α) : Nat → Ptr → Except Fault Ptr
  | _, none => Except.ok none
  | 0, some _ => Except.error Fault.outOfFuel
  | fuel + 1, some a =>
    match h.read (some a) with
    | Except.error e => Except.error e
    | Except.ok n =>
      match n.parent with
      | none => _PreOrder_Iterator.climb h fuel none
      | some q =>
        match h.read (some q) with
        | Except.error e => Except.error e
        | Except.ok pn =>
          if some a = pn.left ∧ pn.right ≠ none then Except.ok pn.right
          else _PreOrder_Iterator.climb h fuel (some q)

/-- The member `_PreOrder_Iterator::increment` (lines 120-133). -/
def _PreOrder_Iterator.increment (fuel : Nat) (h : Heap α) (p : Ptr) : Except Fault Ptr :=
  match h.read p with
  | Except.error e => Except.error e
  | Except.ok n =>
    if n.left ≠ none then Except.ok n.left
    else if n.right ≠ none then Except.ok n.right
    else _PreOrder_Iterator.climb h fuel p

/-- The loop `while (_ptr->left) _ptr = _ptr->left;` of the inorder increment (lines 153-154). -/
def _InOrder_Iterator.descend (h : Heap α) : Nat → Ptr → Except Fault Ptr
  | 0, _ => Except.error Fault.outOfFuel
  | fuel + 1, p =>
    match h.read p with
    | Except.error e => Except.error e
    | Except.ok n =>
      if n.left ≠ none then _InOrder_Iterator.descend h fuel n.left
      else Except.ok p

/-- The loop `while (tnode && _ptr == tnode->right)` of the inorder increment (lines 158-161);
returns the final `(_ptr, tnode)`. -/
def _InOrder_Iterator.climb (h : Heap α) : Nat → Ptr → Ptr → Except Fault (Ptr × Ptr)
  | _, p, none => Except.ok (p, none)
  | 0, _, some _ => Except.error Fault.outOfFuel
  | fuel + 1, p, some t =>
    match h.read (some t) with
    | Except.error e => Except.error e
    | Except.ok tn =>
      if p = tn.right then _InOrder_Iterator.climb h fuel (some t) tn.parent
      else Except.ok (p, some t)

/-- The member `_InOrder_Iterator::increment` (lines 150-165). -/
def _InOrder_Iterator.increment (fuel : Nat) (h : Heap α) (p : Ptr) : Except Fault Ptr :=
  match h.read p with
  | Except.error e => Except.error e
  | Except.ok n =>
    if n.right ≠ none then _InOrder_Iterator.descend h fuel n.right
    else
      match _InOrder_Iterator.climb h fuel p n.parent with
      | Except.error e => Except.error e
      | Except.ok (q, tnode) =>
        match h.read q with
        | Except.error e => Except.error e
        | Except.ok qn =>
          if qn.right ≠ tnode then Except.ok tnode else Except.ok q

/-- The loop `while (_ptr->left) _ptr = _ptr->left;` of the postorder increment (lines 186-187). -/
def _PostOrder_Iterator.descend (h : Heap α) : Nat → Ptr → Except Fault Ptr
  | 0, _ => Except.error Fault.outOfFuel
  | fuel + 1, p =>
    match h.read p with
    | Except.error e => Except.error e
    | Except.ok n =>
      if n.left ≠ none then _PostOrder_Iterator.descend h fuel n.left
      else Except.ok p

/-- The member `_PostOrder_Iterator::increment` (lines 182-194). -/
def _PostOrder_Iterator.increment (fuel : Nat) (h : Heap α) (p : Ptr) : Except Fault Ptr :=
  match h.read p with
  | Except.error e => Except.error e
  | Except.ok n =>
    match n.parent with
    | some q =>
      match h.read (some q) with
      | Except.error e => Except.error e
      | Except.ok pn =>
        if p = pn.left ∧ pn.right ≠ none then _PostOrder_Iterator.descend h fuel pn.right
        else Except.ok (some q)
    | none => Except.ok none

/-- The three iterator types, told apart in the source by `typeid`. -/
inductive traversal_order where
  | preorder
  | inorder
  | postorder
deriving DecidableEq

/-- Virtual dispatch of `operator++` to the `increment` of the iterator type. -/
def _Iterator.increment : traversal_order → Nat → Heap α → Ptr → Except Fault Ptr
  | traversal_order.preorder => _PreOrder_Iterator.increment
  | traversal_order.inorder => _InOrder_Iterator.increment
  | traversal_order.postorder => _PostOrder_Iterator.increment

/-! ## The tree -/

/-- The class `_Binary_Tree` (and `BiTree`, which adds no member): the root pointer, paired here
with the heap its nodes live in. -/
structure _Binary_Tree (α : Type) where
  mem : Heap α
  _root : Ptr
deriving DecidableEq

/-- The inorder loop of `begin`: `while (tnode != nullptr && tnode->left) tnode = tnode->left;`. -/
def _Binary_Tree.beginInorder (h : Heap α) : Nat → Ptr → Except Fault Ptr
  | _, none => Except.ok none
  | 0, some _ => Except.error Fault.outOfFuel
  | fuel + 1, some a =>
    match h.read (some a) with
    | Except.error e => Except.error e
    | Except.ok n =>
      if n.left ≠ none then _Binary_Tree.beginInorder h fuel n.left
      else Except.ok (some a)

/-- The postorder loop of `begin` (lines 273-280): left child if there is one, else right child,
until a node without children. -/
def _Binary_Tree.beginPostorder (h : Heap α) : Nat → Ptr → Except Fault Ptr
  | _, none => Except.ok none
  | 0, some _ => Except.error Fault.outOfFuel
  | fuel + 1, some a =>
    match h.read (some a) with
    | Except.error e => Except.error e
    | Except.ok n =>
      if n.left ≠ none ∨ n.right ≠ none then
        if n.left ≠ none then _Binary_Tree.beginPostorder h fuel n.left
        else _Binary_Tree.beginPostorder h fuel n.right
      else Except.ok (some a)

/-- The conversion `_TIterator(*tnode)` that ends `begin` (line 283): the constructor
`_Iterator(node_type &n) : _ptr(&n)` of line 50 is bound to the object `*tnode`, so `tnode` is
dereferenced; on a null `tnode` that is a null dereference.  The cursor then holds the address
of that object, `tnode` again. -/
def _Iterator.ofRef (h : Heap α) (tnode : Ptr) : Except Fault Ptr :=
  match h.read tnode with
  | Except.error e => Except.error e
  | Except.ok _ => Except.ok tnode

/-- The member `_Binary_Tree::begin<_TIterator>` (lines 264-284): the loop of the order, whose
tests guard against a null `tnode`, then the unguarded `return _TIterator(*tnode);`. -/
def _Binary_Tree.begin (t : _Binary_Tree α) (order : traversal_order) (fuel : Nat) :
    Except Fault Ptr :=
  match order with
  | traversal_order.preorder => _Iterator.ofRef t.mem t._root
  | traversal_order.inorder =>
    match _Binary_Tree.beginInorder t.mem fuel t._root with
    | Except.error e => Except.error e
    | Except.ok tnode => _Iterator.ofRef t.mem tnode
  | traversal_order.postorder =>
    match _Binary_Tree.beginPostorder t.mem fuel t._root with
    | Except.error e => Except.error e
    | Except.ok tnode => _Iterator.ofRef t.mem tnode

/-- The member `_Binary_Tree::end<_TIterator>`: the default-constructed iterator, `_ptr` null. -/
def _Binary_Tree.end (_t : _Binary_Tree α) (_order : traversal_order) : Ptr := none

/-- The condition `*tnode == pnode->left` or `*tnode == pnode->right` of `construct`: a
comparison of the pointer stored in the slot with the pointer stored in the member. -/
def _Binary_Tree.slotIs (h : Heap α) (tnode : SlotPtr) (pnode : Ptr) (s : Side) :
    Except Fault Bool :=
  match h.readSlot tnode with
  | Except.error e => Except.error e
  | Except.ok v =>
    match h.read pnode with
    | Except.error e => Except.error e
    | Except.ok n => Except.ok (decide (v = n.slot s))

/-- The condition `*First == Null_marker`: `First` is the position `i` in the token range. -/
def _Binary_Tree.tokenIs [DecidableEq α] (tokens : List α) (i : Nat) (Null_marker : α) :
    Except Fault Bool :=
  match tokens[i]? with
  | none => Except.error Fault.pastTheEnd
  | some x => Except.ok (decide (x = Null_marker))

/-- The conjunction `*tnode == pnode->side && *First == Null_marker`, evaluated left to right
with short circuit. -/
def _Binary_Tree.slotAndMarker [DecidableEq α] (h : Heap α) (tnode : SlotPtr) (pnode : Ptr)
    (s : Side) (tokens : List α) (i : Nat) (Null_marker : α) : Except Fault Bool :=
  match _Binary_Tree.slotIs h tnode pnode s with
  | Except.error e => Except.error e
  | Except.ok false => Except.ok false
  | Except.ok true => _Binary_Tree.tokenIs tokens i Null_marker

/-- The inner `for` loop of `construct` (lines 242-246): climb from `pnode` until its parent is
the header, or until a parent without right child is found (and entered). -/
def _Binary_Tree.constructAscend (h : Heap α) (troot : Ptr) : Nat → Ptr → Except Fault Ptr
  | 0, _ => Except.error Fault.outOfFuel
  | fuel + 1, pnode =>
    match h.read pnode with
    | Except.error e => Except.error e
    | Except.ok n =>
      if n.parent ≠ troot then
        match h.read n.parent with
        | Except.error e => Except.error e
        | Except.ok pn =>
          if pn.right = none then Except.ok n.parent
          else _Binary_Tree.constructAscend h troot fuel n.parent
      else Except.ok pnode

/-- Lines 250-252 of `construct`: allocate the node for `*First`, store it through `tnode`, set
its parent, perform the (self-)assignment of line 251, and return the new heap with the new
`pnode`. -/
def _Binary_Tree.constructAttach (h : Heap α) (pnode : Ptr) (tnode : SlotPtr) (x : α) :
    Except Fault (Heap α × Ptr) :=
  let (h1, a) := h.alloc (_Node.mk1 x)
  match h1.modify tnode.1 (fun n => n.setSlot tnode.2 (some a)) with
  | Except.error e => Except.error e
  | Except.ok h2 =>
    match h2.readSlot tnode with
    | Except.error e => Except.error e
    | Except.ok q =>
      match h2.modify q (fun n => { n with parent := pnode }) with
      | Except.error e => Except.error e
      | Except.ok h3 =>
        match _Binary_Tree.slotIs h3 tnode pnode Side.left, h3.readSlot tnode with
        | Except.error e, _ => Except.error e
        | _, Except.error e => Except.error e
        | Except.ok c, Except.ok v =>
          match h3.modify pnode (fun n => n.setSlot (if c then Side.left else Side.right) v) with
          | Except.error e => Except.error e
          | Except.ok h4 =>
            match h4.readSlot tnode with
            | Except.error e => Except.error e
            | Except.ok q2 => Except.ok (h4, q2)

/-- The outer `for (; First != Last; ++First)` loop of `construct` (lines 236-253).  `i` is the
position of `First`, `inner` the fuel of each run of the inner loop. -/
def _Binary_Tree.constructLoop [DecidableEq α] (Null_marker : α) (tokens : List α) (troot : Ptr)
    (inner : Nat) : Nat → Heap α → Ptr → SlotPtr → Nat → Except Fault (Heap α)
  | 0, _, _, _, _ => Except.error Fault.outOfFuel
  | fuel + 1, h, pnode, tnode, i =>
    if i = tokens.length then Except.ok h
    else
      match _Binary_Tree.slotAndMarker h tnode pnode Side.left tokens i Null_marker with
      | Except.error e => Except.error e
      | Except.ok c1 =>
        let tnode1 : SlotPtr := if c1 then (pnode, Side.right) else tnode
        let i1 : Nat := if c1 then i + 1 else i
        match _Binary_Tree.slotAndMarker h tnode1 pnode Side.right tokens i1 Null_marker with
        | Except.error e => Except.error e
        | Except.ok true =>
          match _Binary_Tree.constructAscend h troot inner pnode with
          | Except.error e => Except.error e
          | Except.ok pnode2 =>
            _Binary_Tree.constructLoop Null_marker tokens troot inner fuel h pnode2
              (pnode2, Side.right) (i1 + 1)
        | Except.ok false =>
          match tokens[i1]? with
          | none => Except.error Fault.pastTheEnd
          | some x =>
            match _Binary_Tree.constructAttach h pnode tnode1 x with
            | Except.error e => Except.error e
            | Except.ok (h4, pnode2) =>
              _Binary_Tree.constructLoop Null_marker tokens troot inner fuel h4 pnode2
                (pnode2, Side.left) (i1 + 1)

/-- The member `_Binary_Tree::construct` (lines 231-257), run in memory `mem`.  The header node
is made by `new node_type()`, whose constructor `_Node() {}` assigns no member: its initial
contents are the parameter `hdr`. -/
def _Binary_Tree.construct [DecidableEq α] (fuel : Nat) (mem : Heap α) (hdr : _Node α)
    (tokens : List α) (Null_marker : α) : Except Fault (_Binary_Tree α) :=
  let (h0, t) := mem.alloc hdr
  let troot : Ptr := some t
  match _Binary_Tree.constructLoop Null_marker tokens troot fuel fuel h0 troot
      (troot, Side.left) 0 with
  | Except.error e => Except.error e
  | Except.ok h =>
    match h.read troot with
    | Except.error e => Except.error e
    | Except.ok tn =>
      match h.read tn.left with
      | Except.error e => Except.error e
      | Except.ok rn =>
        match h.delete rn.parent with
        | Except.error e => Except.error e
        | Except.ok h1 =>
          match h1.modify tn.left (fun n => { n with parent := none }) with
          | Except.error e => Except.error e
          | Except.ok h2 => Except.ok { mem := h2, _root := tn.left }

/-- The default constructor `_Binary_Tree() : _root(nullptr)`. -/
def _Binary_Tree.empty (mem : Heap α) : _Binary_Tree α := { mem := mem, _root := none }

/-- A `node_type *&`: the member `_root` of the tree being built, or a child member of a
node. -/
inductive NodeRef where
  | root
  | member (s : SlotPtr)
deriving DecidableEq

/-- Read through a `node_type *&`. -/
def _Binary_Tree.readRef (t : _Binary_Tree α) : NodeRef → Except Fault Ptr
  | NodeRef.root => Except.ok t._root
  | NodeRef.member s => t.mem.readSlot s

/-- Assignment through a `node_type *&`. -/
def _Binary_Tree.writeRef (t : _Binary_Tree α) : NodeRef → Ptr → Except Fault (_Binary_Tree α)
  | NodeRef.root, p => Except.ok { t with _root := p }
  | NodeRef.member s, p =>
    match t.mem.modify s.1 (fun n => n.setSlot s.2 p) with
    | Except.error e => Except.error e
    | Except.ok h => Except.ok { t with mem := h }

/-- The member `_Binary_Tree::deep_copy` (lines 294-302), run on the tree object `t` being
built (its `_root` and the memory): `iter` is the cursor in the source, `tnode` the reference
to fill, `pnode` the parent to record. -/
def _Binary_Tree.deep_copy : Nat → _Binary_Tree α → Ptr → NodeRef → Ptr →
    Except Fault (_Binary_Tree α)
  | _, t, none, _, _ => Except.ok t
  | 0, _, some _, _, _ => Except.error Fault.outOfFuel
  | fuel + 1, t, some a, tnode, pnode =>
    match _Iterator.deref t.mem (some a) with
    | Except.error e => Except.error e
    | Except.ok v =>
      match _Binary_Tree.writeRef { t with mem := (t.mem.alloc (_Node.mk1 v)).1 } tnode
          (some (t.mem.alloc (_Node.mk1 v)).2) with
      | Except.error e => Except.error e
      | Except.ok t1 =>
        match t1.readRef tnode with
        | Except.error e => Except.error e
        | Except.ok q =>
          match t1.mem.modify q (fun n => { n with parent := pnode }) with
          | Except.error e => Except.error e
          | Except.ok h2 =>
            match _Iterator.left h2 (some a), _Binary_Tree.readRef { t1 with mem := h2 } tnode with
            | Except.error e, _ => Except.error e
            | _, Except.error e => Except.error e
            | Except.ok il, Except.ok q2 =>
              match _Binary_Tree.deep_copy fuel { t1 with mem := h2 } il
                  (NodeRef.member (q2, Side.left)) q2 with
              | Except.error e => Except.error e
              | Except.ok t3 =>
                match _Iterator.right t3.mem (some a), t3.readRef tnode with
                | Except.error e, _ => Except.error e
                | _, Except.error e => Except.error e
                | Except.ok ir, Except.ok q3 =>
                  _Binary_Tree.deep_copy fuel t3 ir (NodeRef.member (q3, Side.right)) q3

/-- The copy constructor `_Binary_Tree(const this_type &Other)` (lines 218-220).  It has no
member initialiser: `root0` is the value `_root` holds before the body runs. -/
def _Binary_Tree.copy (fuel : Nat) (other : _Binary_Tree α) (root0 : Ptr) :
    Except Fault (_Binary_Tree α) :=
  match other.begin traversal_order.preorder fuel with
  | Except.error e => Except.error e
  | Except.ok it =>
    _Binary_Tree.deep_copy fuel { mem := other.mem, _root := root0 } it NodeRef.root none

/-- The constructor from a cursor `_Binary_Tree(_TIterator iter)` (lines 222-225), run in
memory `mem`; `root0` as for the copy constructor. -/
def _Binary_Tree.fromCursor (fuel : Nat) (mem : Heap α) (root0 : Ptr) (iter : Ptr) :
    Except Fault (_Binary_Tree α) :=
  _Binary_Tree.deep_copy fuel { mem := mem, _root := root0 } iter NodeRef.root none

/-- The member `_Binary_Tree::subtree` (lines 259-262): returns the tree constructed from the
cursor. -/
def _Binary_Tree.subtree (t : _Binary_Tree α) (fuel : Nat) (root0 : Ptr) (iter : Ptr) :
    Except Fault (_Binary_Tree α) :=
  _Binary_Tree.fromCursor fuel t.mem root0 iter

/-! ## BiTree -/

/-- The member `BiTree::count(iter)` (lines 361-364), a recursion through `left()`/`right()`. -/
def BiTree.countAt (h : Heap α) : Nat → Ptr → Except Fault Nat
  | _, none => Except.ok 0
  | 0, some _ => Except.error Fault.outOfFuel
  | fuel + 1, some a =>
    match h.read (some a) with
    | Except.error e => Except.error e
    | Except.ok n =>
      match BiTree.countAt h fuel n.left, BiTree.countAt h fuel n.right with
      | Except.error e, _ => Except.error e
      | _, Except.error e => Except.error e
      | Except.ok l, Except.ok r => Except.ok (l + r + 1)

/-- The member `BiTree::count()` (lines 376-378): `count(begin())`, `begin()` in the default
(preorder) order. -/
def BiTree.count (t : _Binary_Tree α) (fuel : Nat) : Except Fault Nat :=
  match t.begin traversal_order.preorder fuel with
  | Except.error e => Except.error e
  | Except.ok it => BiTree.countAt t.mem fuel it

/-- The member `BiTree::depth(iter)` (lines 380-383). -/
def BiTree.depthAt (h : Heap α) : Nat → Ptr → Except Fault Nat
  | _, none => Except.ok 0
  | 0, some _ => Except.error Fault.outOfFuel
  | fuel + 1, some a =>
    match h.read (some a) with
    | Except.error e => Except.error e
    | Except.ok n =>
      match BiTree.depthAt h fuel n.left, BiTree.depthAt h fuel n.right with
      | Except.error e, _ => Except.error e
      | _, Except.error e => Except.error e
      | Except.ok l, Except.ok r => Except.ok (max l r + 1)

/-- The member `BiTree::depth()` (lines 385-387). -/
def BiTree.depth (t : _Binary_Tree α) (fuel : Nat) : Except Fault Nat :=
  match t.begin traversal_order.preorder fuel with
  | Except.error e => Except.error e
  | Except.ok it => BiTree.depthAt t.mem fuel it

/-- The member `BiTree::empty()` (lines 389-391): `begin() == end()`. -/
def BiTree.isEmpty (t : _Binary_Tree α) (fuel : Nat) : Except Fault Bool :=
  match t.begin traversal_order.preorder fuel with
  | Except.error e => Except.error e
  | Except.ok it => Except.ok (decide (it = t.end traversal_order.preorder))

/-- The `for` loop of `BiTree::find` (lines 401-406): `it` runs from `begin` until it equals
`end` or points at `val`; the result is `ret`, null unless a match was found. -/
def BiTree.findLoop [DecidableEq α] (order : traversal_order) (h : Heap α) (val : α)
    (inner : Nat) : Nat → Ptr → Except Fault Ptr
  | _, none => Except.ok none
  | 0, some _ => Except.error Fault.outOfFuel
  | fuel + 1, some a =>
    match _Iterator.deref h (some a) with
    | Except.error e => Except.error e
    | Except.ok x =>
      if x = val then Except.ok (some a)
      else
        match _Iterator.increment order inner h (some a) with
        | Except.error e => Except.error e
        | Except.ok it => BiTree.findLoop order h val inner fuel it

/-- The member `BiTree::find<_Traversal_Order>` (lines 398-408). -/
def BiTree.find [DecidableEq α] (t : _Binary_Tree α) (order : traversal_order) (fuel : Nat)
    (val : α) : Except Fault Ptr :=
  match t.begin order fuel with
  | Except.error e => Except.error e
  | Except.ok it => BiTree.findLoop order t.mem val fuel fuel it

/-- The loop `for (it = begin; k times; ++it)` of a caller: the cursor is dereferenced and
incremented `k` times; the result lists the cursors stood at with the values read, and the
cursor reached at last. -/
def _Iterator.walk (order : traversal_order) (fuel : Nat) (h : Heap α) :
    Nat → Ptr → Except Fault (List (Ptr × α) × Ptr)
  | 0, p => Except.ok ([], p)
  | k + 1, p =>
    match _Iterator.deref h p with
    | Except.error e => Except.error e
    | Except.ok v =>
      match _Iterator.increment order fuel h p with
      | Except.error e => Except.error e
      | Except.ok q =>
        match _Iterator.walk order fuel h k q with
        | Except.error e => Except.error e
        | Except.ok (ps, r) => Except.ok ((p, v) :: ps, r)

/-! ## Reference model: binary trees as an inductive type -/

/-- A binary tree as a value: empty, or a node with a left subtree, a label and a right subtree. -/
inductive Tree (β : Type) where
  | nil : Tree β
  | node : Tree β → β → Tree β → Tree β
deriving DecidableEq

/-- Number of nodes. -/
def Tree.size {β : Type} : Tree β → Nat
  | Tree.nil => 0
  | Tree.node l _ r => l.size + r.size + 1

/-- Number of nodes on the longest path from the root down. -/
def Tree.height {β : Type} : Tree β → Nat
  | Tree.nil => 0
  | Tree.node l _ r => max l.height r.height + 1

/-- Reference preorder listing: node, left subtree, right subtree. -/
def Tree.preorder {β : Type} : Tree β → List β
  | Tree.nil => []
  | Tree.node l x r => x :: (l.preorder ++ r.preorder)

/-- Reference inorder listing: left subtree, node, right subtree. -/
def Tree.inorder {β : Type} : Tree β → List β
  | Tree.nil => []
  | Tree.node l x r => l.inorder ++ x :: r.inorder

/-- Reference postorder listing: left subtree, right subtree, node. -/
def Tree.postorder {β : Type} : Tree β → List β
  | Tree.nil => []
  | Tree.node l x r => l.postorder ++ (r.postorder ++ [x])

/-- Relabelling of a tree. -/
def Tree.map {β γ : Type} (f : β → γ) : Tree β → Tree γ
  | Tree.nil => Tree.nil
  | Tree.node l x r => Tree.node (l.map f) (f x) (r.map f)

/-- The preorder encoding of a tree: an absent subtree is the marker, a node is its value
followed by the encodings of its left and right subtrees. -/
def Tree.encode {β : Type} (marker : β) : Tree β → List β
  | Tree.nil => [marker]
  | Tree.node l x r => x :: (l.encode marker ++ r.encode marker)

/-- Modelled from the spec: the recursive parser of `Subtree ::= MARKER | VALUE Subtree Subtree`,
which the source does not contain; it returns the subtree read and the tokens left over. -/
def parseSubtree {β : Type} [DecidableEq β] (marker : β) : Nat → List β → Option (Tree β × List β)
  | 0, _ => none
  | _ + 1, [] => none
  | fuel + 1, x :: rest =>
    if x = marker then some (Tree.nil, rest)
    else
      match parseSubtree marker fuel rest with
      | none => none
      | some (l, rest1) =>
        match parseSubtree marker fuel rest1 with
        | none => none
        | some (r, rest2) => some (Tree.node l x r, rest2)

/-- The tree of values reachable from a pointer through `left` and `right`. -/
def readTree (h : Heap α) : Nat → Ptr → Option (Tree α)
  | _, none => some Tree.nil
  | 0, some _ => none
  | fuel + 1, some a =>
    match h.read (some a) with
    | Except.error _ => none
    | Except.ok n =>
      match readTree h fuel n.left, readTree h fuel n.right with
      | some l, some r => some (Tree.node l n.value r)
      | _, _ => none

/-- Address of the root of a tree whose labels are (address, value) pairs; null when empty. -/
def Tree.rootPtr : Tree (Nat × α) → Ptr
  | Tree.nil => none
  | Tree.node _ x _ => some x.1

/-- The heap holds the tree `t` of (address, value) pairs below a node at `par`: each node of
`t` is a live cell with its value, whose `left` and `right` are the addresses of its subtrees and
whose `parent` is the address of the node above (`par` for the root of `t`). -/
def Linked (h : Heap α) : Ptr → Tree (Nat × α) → Prop
  | _, Tree.nil => True
  | par, Tree.node l x r =>
    h.read (some x.1) = Except.ok
        { value := x.2, parent := par, left := l.rootPtr, right := r.rootPtr } ∧
      Linked h (some x.1) l ∧ Linked h (some x.1) r

/-- Well-formed tree object (the invariants of the data model): the nodes reachable from
`_root` are those of `t`, linked both ways, the parent of the root is null, and no address
occurs twice. -/
structure WellFormed (tr : _Binary_Tree α) (t : Tree (Nat × α)) : Prop where
  root : tr._root = t.rootPtr
  linked : Linked tr.mem none t
  distinct : (t.preorder.map Prod.fst).Nodup

/-- Addresses of the nodes of a tree of (address, value) pairs, in preorder. -/
def Tree.addrs (t : Tree (Nat × α)) : List Nat := t.preorder.map Prod.fst

/-- A listing of (address, value) pairs as the cursors and values a walk records. -/
def asVisited (l : List (Nat × α)) : List (Ptr × α) := l.map (fun x => (some x.1, x.2))

/-- A walk result with more visited cursors put in front. -/
def prependVisited (l : List (Ptr × α)) :
    Except Fault (List (Ptr × α) × Ptr) → Except Fault (List (Ptr × α) × Ptr)
  | Except.error e => Except.error e
  | Except.ok (ps, r) => Except.ok (l ++ ps, r)

/-- First cursor of a walk over `s` that continues at `K`: the root of `s`, or `K` when `s` is
empty. -/
def Tree.entry (s : Tree (Nat × α)) (K : Ptr) : Ptr :=
  match s with
  | Tree.nil => K
  | Tree.node _ x _ => some x.1

/-- Assignment of `q` to the member `sd` of the node at address `p`; nothing happens when the
cell is not live. -/
def Heap.setSlot (h : Heap α) (p : Nat) (sd : Side) (q : Ptr) : Heap α :=
  match h[p]? with
  | some (some n) => h.set p (some (n.setSlot sd q))
  | _ => h

/-- The heap after the nodes of `s` have been allocated in preorder, one after the other, and
hung into the member `sd` of the node at `p`. -/
def Heap.graft (h : Heap α) (p : Nat) (sd : Side) : Tree α → Heap α
  | Tree.nil => h
  | Tree.node l v r =>
    Heap.graft (Heap.graft
      (h.setSlot p sd (some h.length) ++
        [some { value := v, parent := some p, left := none, right := none }])
      h.length Side.left l) h.length Side.right r

/-- The tree with every node paired with its address when the nodes are allocated in preorder
from address `b` on. -/
def Tree.label : Nat → Tree α → Tree (Nat × α)
  | _, Tree.nil => Tree.nil
  | b, Tree.node l v r => Tree.node (Tree.label (b + 1) l) (b, v) (Tree.label (b + 1 + l.size) r)

/-- Number of passes of the outer loop of `construct` that build a subtree once its root has
been attached. -/
def Tree.iters : Tree α → Nat
  | Tree.nil => 0
  | Tree.node l _ r =>
    1 + (match l with | Tree.nil => 0 | Tree.node _ _ _ => l.iters + 1) +
      (match r with | Tree.nil => 0 | Tree.node _ _ _ => r.iters)

/-- The memory `construct` leaves when run in `mem` on the encoding of the tree `l v r`: the
header cell is freed, the nodes follow it in preorder, the parent of the root is null. -/
def constructedMem (mem : Heap α) (hdr : _Node α) (l : Tree α) (v : α) (r : Tree α) : Heap α :=
  (((mem ++ [some hdr]).graft mem.length Side.left (Tree.node l v r)).set mem.length none).set
    (mem.length + 1)
    (some { value := v, parent := none, left := (Tree.label (mem.length + 1 + 1) l).rootPtr,
            right := (Tree.label (mem.length + 1 + 1 + l.size) r).rootPtr })

/-- The subtree rooted at the leftmost node: reached from the root by left children only. -/
def Tree.leftmostSub {β : Type} : Tree β → Tree β
  | Tree.nil => Tree.nil
  | Tree.node Tree.nil x r => Tree.node Tree.nil x r
  | Tree.node (Tree.node ll lx lr) _ _ => Tree.leftmostSub (Tree.node ll lx lr)

/-- The subtree rooted at the first node in postorder: reached from the root by taking the left
child if there is one, else the right child, until a node without children. -/
def Tree.firstPostSub {β : Type} : Tree β → Tree β
  | Tree.nil => Tree.nil
  | Tree.node Tree.nil x Tree.nil => Tree.node Tree.nil x Tree.nil
  | Tree.node Tree.nil _ (Tree.node rl rx rr) => Tree.firstPostSub (Tree.node rl rx rr)
  | Tree.node (Tree.node ll lx lr) _ _ => Tree.firstPostSub (Tree.node ll lx lr)

/-- Every node that has a right child also has a left child. -/
def Tree.leftFull {β : Type} : Tree β → Prop
  | Tree.nil => True
  | Tree.node l _ r => (r ≠ Tree.nil → l ≠ Tree.nil) ∧ l.leftFull ∧ r.leftFull

/-- First cursor of a postorder walk over `s` that continues at `K`: the first postorder node
of `s`, or `K` when `s` is empty. -/
def Tree.entryPost (s : Tree (Nat × α)) (K : Ptr) : Ptr :=
  match s with
  | Tree.nil => K
  | Tree.node l x r => Tree.entryPost l (Tree.entryPost r (some x.1))

/-- First cursor of an inorder walk over `s` that continues at `K`: the leftmost node of `s`,
or `K` when `s` is empty. -/
def Tree.entryIn (s : Tree (Nat × α)) (K : Ptr) : Ptr :=
  match s with
  | Tree.nil => K
  | Tree.node l x _ => Tree.entryIn l (some x.1)

/-- The address that follows `a` in a listing of addresses, `K` when `a` is the last one. -/
def nextAfter (K : Ptr) : List Nat → Nat → Ptr
  | [], _ => K
  | x :: rest, a =>
    if x = a then
      match rest with
      | [] => K
      | y :: _ => some y
    else nextAfter K rest a

/-- The `else` branch of the inorder increment (lines 157-163), from the values of `_ptr` and
of `tnode` at its start. -/
def _InOrder_Iterator.ascend (h : Heap α) (fuel : Nat) (p tnode : Ptr) : Except Fault Ptr :=
  match _InOrder_Iterator.climb h fuel p tnode with
  | Except.error e => Except.error e
  | Except.ok (q, tn) =>
    match h.read q with
    | Except.error e => Except.error e
    | Except.ok qn => if qn.right ≠ tn then Except.ok tn else Except.ok q

/-- Where the inorder walk of a whole tree arrives from its last node: the end sentinel when the
root has a right child, the root itself when it has none. -/
def Tree.inorderExit : Tree (Nat × α) → Ptr
  | Tree.nil => none
  | Tree.node _ x Tree.nil => some x.1
  | Tree.node _ _ (Tree.node _ _ _) => none

/-- The memory a deep copy leaves when it copies a tree `l v r` into `mem`: the copies follow
the old cells in preorder, the parent of the first is null. -/
def copiedMem (mem : Heap α) (l : Tree α) (v : α) (r : Tree α) : Heap α :=
  Heap.graft (Heap.graft
    (mem ++ [some { value := v, parent := none, left := none, right := none }])
    mem.length Side.left l) mem.length Side.right r

/-! ## Fixtures -/

/-- A header node as `new node_type()` may leave it; here with null links. -/
def hdr0 : _Node Nat := { value := 0, parent := none, left := none, right := none }

/-- The tree with root 1, left leaf 2 and right leaf 3; its encoding with marker 0 is
`[1, 2, 0, 0, 3, 0, 0]`. -/
def balanced3 : Tree Nat :=
  Tree.node (Tree.node Tree.nil 2 Tree.nil) 1 (Tree.node Tree.nil 3 Tree.nil)

/-- The tree `balanced3` in memory, as `construct` leaves it in an empty memory. -/
def balanced3Obj : _Binary_Tree Nat :=
  { mem := [none, some { value := 1, parent := none, left := some 2, right := some 3 },
      some { value := 2, parent := some 1, left := none, right := none },
      some { value := 3, parent := some 1, left := none, right := none }],
    _root := some 1 }

/-- The single-node tree in memory, as `construct` leaves it on `[1, 0, 0]` with marker 0. -/
def single1Obj : _Binary_Tree Nat :=
  { mem := [none, some { value := 1, parent := none, left := none, right := none }],
    _root := some 1 }

/-- The left-skewed tree (root 1, its left child 2, whose left child is 3) in memory, as
`construct` leaves it on `[1, 2, 3, 0, 0, 0, 0]` with marker 0. -/
def skewed3Obj : _Binary_Tree Nat :=
  { mem := [none, some { value := 1, parent := none, left := some 2, right := none },
      some { value := 2, parent := some 1, left := some 3, right := none },
      some { value := 3, parent := some 2, left := none, right := none }],
    _root := some 1 }

/-- The tree with root 1, left leaf 2, right child 3 whose only child is its right child 4, in
memory, as `construct` leaves it on `[1, 2, 0, 0, 3, 0, 4, 0, 0]` with marker 0. -/
def rightTail4Obj : _Binary_Tree Nat :=
  { mem := [none, some { value := 1, parent := none, left := some 2, right := some 3 },
      some { value := 2, parent := some 1, left := none, right := none },
      some { value := 3, parent := some 1, left := none, right := some 4 },
      some { value := 4, parent := some 3, left := none, right := none }],
    _root := some 1 }

/-- The tree of values of `rightTail4Obj`. -/
def rightTail4 : Tree Nat :=
  Tree.node (Tree.node Tree.nil 2 Tree.nil) 1
    (Tree.node Tree.nil 3 (Tree.node Tree.nil 4 Tree.nil))

/-- The tree of values of `skewed3Obj`. -/
def skewed3 : Tree Nat :=
  Tree.node (Tree.node (Tree.node Tree.nil 3 Tree.nil) 2 Tree.nil) 1 Tree.nil

/-! ## Lemmas: reference trees and walks -/

@[simp] theorem Tree.rootPtr_nil : (Tree.nil : Tree (Nat × α)).rootPtr = none := rfl

@[simp] theorem Tree.rootPtr_node (l r : Tree (Nat × α)) (x : Nat × α) :
    (Tree.node l x r).rootPtr = some x.1 := rfl

theorem Tree.rootPtr_eq_none {t : Tree (Nat × α)} : t.rootPtr = none ↔ t = Tree.nil := by
  cases t <;> simp

theorem Tree.rootPtr_mem_addrs {t : Tree (Nat × α)} {a : Nat} (h : t.rootPtr = some a) :
    a ∈ t.addrs := by
  cases t with
  | nil => simp at h
  | node l x r =>
    simp at h
    simp [Tree.addrs, Tree.preorder, h]

theorem Tree.addrs_node (l r : Tree (Nat × α)) (x : Nat × α) :
    (Tree.node l x r).addrs = x.1 :: (l.addrs ++ r.addrs) := by
  simp [Tree.addrs, Tree.preorder]

theorem prependVisited_nil (res : Except Fault (List (Ptr × α) × Ptr)) :
    prependVisited [] res = res := by
  cases res with
  | error e => rfl
  | ok v => cases v; simp [prependVisited]

theorem prependVisited_append (l1 l2 : List (Ptr × α)) (res : Except Fault (List (Ptr × α) × Ptr)) :
    prependVisited (l1 ++ l2) res = prependVisited l1 (prependVisited l2 res) := by
  cases res with
  | error e => rfl
  | ok v => cases v; simp [prependVisited]

theorem walk_succ_of (order : traversal_order) (fuel : Nat) (h : Heap α) (k : Nat) (a : Nat)
    (n : _Node α) (q : Ptr) (hr : h.read (some a) = Except.ok n)
    (hi : _Iterator.increment order fuel h (some a) = Except.ok q) :
    _Iterator.walk order fuel h (k + 1) (some a) =
      prependVisited [(some a, n.value)] (_Iterator.walk order fuel h k q) := by
  simp only [_Iterator.walk, _Iterator.deref, hr, hi]
  cases _Iterator.walk order fuel h k q with
  | error e => rfl
  | ok v => cases v; simp [prependVisited]

/-- The root of a linked non-empty tree is a live cell. -/
theorem Linked.read_root {h : Heap α} {par : Ptr} {t : Tree (Nat × α)} {a : Nat}
    (hl : Linked h par t) (ha : t.rootPtr = some a) :
    ∃ n, h.read (some a) = Except.ok n ∧ n.parent = par := by
  cases t with
  | nil => simp at ha
  | node l x r =>
    simp at ha
    subst ha
    exact ⟨_, hl.1, rfl⟩

theorem preorder_climb_left {h : Heap α} {a c : Nat} {n m : _Node α} (fuel : Nat)
    (hc : h.read (some c) = Except.ok m) (hp : m.parent = some a)
    (ha : h.read (some a) = Except.ok n) (hl : n.left = some c) :
    _PreOrder_Iterator.climb h (fuel + 1) (some c) =
      if n.right ≠ none then Except.ok n.right else _PreOrder_Iterator.climb h fuel (some a) := by
  simp [_PreOrder_Iterator.climb, hc, hp, ha, hl]

theorem preorder_climb_right {h : Heap α} {a c : Nat} {n m : _Node α} (fuel : Nat)
    (hc : h.read (some c) = Except.ok m) (hp : m.parent = some a)
    (ha : h.read (some a) = Except.ok n) (hl : n.left ≠ some c) :
    _PreOrder_Iterator.climb h (fuel + 1) (some c) = _PreOrder_Iterator.climb h fuel (some a) := by
  have hl2 : ¬ some c = n.left := fun e => hl e.symm
  simp [_PreOrder_Iterator.climb, hc, hp, ha, hl2]

theorem preorder_climb_root {h : Heap α} {c : Nat} {m : _Node α} (fuel : Nat)
    (hc : h.read (some c) = Except.ok m) (hp : m.parent = none) :
    _PreOrder_Iterator.climb h (fuel + 1) (some c) = Except.ok none := by
  simp [_PreOrder_Iterator.climb, hc, hp]

theorem preorder_increment_node {h : Heap α} {a : Nat} {par : Ptr} {l r : Tree (Nat × α)} {v : α}
    {K : Ptr} (fuel : Nat)
    (hread : h.read (some a) = Except.ok
      { value := v, parent := par, left := l.rootPtr, right := r.rootPtr })
    (hK : _PreOrder_Iterator.climb h fuel (some a) = Except.ok K) :
    _Iterator.increment traversal_order.preorder fuel h (some a) =
      Except.ok (l.entry (r.entry K)) := by
  cases l <;> cases r <;>
    simp [_Iterator.increment, _PreOrder_Iterator.increment, hread, Tree.entry, hK]

/-- Preorder walk over a subtree: from its root, `size` increments list the subtree in preorder
and arrive where the climbing loop started at its root arrives. -/
theorem preorder_walk_subtree (h : Heap α) :
    ∀ (s : Tree (Nat × α)) (par K : Ptr) (F : Nat), Linked h par s →
      s.addrs.Nodup →
      (s ≠ Tree.nil → ∀ fuel, F ≤ fuel → _PreOrder_Iterator.climb h fuel s.rootPtr = Except.ok K) →
      ∀ fuel, F + s.height ≤ fuel + 1 → ∀ k,
        _Iterator.walk traversal_order.preorder fuel h (s.size + k) (s.entry K) =
          prependVisited (asVisited s.preorder)
            (_Iterator.walk traversal_order.preorder fuel h k K) := by
  intro s
  induction s with
  | nil =>
    intro par K F _ _ hK fuel hfuel k
    simp [Tree.size, Tree.entry, Tree.preorder, asVisited, prependVisited_nil]
  | node l x r ihl ihr =>
    intro par K F hlink hnd hK fuel hfuel k
    obtain ⟨hread, hl, hr⟩ := hlink
    rw [Tree.addrs_node] at hnd
    have hndl : l.addrs.Nodup := ((List.nodup_cons.mp hnd).2).of_append_left
    have hndr : r.addrs.Nodup := ((List.nodup_cons.mp hnd).2).of_append_right
    have hdisj := List.disjoint_of_nodup_append (List.nodup_cons.mp hnd).2
    simp only [Tree.height] at hfuel
    have hF : F ≤ fuel := by omega
    have hK1 := hK (by simp)
    simp only [Tree.rootPtr_node] at hK1
    have hKl : l ≠ Tree.nil → ∀ fuel, F + 1 ≤ fuel →
        _PreOrder_Iterator.climb h fuel l.rootPtr = Except.ok (r.entry K) := by
      intro hne fuel hf
      obtain ⟨f, rfl⟩ : ∃ f, fuel = f + 1 := ⟨fuel - 1, by omega⟩
      cases l with
      | nil => exact absurd rfl hne
      | node ll lx lr =>
        rw [Tree.rootPtr_node, preorder_climb_left f hl.1 rfl hread rfl]
        cases r with
        | nil => simpa [Tree.entry] using hK1 f (by omega)
        | node rl rx rr => simp [Tree.entry]
    have hKr : r ≠ Tree.nil → ∀ fuel, F + 1 ≤ fuel →
        _PreOrder_Iterator.climb h fuel r.rootPtr = Except.ok K := by
      intro hne fuel hf
      obtain ⟨f, rfl⟩ : ∃ f, fuel = f + 1 := ⟨fuel - 1, by omega⟩
      cases r with
      | nil => exact absurd rfl hne
      | node rl rx rr =>
        have hne2 : l.rootPtr ≠ some rx.1 := by
          intro hc
          exact hdisj (Tree.rootPtr_mem_addrs hc) (by rw [Tree.addrs_node]; simp)
        rw [Tree.rootPtr_node, preorder_climb_right f hr.1 rfl hread hne2]
        exact hK1 f (by omega)
    have e1 : (Tree.node l x r).size + k = (l.size + (r.size + k)) + 1 := by
      simp only [Tree.size]; omega
    have hmax1 : l.height ≤ max l.height r.height := le_max_left _ _
    have hmax2 : r.height ≤ max l.height r.height := le_max_right _ _
    rw [e1, Tree.entry, walk_succ_of _ _ _ _ _ _ _ hread
      (preorder_increment_node fuel hread (hK1 fuel hF)),
      ihl (some x.1) (r.entry K) (F + 1) hl hndl hKl fuel (by omega),
      ihr (some x.1) K (F + 1) hr hndr hKr fuel (by omega)]
    simp only [Tree.preorder, asVisited, List.map_cons, List.map_append]
    rw [← prependVisited_append, ← prependVisited_append]
    simp

/-! ## Lemmas: the heap -/

theorem Heap.read_eq_ok {h : Heap α} {a : Nat} {n : _Node α} :
    h.read (some a) = Except.ok n ↔ h[a]? = some (some n) := by
  simp only [Heap.read]
  cases h[a]? with
  | none => simp
  | some c =>
    cases c with
    | none => simp
    | some m => simp

theorem Heap.read_congr {h h2 : Heap α} {a : Nat} (e : h2[a]? = h[a]?) :
    h2.read (some a) = h.read (some a) := by
  simp only [Heap.read, e]

theorem Heap.lt_length_of_read {h : Heap α} {a : Nat} {n : _Node α}
    (hr : h.read (some a) = Except.ok n) : a < h.length := by
  rw [Heap.read_eq_ok, List.getElem?_eq_some] at hr
  exact hr.1

theorem Heap.read_append_left {h : Heap α} (l : Heap α) {a : Nat} (ha : a < h.length) :
    (h ++ l).read (some a) = h.read (some a) :=
  Heap.read_congr (List.getElem?_append_left ha)

theorem Heap.read_append_new (h : Heap α) (n : _Node α) :
    (h ++ [some n]).read (some h.length) = Except.ok n := by
  rw [Heap.read_eq_ok]; simp

theorem Heap.length_setSlot (h : Heap α) (p : Nat) (sd : Side) (q : Ptr) :
    (h.setSlot p sd q).length = h.length := by
  unfold Heap.setSlot; split <;> simp

theorem Heap.getElem?_setSlot_ne (h : Heap α) {p c : Nat} (sd : Side) (q : Ptr) (hne : c ≠ p) :
    (h.setSlot p sd q)[c]? = h[c]? := by
  unfold Heap.setSlot; split
  · exact List.getElem?_set_ne (Ne.symm hne)
  · rfl

theorem Heap.read_setSlot_ne (h : Heap α) {p c : Nat} (sd : Side) (q : Ptr) (hne : c ≠ p) :
    (h.setSlot p sd q).read (some c) = h.read (some c) :=
  Heap.read_congr (Heap.getElem?_setSlot_ne h sd q hne)

theorem Heap.read_setSlot_self {h : Heap α} {p : Nat} {n : _Node α} (sd : Side) (q : Ptr)
    (hr : h.read (some p) = Except.ok n) :
    (h.setSlot p sd q).read (some p) = Except.ok (n.setSlot sd q) := by
  have hlt := Heap.lt_length_of_read hr
  rw [Heap.read_eq_ok] at hr ⊢
  simp only [Heap.setSlot, hr]
  simp [hlt]

theorem Heap.length_graft (s : Tree α) : ∀ (h : Heap α) (p : Nat) (sd : Side),
    (h.graft p sd s).length = h.length + s.size := by
  induction s with
  | nil => intro h p sd; simp [Heap.graft, Tree.size]
  | node l v r ihl ihr =>
    intro h p sd
    simp only [Heap.graft, ihr, ihl, Tree.size, List.length_append, Heap.length_setSlot,
      List.length_singleton]
    omega

theorem Heap.getElem?_graft_frame (s : Tree α) : ∀ (h : Heap α) (p : Nat) (sd : Side) (c : Nat),
    c < h.length → c ≠ p → (h.graft p sd s)[c]? = h[c]? := by
  induction s with
  | nil => intro h p sd c _ _; rfl
  | node l v r ihl ihr =>
    intro h p sd c hc hne
    simp only [Heap.graft]
    rw [ihr _ _ _ c (by simp [Heap.length_graft, Heap.length_setSlot]; omega) (by omega),
      ihl _ _ _ c (by simp [Heap.length_setSlot]; omega) (by omega),
      List.getElem?_append_left (by simp [Heap.length_setSlot]; omega),
      Heap.getElem?_setSlot_ne h sd _ hne]

theorem Heap.read_graft_frame (s : Tree α) (h : Heap α) (p : Nat) (sd : Side) {c : Nat}
    (hc : c < h.length) (hne : c ≠ p) : (h.graft p sd s).read (some c) = h.read (some c) :=
  Heap.read_congr (Heap.getElem?_graft_frame s h p sd c hc hne)

/-- Root pointer of a subtree allocated from address `b` on. -/
theorem Tree.rootPtr_label (b : Nat) (s : Tree α) :
    (Tree.label b s).rootPtr = match s with | Tree.nil => none | Tree.node _ _ _ => some b := by
  cases s <;> rfl

/-- After a graft the parent cell differs from before in the grafted member only. -/
theorem Heap.read_graft_parent (s : Tree α) : ∀ (h : Heap α) (p : Nat) (sd : Side) (n : _Node α),
    h.read (some p) = Except.ok n →
    (h.graft p sd s).read (some p) = Except.ok
      (match s with | Tree.nil => n | Tree.node _ _ _ => n.setSlot sd (some h.length)) := by
  intro h p sd n hr
  cases s with
  | nil => simpa [Heap.graft] using hr
  | node l v r =>
    have hlt := Heap.lt_length_of_read hr
    simp only [Heap.graft]
    rw [Heap.read_graft_frame _ _ _ _ (by simp [Heap.length_graft, Heap.length_setSlot]; omega)
        (by omega),
      Heap.read_graft_frame _ _ _ _ (by simp [Heap.length_setSlot]; omega) (by omega),
      Heap.read_append_left _ (by simp [Heap.length_setSlot]; omega),
      Heap.read_setSlot_self sd _ hr]

/-- After a graft of a non-empty subtree its root cell is complete. -/
theorem Heap.read_graft_root (l r : Tree α) (v : α) (h : Heap α) (p : Nat) (sd : Side) :
    (h.graft p sd (Tree.node l v r)).read (some h.length) = Except.ok
      { value := v, parent := some p, left := (Tree.label (h.length + 1) l).rootPtr,
        right := (Tree.label (h.length + 1 + l.size) r).rootPtr } := by
  have h1 : (h.setSlot p sd (some h.length) ++
      [some ({ value := v, parent := some p, left := none, right := none } : _Node α)]).read
        (some h.length) =
        Except.ok { value := v, parent := some p, left := none, right := none } := by
    have := Heap.read_append_new (h.setSlot p sd (some h.length))
      ({ value := v, parent := some p, left := none, right := none } : _Node α)
    rwa [Heap.length_setSlot] at this
  have h2 := Heap.read_graft_parent l _ h.length Side.left _ h1
  have h3 := Heap.read_graft_parent r _ h.length Side.right _ h2
  simp only [Heap.graft]
  rw [h3]
  cases l <;> cases r <;>
    simp [Tree.rootPtr_label, _Node.setSlot, Heap.length_graft, Heap.length_setSlot, Tree.size]

/-! ## Lemmas: one pass of the loop of construct -/

theorem Heap.readSlot_of_read {h : Heap α} {p : Nat} {n : _Node α} (sd : Side)
    (hr : h.read (some p) = Except.ok n) : h.readSlot (some p, sd) = Except.ok (n.slot sd) := by
  simp [Heap.readSlot, hr]

theorem Heap.modify_of_read {h : Heap α} {p : Nat} {n : _Node α} (f : _Node α → _Node α)
    (hr : h.read (some p) = Except.ok n) :
    h.modify (some p) f = Except.ok (h.set p (some (f n))) := by
  rw [Heap.read_eq_ok] at hr
  simp [Heap.modify, hr]

theorem Heap.read_set_self {h : Heap α} {p : Nat} (n : _Node α) (hp : p < h.length) :
    Heap.read (h.set p (some n)) (some p) = Except.ok n := by
  rw [Heap.read_eq_ok]; simp [hp]

theorem Heap.read_set_ne (h : Heap α) {p c : Nat} (x : Option (_Node α)) (hne : c ≠ p) :
    Heap.read (h.set p x) (some c) = h.read (some c) :=
  Heap.read_congr (List.getElem?_set_ne (Ne.symm hne))

theorem Heap.set_same {h : Heap α} {p : Nat} {n : _Node α}
    (hr : h.read (some p) = Except.ok n) : h.set p (some n) = h := by
  rw [Heap.read_eq_ok] at hr
  apply List.ext_getElem?
  intro c
  by_cases hc : p = c
  · subst hc
    rw [List.getElem?_set_self (List.getElem?_eq_some.mp hr).1, hr]
  · rw [List.getElem?_set_ne hc]

theorem _Node.setSlot_slot (n : _Node α) (sd : Side) : n.setSlot sd (n.slot sd) = n := by
  cases sd <;> rfl

theorem _Node.slot_setSlot (n : _Node α) (sd : Side) (q : Ptr) : (n.setSlot sd q).slot sd = q := by
  cases sd <;> rfl

/-- Lines 250-252: the new node is appended with parent `p`, the slot of `p` points at it, and
line 251 changes nothing. -/
theorem constructAttach_spec {h : Heap α} {p : Nat} {n : _Node α} (sd : Side) (x : α)
    (hr : h.read (some p) = Except.ok n) :
    _Binary_Tree.constructAttach h (some p) (some p, sd) x = Except.ok
      (h.setSlot p sd (some h.length) ++
        [some { value := x, parent := some p, left := none, right := none }], some h.length) := by
  have hlt := Heap.lt_length_of_read hr
  have hne : h.length ≠ p := by omega
  have hr1 : Heap.read (h ++ [some (_Node.mk1 x)]) (some p) = Except.ok n := by
    rw [Heap.read_append_left _ hlt, hr]
  have hlen1 : p < (h ++ [some (_Node.mk1 x)]).length := by simp; omega
  -- the heap after `*tnode = new node_type(*First)`
  have hr2 : Heap.read ((h ++ [some (_Node.mk1 x)]).set p (some (n.setSlot sd (some h.length))))
      (some p) = Except.ok (n.setSlot sd (some h.length)) := Heap.read_set_self _ hlen1
  have hr2a : Heap.read ((h ++ [some (_Node.mk1 x)]).set p (some (n.setSlot sd (some h.length))))
      (some h.length) = Except.ok (_Node.mk1 x) := by
    rw [Heap.read_set_ne _ _ hne, Heap.read_append_new]
  -- the heap after `->parent = pnode`
  have hr3 : Heap.read (((h ++ [some (_Node.mk1 x)]).set p
      (some (n.setSlot sd (some h.length)))).set h.length
        (some { _Node.mk1 x with parent := some p })) (some p) =
      Except.ok (n.setSlot sd (some h.length)) := by
    rw [Heap.read_set_ne _ _ (Ne.symm hne), hr2]
  have hself : (n.setSlot sd (some h.length)).setSlot
      (if decide (some h.length = (n.setSlot sd (some h.length)).slot Side.left) = true
        then Side.left else Side.right) (some h.length) = n.setSlot sd (some h.length) := by
    cases sd with
    | left => simp [_Node.setSlot, _Node.slot]
    | right =>
      by_cases hc : some h.length = n.left
      · simp [_Node.setSlot, _Node.slot, hc]
      · simp [_Node.setSlot, _Node.slot, hc]
  simp only [_Binary_Tree.constructAttach, Heap.alloc, Heap.modify_of_read _ hr1,
    Heap.readSlot_of_read sd hr2, _Node.slot_setSlot, Heap.modify_of_read _ hr2a,
    _Binary_Tree.slotIs, Heap.readSlot_of_read sd hr3, hr3, Heap.modify_of_read _ hr3, hself,
    Heap.set_same hr3]
  simp only [Heap.setSlot, Heap.read_eq_ok.mp hr]
  rw [List.set_append_left _ _ hlt, List.set_append_right _ _ (by simp)]
  simp [_Node.mk1]

theorem slotAndMarker_value [DecidableEq α] {M : α} {toks : List α} {h : Heap α} {p : Nat}
    {n : _Node α} (sd s : Side) {i : Nat} {x : α} (hr : h.read (some p) = Except.ok n)
    (ht : toks[i]? = some x) (hx : x ≠ M) :
    _Binary_Tree.slotAndMarker h (some p, sd) (some p) s toks i M = Except.ok false := by
  simp only [_Binary_Tree.slotAndMarker, _Binary_Tree.slotIs, Heap.readSlot_of_read sd hr, hr,
    _Binary_Tree.tokenIs, ht]
  cases decide (n.slot sd = n.slot s) <;> simp [hx]

theorem slotAndMarker_marker [DecidableEq α] {M : α} {toks : List α} {h : Heap α} {p : Nat}
    {n : _Node α} (sd : Side) {i : Nat} (hr : h.read (some p) = Except.ok n)
    (ht : toks[i]? = some M) :
    _Binary_Tree.slotAndMarker h (some p, sd) (some p) sd toks i M = Except.ok true := by
  simp [_Binary_Tree.slotAndMarker, _Binary_Tree.slotIs, Heap.readSlot_of_read sd hr, hr,
    _Binary_Tree.tokenIs, ht]

theorem slotAndMarker_differ [DecidableEq α] (M : α) (toks : List α) {h : Heap α} {p : Nat}
    {n : _Node α} (sd s : Side) (i : Nat) (hr : h.read (some p) = Except.ok n)
    (hne : n.slot sd ≠ n.slot s) :
    _Binary_Tree.slotAndMarker h (some p, sd) (some p) s toks i M = Except.ok false := by
  simp [_Binary_Tree.slotAndMarker, _Binary_Tree.slotIs, Heap.readSlot_of_read sd hr, hr, hne]

theorem lt_length_of_getElem? {toks : List α} {i : Nat} {x : α} (ht : toks[i]? = some x) :
    i ≠ toks.length := by
  have := (List.getElem?_eq_some.mp ht).1
  omega

/-- A pass of the loop on a value token: the node is attached to the pending slot. -/
theorem constructLoop_value [DecidableEq α] (M : α) (toks : List α) (troot : Ptr)
    (inner : Nat) (fuel : Nat) {h : Heap α} {p : Nat} {n : _Node α} (sd : Side) {i : Nat} {x : α}
    (hr : h.read (some p) = Except.ok n) (ht : toks[i]? = some x) (hx : x ≠ M) :
    _Binary_Tree.constructLoop M toks troot inner (fuel + 1) h (some p) (some p, sd) i =
      _Binary_Tree.constructLoop M toks troot inner fuel
        (h.setSlot p sd (some h.length) ++
          [some { value := x, parent := some p, left := none, right := none }])
        (some h.length) (some h.length, Side.left) (i + 1) := by
  rw [_Binary_Tree.constructLoop]
  simp only [lt_length_of_getElem? ht, if_false, slotAndMarker_value sd Side.left hr ht hx]
  simp [slotAndMarker_value sd Side.right hr ht hx, ht, constructAttach_spec sd x hr]

/-- A pass of the loop on a marker while the right slot is pending: the cursor climbs. -/
theorem constructLoop_marker_right [DecidableEq α] (M : α) (toks : List α) (troot : Ptr)
    (inner : Nat) (fuel : Nat) {h : Heap α} {p : Nat} {n : _Node α} {i : Nat} {K : Ptr}
    (hr : h.read (some p) = Except.ok n) (hne : n.right ≠ n.left) (ht : toks[i]? = some M)
    (hK : _Binary_Tree.constructAscend h troot inner (some p) = Except.ok K) :
    _Binary_Tree.constructLoop M toks troot inner (fuel + 1) h (some p) (some p, Side.right) i =
      _Binary_Tree.constructLoop M toks troot inner fuel h K (K, Side.right) (i + 1) := by
  rw [_Binary_Tree.constructLoop]
  simp only [lt_length_of_getElem? ht, if_false,
    slotAndMarker_differ M toks Side.right Side.left i hr hne]
  simp [slotAndMarker_marker Side.right hr ht, hK]

/-- A pass of the loop on two markers while the left slot is pending: both are taken and the
cursor climbs. -/
theorem constructLoop_marker_marker [DecidableEq α] (M : α) (toks : List α) (troot : Ptr)
    (inner : Nat) (fuel : Nat) {h : Heap α} {p : Nat} {n : _Node α} {i : Nat} {K : Ptr}
    (hr : h.read (some p) = Except.ok n) (ht : toks[i]? = some M) (ht2 : toks[i + 1]? = some M)
    (hK : _Binary_Tree.constructAscend h troot inner (some p) = Except.ok K) :
    _Binary_Tree.constructLoop M toks troot inner (fuel + 1) h (some p) (some p, Side.left) i =
      _Binary_Tree.constructLoop M toks troot inner fuel h K (K, Side.right) (i + 1 + 1) := by
  rw [_Binary_Tree.constructLoop]
  simp only [lt_length_of_getElem? ht, if_false, slotAndMarker_marker Side.left hr ht]
  simp [slotAndMarker_marker Side.right hr ht2, hK]

/-- A pass of the loop on a marker and a value while the left slot is pending: the marker is
taken and the value is attached to the right slot. -/
theorem constructLoop_marker_value [DecidableEq α] (M : α) (toks : List α) (troot : Ptr)
    (inner : Nat) (fuel : Nat) {h : Heap α} {p : Nat} {n : _Node α} {i : Nat} {x : α}
    (hr : h.read (some p) = Except.ok n) (ht : toks[i]? = some M) (ht2 : toks[i + 1]? = some x)
    (hx : x ≠ M) :
    _Binary_Tree.constructLoop M toks troot inner (fuel + 1) h (some p) (some p, Side.left) i =
      _Binary_Tree.constructLoop M toks troot inner fuel
        (h.setSlot p Side.right (some h.length) ++
          [some { value := x, parent := some p, left := none, right := none }])
        (some h.length) (some h.length, Side.left) (i + 1 + 1) := by
  rw [_Binary_Tree.constructLoop]
  simp only [lt_length_of_getElem? ht, if_false, slotAndMarker_marker Side.left hr ht]
  simp [slotAndMarker_value Side.right Side.right hr ht2 hx, ht2, constructAttach_spec Side.right x hr]

theorem getElem?_of_drop_eq_cons {toks : List α} {j : Nat} {x : α} {tl : List α}
    (hd : toks.drop j = x :: tl) : toks[j]? = some x := by
  have := List.getElem?_drop toks j 0
  rw [hd] at this
  simpa using this.symm

theorem drop_succ_of_drop_eq_cons {toks : List α} {j : Nat} {x : α} {tl : List α}
    (hd : toks.drop j = x :: tl) : toks.drop (j + 1) = tl := by
  have : toks.drop (j + 1) = (toks.drop j).drop 1 := by rw [List.drop_drop, Nat.add_comm]
  rw [this, hd]; rfl

theorem drop_add_of_drop_eq_append {toks : List α} {j : Nat} {l1 l2 : List α}
    (hd : toks.drop j = l1 ++ l2) : toks.drop (j + l1.length) = l2 := by
  have : toks.drop (j + l1.length) = (toks.drop j).drop l1.length := by
    rw [List.drop_drop, Nat.add_comm]
  rw [this, hd, List.drop_left]

theorem Tree.length_encode (M : α) (s : Tree α) : (s.encode M).length = 2 * s.size + 1 := by
  induction s with
  | nil => rfl
  | node l v r ihl ihr => simp [Tree.encode, Tree.size, ihl, ihr]; omega

theorem constructAscend_step {h : Heap α} {troot : Ptr} (f : Nat) {c a : Nat} {m n : _Node α}
    (hc : h.read (some c) = Except.ok m) (hp : m.parent = some a) (hne : some a ≠ troot)
    (ha : h.read (some a) = Except.ok n) :
    _Binary_Tree.constructAscend h troot (f + 1) (some c) =
      if n.right = none then Except.ok (some a)
      else _Binary_Tree.constructAscend h troot f (some a) := by
  simp [_Binary_Tree.constructAscend, hc, hp, hne, ha]

/-- The loop of construct builds a subtree: once the root of `s` is attached, `s.iters` passes
read the rest of the encoding of `s`, leave the heap as the graft of `s`, and leave the cursor
where the climbing loop started at the root of `s` arrives, right slot pending. -/
theorem constructLoop_graft [DecidableEq α] (M : α) (toks : List α) (t : Nat) (inner : Nat) :
    ∀ (s l : Tree α) (v : α) (r : Tree α), s = Tree.node l v r →
      ∀ (h : Heap α) (p : Nat) (sd : Side) (i : Nat) (K : Ptr) (F : Nat) (rest : List α)
        (np : _Node α),
      (∀ x ∈ s.preorder, x ≠ M) →
      toks.drop i = s.encode M ++ rest →
      t < h.length →
      h.read (some p) = Except.ok np →
      (∀ f, F ≤ f →
        _Binary_Tree.constructAscend (h.graft p sd s) (some t) f (some h.length) = Except.ok K) →
      F + s.height ≤ inner + 1 →
      ∀ fuel,
        _Binary_Tree.constructLoop M toks (some t) inner (fuel + s.iters)
            (h.setSlot p sd (some h.length) ++
              [some { value := v, parent := some p, left := none, right := none }])
            (some h.length) (some h.length, Side.left) (i + 1) =
          _Binary_Tree.constructLoop M toks (some t) inner fuel (h.graft p sd s) K
            (K, Side.right) (i + (s.encode M).length) := by
  intro s
  induction s with
  | nil => intro l v r hs; cases hs
  | node l v r ihl ihr =>
    intro l1 v1 r1 hs h p sd i K F rest np hval hd ht hp hK hin fuel
    cases hs
    -- the heap once the root is attached
    have hlenA : (h.setSlot p sd (some h.length) ++
        [some ({ value := v, parent := some p, left := none, right := none } : _Node α)]).length
          = h.length + 1 := by simp [Heap.length_setSlot]
    have hrA : (h.setSlot p sd (some h.length) ++
        [some ({ value := v, parent := some p, left := none, right := none } : _Node α)]).read
          (some h.length) =
        Except.ok { value := v, parent := some p, left := none, right := none } := by
      have := Heap.read_append_new (h.setSlot p sd (some h.length))
        ({ value := v, parent := some p, left := none, right := none } : _Node α)
      rwa [Heap.length_setSlot] at this
    have hdl : toks.drop (i + 1) = l.encode M ++ (r.encode M ++ rest) := by
      have := drop_succ_of_drop_eq_cons (by simpa [Tree.encode] using hd)
      simpa using this
    have hdr : toks.drop (i + 1 + (l.encode M).length) = r.encode M ++ rest :=
      drop_add_of_drop_eq_append hdl
    have hvl : ∀ x ∈ l.preorder, x ≠ M := fun x hx => hval x (by simp [Tree.preorder, hx])
    have hvr : ∀ x ∈ r.preorder, x ≠ M := fun x hx => hval x (by simp [Tree.preorder, hx])
    have hta : some h.length ≠ some t := by intro hc; cases hc; omega
    simp only [Tree.height] at hin
    have hmax1 : l.height ≤ max l.height r.height := le_max_left _ _
    have hmax2 : r.height ≤ max l.height r.height := le_max_right _ _
    have hF : F ≤ inner := by omega
    -- name the heap with the root attached
    obtain ⟨A, hA⟩ : ∃ A : Heap α, A = h.setSlot p sd (some h.length) ++
        [some ({ value := v, parent := some p, left := none, right := none } : _Node α)] :=
      ⟨_, rfl⟩
    have hgraft : h.graft p sd (Tree.node l v r) =
        (A.graft h.length Side.left l).graft h.length Side.right r := by
      rw [hA]; rfl
    rw [← hA] at hlenA hrA ⊢
    rw [hgraft] at hK ⊢
    have htA : t < A.length := by omega
    cases l with
    | nil =>
      have ht1 : toks[i + 1]? = some M := getElem?_of_drop_eq_cons (by simpa [Tree.encode] using hdl)
      have hdr2 : toks.drop (i + 1 + 1) = r.encode M ++ rest := by simpa [Tree.encode] using hdr
      simp only [Heap.graft] at hK ⊢
      cases r with
      | nil =>
        have ht2 : toks[i + 1 + 1]? = some M :=
          getElem?_of_drop_eq_cons (by simpa [Tree.encode] using hdr2)
        have hK1 := hK inner hF
        simp only [Heap.graft] at hK1 ⊢
        simp only [Tree.iters, Tree.encode]
        exact constructLoop_marker_marker M toks (some t) inner fuel hrA ht1 ht2 hK1
      | node rl rv rr =>
        have ht2 : toks[i + 1 + 1]? = some rv :=
          getElem?_of_drop_eq_cons (by simpa [Tree.encode] using hdr2)
        have hx : rv ≠ M := hvr rv (by simp [Tree.preorder])
        have hKr : ∀ f, F + 1 ≤ f → _Binary_Tree.constructAscend
            (A.graft h.length Side.right (Tree.node rl rv rr)) (some t) f (some A.length) =
              Except.ok K := by
          intro f hf
          obtain ⟨f1, rfl⟩ : ∃ f1, f = f1 + 1 := ⟨f - 1, by omega⟩
          rw [constructAscend_step f1 (Heap.read_graft_root rl rr rv A h.length Side.right) rfl hta
            (Heap.read_graft_parent _ A h.length Side.right _ hrA)]
          simp only [_Node.setSlot, reduceCtorEq, if_false]
          exact hK f1 (by omega)
        have e1 := constructLoop_marker_value M toks (some t)
          (inner) (fuel + (Tree.node rl rv rr).iters) hrA ht1 ht2 hx
        have e2 := ihr rl rv rr rfl A h.length Side.right (i + 1 + 1) K (F + 1) rest _ hvr hdr2
          htA hrA hKr (by omega) fuel
        have e3 : fuel + (Tree.node Tree.nil v (Tree.node rl rv rr)).iters =
            fuel + (Tree.node rl rv rr).iters + 1 := by
          simp only [Tree.iters]; omega
        have e4 : i + (Tree.encode M (Tree.node Tree.nil v (Tree.node rl rv rr))).length =
            i + 1 + 1 + (Tree.encode M (Tree.node rl rv rr)).length := by
          simp only [Tree.encode, List.length_cons, List.length_append, List.length_nil]; omega
        rw [e3, e4, e1, e2]
    | node ll lv lr =>
      have ht1 : toks[i + 1]? = some lv := getElem?_of_drop_eq_cons (by simpa [Tree.encode] using hdl)
      have hx : lv ≠ M := hvl lv (by simp [Tree.preorder])
      have hKl : ∀ f, 1 ≤ f → _Binary_Tree.constructAscend
          (A.graft h.length Side.left (Tree.node ll lv lr)) (some t) f (some A.length) =
            Except.ok (some h.length) := by
        intro f hf
        obtain ⟨f1, rfl⟩ : ∃ f1, f = f1 + 1 := ⟨f - 1, by omega⟩
        rw [constructAscend_step f1 (Heap.read_graft_root ll lr lv A h.length Side.left) rfl hta
          (Heap.read_graft_parent _ A h.length Side.left _ hrA)]
        simp [_Node.setSlot]
      have hr2 := Heap.read_graft_parent (Tree.node ll lv lr) A h.length Side.left _ hrA
      simp only [_Node.setSlot] at hr2
      have hlen2 := Heap.length_graft (Tree.node ll lv lr) A h.length Side.left
      have e1 : ∀ fuel1, _ = _ := fun fuel1 =>
        constructLoop_value M toks (some t)
          (inner) (fuel1 + (Tree.node ll lv lr).iters) Side.left hrA ht1 hx
      have e2 := ihl ll lv lr rfl A h.length Side.left (i + 1) (some h.length) 1
        (r.encode M ++ rest) _ hvl hdl htA hrA hKl (by omega)
      cases r with
      | nil =>
        have ht2 : toks[i + 1 + (Tree.encode M (Tree.node ll lv lr)).length]? = some M :=
          getElem?_of_drop_eq_cons (by simpa [Tree.encode] using hdr)
        have hg : ∀ X : Heap α, X.graft h.length Side.right Tree.nil = X := fun _ => rfl
        rw [hg] at hK ⊢
        have e3 := constructLoop_marker_right M toks (some t)
          (inner) fuel hr2 (by simp) ht2 (hK inner hF)
        have e4 : fuel + (Tree.node (Tree.node ll lv lr) v Tree.nil).iters =
            fuel + 1 + (Tree.node ll lv lr).iters + 1 := by
          simp only [Tree.iters]; omega
        have e5 : i + (Tree.encode M (Tree.node (Tree.node ll lv lr) v Tree.nil)).length =
            i + 1 + (Tree.encode M (Tree.node ll lv lr)).length + 1 := by
          simp only [Tree.encode, List.length_cons, List.length_append, List.length_nil]; omega
        rw [e4, e5, e1, e2, e3]
      | node rl rv rr =>
        have ht2 : toks[i + 1 + (Tree.encode M (Tree.node ll lv lr)).length]? = some rv :=
          getElem?_of_drop_eq_cons (by simpa [Tree.encode] using hdr)
        have hxr : rv ≠ M := hvr rv (by simp [Tree.preorder])
        have hKr : ∀ f, F + 1 ≤ f → _Binary_Tree.constructAscend
            ((A.graft h.length Side.left (Tree.node ll lv lr)).graft h.length Side.right
              (Tree.node rl rv rr)) (some t) f
              (some (A.graft h.length Side.left (Tree.node ll lv lr)).length) =
              Except.ok K := by
          intro f hf
          obtain ⟨f1, rfl⟩ : ∃ f1, f = f1 + 1 := ⟨f - 1, by omega⟩
          rw [constructAscend_step f1 (Heap.read_graft_root rl rr rv _ h.length Side.right) rfl hta
            (Heap.read_graft_parent _ _ h.length Side.right _ hr2)]
          simp only [_Node.setSlot, reduceCtorEq, if_false]
          exact hK f1 (by omega)
        have e3 := constructLoop_value M toks (some t)
          (inner) (fuel + (Tree.node rl rv rr).iters) Side.right hr2 ht2 hxr
        have e4 := ihr rl rv rr rfl _ h.length Side.right
          (i + 1 + (Tree.encode M (Tree.node ll lv lr)).length) K (F + 1) rest _ hvr hdr
          (by omega) hr2 hKr (by omega) fuel
        have e5 : fuel + (Tree.node (Tree.node ll lv lr) v (Tree.node rl rv rr)).iters =
            fuel + (Tree.node rl rv rr).iters + 1 + (Tree.node ll lv lr).iters + 1 := by
          simp only [Tree.iters]; omega
        have e6 : i + (Tree.encode M (Tree.node (Tree.node ll lv lr) v (Tree.node rl rv rr))).length
            = i + 1 + (Tree.encode M (Tree.node ll lv lr)).length +
              (Tree.encode M (Tree.node rl rv rr)).length := by
          simp only [Tree.encode, List.length_cons, List.length_append, List.length_nil]; omega
        rw [e5, e6, e1, e2, e3, e4]

/-! ## Lemmas: the heap built by construct -/

theorem Linked.frame {h h2 : Heap α} : ∀ (t : Tree (Nat × α)) (par : Ptr),
    (∀ c ∈ t.addrs, h2.read (some c) = h.read (some c)) → Linked h par t → Linked h2 par t := by
  intro t
  induction t with
  | nil => intro par _ _; trivial
  | node l x r ihl ihr =>
    intro par hc hl
    have hx := hc x.1 (by simp [Tree.addrs_node])
    refine ⟨by rw [hx]; exact hl.1, ihl _ (fun c hcl => hc c ?_) hl.2.1,
      ihr _ (fun c hcr => hc c ?_) hl.2.2⟩
    · simp [Tree.addrs_node, hcl]
    · simp [Tree.addrs_node, hcr]

theorem Tree.mem_addrs_label (s : Tree α) : ∀ (b c : Nat),
    c ∈ (Tree.label b s).addrs ↔ b ≤ c ∧ c < b + s.size := by
  induction s with
  | nil => intro b c; simp [Tree.label, Tree.addrs, Tree.preorder, Tree.size]
  | node l v r ihl ihr =>
    intro b c
    simp only [Tree.label, Tree.addrs_node, List.mem_cons, List.mem_append, ihl, ihr, Tree.size]
    omega

theorem Tree.nodup_addrs_label (s : Tree α) : ∀ b : Nat, (Tree.label b s).addrs.Nodup := by
  induction s with
  | nil => intro b; simp [Tree.label, Tree.addrs, Tree.preorder]
  | node l v r ihl ihr =>
    intro b
    simp only [Tree.label, Tree.addrs_node, List.nodup_cons, List.mem_append,
      Tree.mem_addrs_label, List.nodup_append, ihl, ihr, true_and]
    refine ⟨by omega, ?_⟩
    intro c hc1 hc2
    rw [Tree.mem_addrs_label] at hc1 hc2
    omega

theorem Tree.map_snd_label (s : Tree α) : ∀ b : Nat, (Tree.label b s).map Prod.snd = s := by
  induction s with
  | nil => intro b; rfl
  | node l v r ihl ihr => intro b; simp [Tree.label, Tree.map, ihl, ihr]

theorem Tree.size_label (s : Tree α) : ∀ b : Nat, (Tree.label b s).size = s.size := by
  induction s with
  | nil => intro b; rfl
  | node l v r ihl ihr => intro b; simp [Tree.label, Tree.size, ihl, ihr]

theorem Tree.height_label (s : Tree α) : ∀ b : Nat, (Tree.label b s).height = s.height := by
  induction s with
  | nil => intro b; rfl
  | node l v r ihl ihr => intro b; simp [Tree.label, Tree.height, ihl, ihr]

/-- The graft of `s` is linked as `s` labelled with the fresh addresses, below `p`. -/
theorem Heap.linked_graft (s : Tree α) : ∀ (h : Heap α) (p : Nat) (sd : Side),
    Linked (h.graft p sd s) (some p) (Tree.label h.length s) := by
  induction s with
  | nil => intro h p sd; trivial
  | node l v r ihl ihr =>
    intro h p sd
    refine ⟨Heap.read_graft_root l r v h p sd, ?_, ?_⟩
    · have h1 := ihl (h.setSlot p sd (some h.length) ++
        [some ({ value := v, parent := some p, left := none, right := none } : _Node α)])
        h.length Side.left
      have hlen : (h.setSlot p sd (some h.length) ++
        [some ({ value := v, parent := some p, left := none, right := none } : _Node α)]).length
          = h.length + 1 := by simp [Heap.length_setSlot]
      rw [hlen] at h1
      refine Linked.frame _ _ (fun c hc => ?_) h1
      rw [Tree.mem_addrs_label] at hc
      exact Heap.read_graft_frame r _ h.length Side.right
        (by rw [Heap.length_graft, hlen]; omega) (by omega)
    · have h1 := ihr (Heap.graft (h.setSlot p sd (some h.length) ++
        [some ({ value := v, parent := some p, left := none, right := none } : _Node α)])
        h.length Side.left l) h.length Side.right
      have hlen : (Heap.graft (h.setSlot p sd (some h.length) ++
        [some ({ value := v, parent := some p, left := none, right := none } : _Node α)])
        h.length Side.left l).length = h.length + 1 + l.size := by
        simp [Heap.length_graft, Heap.length_setSlot]
      rw [hlen] at h1
      exact h1

theorem Tree.iters_le (s : Tree α) : s.iters ≤ 2 * s.size := by
  induction s with
  | nil => simp [Tree.iters]
  | node l v r ihl ihr =>
    cases l <;> cases r <;> simp only [Tree.iters, Tree.size] at * <;> omega

theorem Tree.height_le_size {β : Type} (s : Tree β) : s.height ≤ s.size := by
  induction s with
  | nil => simp [Tree.height, Tree.size]
  | node l v r ihl ihr => simp only [Tree.height, Tree.size]; omega

/-- Reading back a linked tree gives its values in its shape. -/
theorem readTree_of_linked {h : Heap α} : ∀ (t : Tree (Nat × α)) (par : Ptr) (fuel : Nat),
    Linked h par t → t.height ≤ fuel → readTree h fuel t.rootPtr = some (t.map Prod.snd) := by
  intro t
  induction t with
  | nil => intro par fuel _ _; cases fuel <;> rfl
  | node l x r ihl ihr =>
    intro par fuel hl hf
    simp only [Tree.height] at hf
    obtain ⟨f, rfl⟩ : ∃ f, fuel = f + 1 := ⟨fuel - 1, by omega⟩
    have hmax1 : l.height ≤ max l.height r.height := le_max_left _ _
    have hmax2 : r.height ≤ max l.height r.height := le_max_right _ _
    simp only [Tree.rootPtr_node, readTree, hl.1, ihl _ f hl.2.1 (by omega),
      ihr _ f hl.2.2 (by omega), Tree.map]

/-- The recursive parser reads back the encoding of a tree whose values differ from the marker. -/
theorem parseSubtree_encode [DecidableEq α] (M : α) : ∀ (s : Tree α) (rest : List α) (fuel : Nat),
    (∀ x ∈ s.preorder, x ≠ M) → s.height < fuel →
    parseSubtree M fuel (s.encode M ++ rest) = some (s, rest) := by
  intro s
  induction s with
  | nil =>
    intro rest fuel _ hf
    obtain ⟨f, rfl⟩ : ∃ f, fuel = f + 1 := ⟨fuel - 1, by omega⟩
    simp [Tree.encode, parseSubtree]
  | node l v r ihl ihr =>
    intro rest fuel hval hf
    simp only [Tree.height] at hf
    obtain ⟨f, rfl⟩ : ∃ f, fuel = f + 1 := ⟨fuel - 1, by omega⟩
    have hmax1 : l.height ≤ max l.height r.height := le_max_left _ _
    have hmax2 : r.height ≤ max l.height r.height := le_max_right _ _
    have hv : v ≠ M := hval v (by simp [Tree.preorder])
    have hvl : ∀ x ∈ l.preorder, x ≠ M := fun x hx => hval x (by simp [Tree.preorder, hx])
    have hvr : ∀ x ∈ r.preorder, x ≠ M := fun x hx => hval x (by simp [Tree.preorder, hx])
    have e : (Tree.node l v r).encode M ++ rest = v :: (l.encode M ++ (r.encode M ++ rest)) := by
      simp [Tree.encode]
    rw [e]
    simp only [parseSubtree, hv, if_false, ihl _ f hvl (by omega), ihr _ f hvr (by omega)]

/-! ## Lemmas: construct on the encoding of a tree -/

theorem Heap.delete_of_read {h : Heap α} {a : Nat} {n : _Node α}
    (hr : h.read (some a) = Except.ok n) : h.delete (some a) = Except.ok (h.set a none) := by
  rw [Heap.read_eq_ok] at hr
  simp [Heap.delete, hr]

/-- The statements of `construct` after its loop, when the loop leaves the graft of a tree. -/
theorem construct_finish [DecidableEq α] (M : α) (toks : List α) (l : Tree α) (v : α)
    (r : Tree α) (mem : Heap α) (hdr : _Node α) (fuel : Nat)
    (hloop : _Binary_Tree.constructLoop M toks (some mem.length) fuel fuel (mem ++ [some hdr])
      (some mem.length) (some mem.length, Side.left) 0 =
        Except.ok ((mem ++ [some hdr]).graft mem.length Side.left (Tree.node l v r))) :
    _Binary_Tree.construct fuel mem hdr toks M =
      Except.ok { mem := constructedMem mem hdr l v r, _root := some (mem.length + 1) } := by
  have hr0 : Heap.read (mem ++ [some hdr]) (some mem.length) = Except.ok hdr :=
    Heap.read_append_new mem hdr
  have hlen0 : (mem ++ [some hdr]).length = mem.length + 1 := by simp
  have hrt := Heap.read_graft_parent (Tree.node l v r) (mem ++ [some hdr]) mem.length Side.left
    hdr hr0
  have hrr := Heap.read_graft_root l r v (mem ++ [some hdr]) mem.length Side.left
  simp only [_Node.setSlot] at hrt
  have hrr2 : Heap.read (((mem ++ [some hdr]).graft mem.length Side.left (Tree.node l v r)).set
      mem.length none) (some (mem ++ [some hdr]).length) = _ :=
    (Heap.read_set_ne _ none (by omega)).trans hrr
  rw [hlen0] at hrt hrr hrr2
  simp only [_Binary_Tree.construct, Heap.alloc]
  rw [hloop]
  simp only [hrt, hrr, Heap.delete_of_read hrt, Heap.modify_of_read _ hrr2, constructedMem]

/-- On the encoding of a non-empty tree whose values differ from the marker, `construct`
returns, and the memory and root it returns are known exactly. -/
theorem construct_encode [DecidableEq α] (M : α) (l : Tree α) (v : α) (r : Tree α)
    (mem : Heap α) (hdr : _Node α) (fuel : Nat)
    (hval : ∀ x ∈ (Tree.node l v r).preorder, x ≠ M)
    (hfuel : ((Tree.node l v r).encode M).length < fuel) :
    _Binary_Tree.construct fuel mem hdr ((Tree.node l v r).encode M) M =
      Except.ok { mem := constructedMem mem hdr l v r, _root := some (mem.length + 1) } := by
  have hit := Tree.iters_le (Tree.node l v r)
  have hhs := Tree.height_le_size (Tree.node l v r)
  rw [Tree.length_encode] at hfuel
  obtain ⟨g, hg⟩ : ∃ g, fuel = g + 1 + (Tree.node l v r).iters + 1 :=
    ⟨fuel - (Tree.node l v r).iters - 2, by omega⟩
  have hr0 : Heap.read (mem ++ [some hdr]) (some mem.length) = Except.ok hdr :=
    Heap.read_append_new mem hdr
  have hlen0 : (mem ++ [some hdr]).length = mem.length + 1 := by simp
  have hv : v ≠ M := hval v (by simp [Tree.preorder])
  have ht0 : ((Tree.node l v r).encode M)[0]? = some v := by simp [Tree.encode]
  have hK : ∀ f, 1 ≤ f → _Binary_Tree.constructAscend
      ((mem ++ [some hdr]).graft mem.length Side.left (Tree.node l v r)) (some mem.length) f
        (some (mem ++ [some hdr]).length) = Except.ok (some (mem ++ [some hdr]).length) := by
    intro f hf
    obtain ⟨f1, rfl⟩ : ∃ f1, f = f1 + 1 := ⟨f - 1, by omega⟩
    rw [_Binary_Tree.constructAscend, Heap.read_graft_root]
    simp
  have e1 := constructLoop_value M ((Tree.node l v r).encode M)
          (some mem.length) (fuel) (g + 1 + (Tree.node l v r).iters) Side.left hr0 ht0 hv
  have e2 := constructLoop_graft M ((Tree.node l v r).encode M) mem.length fuel
    (Tree.node l v r) l v r rfl (mem ++ [some hdr]) mem.length Side.left 0
    (some (mem ++ [some hdr]).length) 1 [] hdr hval (by simp) (by omega) hr0 hK (by omega) (g + 1)
  have e3 : ∀ h : Heap α, ∀ q : Ptr, _Binary_Tree.constructLoop M ((Tree.node l v r).encode M)
      (some mem.length) fuel (g + 1) h q (q, Side.right)
        (0 + ((Tree.node l v r).encode M).length) = Except.ok h := by
    intro h q
    rw [_Binary_Tree.constructLoop]; simp
  have eloop := e1.trans (e2.trans (e3 _ _))
  rw [← hg] at eloop
  exact construct_finish M _ l v r mem hdr fuel eloop

/-- The memory left by `construct` holds the decoded tree, linked both ways, with a null
parent at the root. -/
theorem linked_constructedMem (mem : Heap α) (hdr : _Node α) (l : Tree α) (v : α) (r : Tree α) :
    Linked (constructedMem mem hdr l v r) none (Tree.label (mem.length + 1) (Tree.node l v r)) := by
  have hlen0 : (mem ++ [some hdr]).length = mem.length + 1 := by simp
  have hL := Heap.linked_graft (Tree.node l v r) (mem ++ [some hdr]) mem.length Side.left
  rw [hlen0] at hL
  have hlenS := Heap.length_graft (Tree.node l v r) (mem ++ [some hdr]) mem.length Side.left
  rw [hlen0] at hlenS
  have hframe : ∀ c, mem.length + 1 < c → Heap.read (constructedMem mem hdr l v r) (some c) =
      Heap.read ((mem ++ [some hdr]).graft mem.length Side.left (Tree.node l v r)) (some c) := by
    intro c hc
    unfold constructedMem
    rw [Heap.read_set_ne _ _ (by omega), Heap.read_set_ne _ _ (by omega)]
  refine ⟨?_, ?_, ?_⟩
  · unfold constructedMem
    exact Heap.read_set_self _ (by simp only [List.length_set, hlenS, Tree.size]; omega)
  · refine Linked.frame _ _ (fun c hc => hframe c ?_) hL.2.1
    rw [Tree.mem_addrs_label] at hc
    exact hc.1
  · refine Linked.frame _ _ (fun c hc => hframe c ?_) hL.2.2
    rw [Tree.mem_addrs_label] at hc
    have := hc.1
    simp only at this
    omega

/-- The tree object returned by `construct` on an encoding is well formed. -/
theorem wellFormed_constructed (mem : Heap α) (hdr : _Node α) (l : Tree α) (v : α) (r : Tree α) :
    WellFormed { mem := constructedMem mem hdr l v r, _root := some (mem.length + 1) }
      (Tree.label (mem.length + 1) (Tree.node l v r)) :=
  { root := rfl
    linked := linked_constructedMem mem hdr l v r
    distinct := Tree.nodup_addrs_label _ _ }

/-! ## Lemmas: count -/

theorem countAt_of_linked {h : Heap α} : ∀ (t : Tree (Nat × α)) (par : Ptr) (fuel : Nat),
    Linked h par t → t.height ≤ fuel → BiTree.countAt h fuel t.rootPtr = Except.ok t.size := by
  intro t
  induction t with
  | nil => intro par fuel _ _; cases fuel <;> rfl
  | node l x r ihl ihr =>
    intro par fuel hl hf
    simp only [Tree.height] at hf
    obtain ⟨f, rfl⟩ : ∃ f, fuel = f + 1 := ⟨fuel - 1, by omega⟩
    have hmax1 : l.height ≤ max l.height r.height := le_max_left _ _
    have hmax2 : r.height ≤ max l.height r.height := le_max_right _ _
    simp only [Tree.rootPtr_node, BiTree.countAt, hl.1, ihl _ f hl.2.1 (by omega),
      ihr _ f hl.2.2 (by omega), Tree.size]

theorem Tree.preorder_map {β γ : Type} (f : β → γ) (t : Tree β) :
    (t.map f).preorder = t.preorder.map f := by
  induction t with
  | nil => rfl
  | node l x r ihl ihr => simp [Tree.map, Tree.preorder, ihl, ihr]

theorem map_snd_asVisited (l : List (Nat × α)) : (asVisited l).map Prod.snd = l.map Prod.snd := by
  simp [asVisited, Function.comp_def]

theorem map_fst_asVisited (l : List (Nat × α)) :
    (asVisited l).map Prod.fst = (l.map Prod.fst).map some := by
  simp [asVisited, Function.comp_def]

theorem wellFormed_balanced3Obj :
    WellFormed balanced3Obj (Tree.label 1 balanced3) :=
  { root := rfl
    linked := ⟨rfl, ⟨rfl, trivial, trivial⟩, ⟨rfl, trivial, trivial⟩⟩
    distinct := by decide }

/-! ## Lemmas: the first cursor of each order -/

theorem Tree.height_leftmostSub {β : Type} : ∀ t : Tree β, t.leftmostSub.height ≤ t.height := by
  intro t
  induction t with
  | nil => simp [Tree.leftmostSub]
  | node l x r ihl _ =>
    cases l with
    | nil => simp [Tree.leftmostSub]
    | node ll lx lr =>
      simp only [Tree.leftmostSub]
      have : (Tree.node ll lx lr).height ≤ (Tree.node (Tree.node ll lx lr) x r).height := by
        simp only [Tree.height]; omega
      exact le_trans ihl this

theorem Tree.size_leftmostSub {β : Type} : ∀ t : Tree β, t.leftmostSub.size ≤ t.size := by
  intro t
  induction t with
  | nil => simp [Tree.leftmostSub]
  | node l x r ihl _ =>
    cases l with
    | nil => simp [Tree.leftmostSub]
    | node ll lx lr =>
      simp only [Tree.leftmostSub]
      have : (Tree.node ll lx lr).size ≤ (Tree.node (Tree.node ll lx lr) x r).size := by
        simp only [Tree.size]; omega
      exact le_trans ihl this

theorem Tree.size_firstPostSub {β : Type} : ∀ t : Tree β, t.firstPostSub.size = min 1 t.size := by
  intro t
  induction t with
  | nil => simp [Tree.firstPostSub, Tree.size]
  | node l x r ihl ihr =>
    cases l with
    | nil =>
      cases r with
      | nil => simp [Tree.firstPostSub, Tree.size]
      | node rl rx rr =>
        simp only [Tree.firstPostSub, ihr]
        simp only [Tree.size]; omega
    | node ll lx lr =>
      simp only [Tree.firstPostSub, ihl]
      simp only [Tree.size]; omega

theorem Tree.height_firstPostSub {β : Type} : ∀ t : Tree β, t.firstPostSub.height ≤ t.height := by
  intro t
  induction t with
  | nil => simp [Tree.firstPostSub]
  | node l x r ihl ihr =>
    cases l with
    | nil =>
      cases r with
      | nil => simp [Tree.firstPostSub]
      | node rl rx rr =>
        simp only [Tree.firstPostSub]
        have : (Tree.node rl rx rr).height ≤
            (Tree.node Tree.nil x (Tree.node rl rx rr)).height := by
          simp only [Tree.height]; omega
        exact le_trans ihr this
    | node ll lx lr =>
      simp only [Tree.firstPostSub]
      have : (Tree.node ll lx lr).height ≤ (Tree.node (Tree.node ll lx lr) x r).height := by
        simp only [Tree.height]; omega
      exact le_trans ihl this

/-- The inorder loop of `begin` stops at the leftmost node, which heads a linked subtree. -/
theorem beginInorder_of_linked {h : Heap α} : ∀ (t : Tree (Nat × α)) (par : Ptr) (fuel : Nat),
    Linked h par t → t.height ≤ fuel →
    _Binary_Tree.beginInorder h fuel t.rootPtr = Except.ok t.leftmostSub.rootPtr ∧
      ∃ par2, Linked h par2 t.leftmostSub := by
  intro t
  induction t with
  | nil => intro par fuel hl _; exact ⟨by cases fuel <;> rfl, par, hl⟩
  | node l x r ihl _ =>
    intro par fuel hl hf
    simp only [Tree.height] at hf
    obtain ⟨f, rfl⟩ : ∃ f, fuel = f + 1 := ⟨fuel - 1, by omega⟩
    cases l with
    | nil =>
      refine ⟨?_, par, hl⟩
      simp [_Binary_Tree.beginInorder, hl.1, Tree.leftmostSub]
    | node ll lx lr =>
      have hmax1 : (Tree.node ll lx lr).height ≤ max (Tree.node ll lx lr).height r.height :=
        le_max_left _ _
      have ih := ihl (some x.1) f hl.2.1 (by omega)
      refine ⟨?_, ih.2⟩
      simp only [Tree.rootPtr_node, _Binary_Tree.beginInorder, hl.1, Tree.leftmostSub]
      simpa using ih.1

/-- The postorder loop of `begin` stops at the first postorder node, which heads a linked
subtree. -/
theorem beginPostorder_of_linked {h : Heap α} : ∀ (t : Tree (Nat × α)) (par : Ptr) (fuel : Nat),
    Linked h par t → t.height ≤ fuel →
    _Binary_Tree.beginPostorder h fuel t.rootPtr = Except.ok t.firstPostSub.rootPtr ∧
      ∃ par2, Linked h par2 t.firstPostSub := by
  intro t
  induction t with
  | nil => intro par fuel hl _; exact ⟨by cases fuel <;> rfl, par, hl⟩
  | node l x r ihl ihr =>
    intro par fuel hl hf
    simp only [Tree.height] at hf
    obtain ⟨f, rfl⟩ : ∃ f, fuel = f + 1 := ⟨fuel - 1, by omega⟩
    cases l with
    | nil =>
      cases r with
      | nil =>
        refine ⟨?_, par, hl⟩
        simp [_Binary_Tree.beginPostorder, hl.1, Tree.firstPostSub]
      | node rl rx rr =>
        have hmax2 : (Tree.node rl rx rr).height ≤
            max (Tree.nil : Tree (Nat × α)).height (Tree.node rl rx rr).height :=
          le_max_right _ _
        have ih := ihr (some x.1) f hl.2.2 (by omega)
        refine ⟨?_, ih.2⟩
        simp only [Tree.rootPtr_node, _Binary_Tree.beginPostorder, hl.1, Tree.firstPostSub]
        simpa using ih.1
    | node ll lx lr =>
      have hmax1 : (Tree.node ll lx lr).height ≤ max (Tree.node ll lx lr).height r.height :=
        le_max_left _ _
      have ih := ihl (some x.1) f hl.2.1 (by omega)
      refine ⟨?_, ih.2⟩
      simp only [Tree.rootPtr_node, _Binary_Tree.beginPostorder, hl.1, Tree.firstPostSub]
      simpa using ih.1

/-! ## Lemmas: count and depth -/

theorem countAt_eq_node_count (h : Heap α) : ∀ (fuel : Nat) (p : Ptr),
    BiTree.countAt h fuel p = _Node.count h fuel p := by
  intro fuel
  induction fuel with
  | zero => intro p; cases p <;> rfl
  | succ f ih =>
    intro p
    cases p with
    | none => rfl
    | some a => simp only [BiTree.countAt, _Node.count, ih]

theorem depthAt_eq_node_depth (h : Heap α) : ∀ (fuel : Nat) (p : Ptr),
    BiTree.depthAt h fuel p = _Node.depth h fuel p := by
  intro fuel
  induction fuel with
  | zero => intro p; cases p <;> rfl
  | succ f ih =>
    intro p
    cases p with
    | none => rfl
    | some a => simp only [BiTree.depthAt, _Node.depth, ih]

theorem depthAt_of_linked {h : Heap α} : ∀ (t : Tree (Nat × α)) (par : Ptr) (fuel : Nat),
    Linked h par t → t.height ≤ fuel → BiTree.depthAt h fuel t.rootPtr = Except.ok t.height := by
  intro t
  induction t with
  | nil => intro par fuel _ _; cases fuel <;> rfl
  | node l x r ihl ihr =>
    intro par fuel hl hf
    simp only [Tree.height] at hf
    obtain ⟨f, rfl⟩ : ∃ f, fuel = f + 1 := ⟨fuel - 1, by omega⟩
    have hmax1 : l.height ≤ max l.height r.height := le_max_left _ _
    have hmax2 : r.height ≤ max l.height r.height := le_max_right _ _
    simp only [Tree.rootPtr_node, BiTree.depthAt, hl.1, ihl _ f hl.2.1 (by omega),
      ihr _ f hl.2.2 (by omega), Tree.height]

theorem Tree.length_preorder {β : Type} (t : Tree β) : t.preorder.length = t.size := by
  induction t with
  | nil => rfl
  | node l x r ihl ihr => simp [Tree.preorder, Tree.size, ihl, ihr]

theorem wellFormed_single1Obj :
    WellFormed single1Obj (Tree.label 1 (Tree.node Tree.nil 1 Tree.nil)) :=
  { root := rfl
    linked := ⟨rfl, trivial, trivial⟩
    distinct := by decide }

theorem wellFormed_skewed3Obj : WellFormed skewed3Obj (Tree.label 1 skewed3) :=
  { root := rfl
    linked := ⟨rfl, ⟨rfl, ⟨rfl, trivial, trivial⟩, trivial⟩, trivial⟩
    distinct := by decide }

/-! ## Lemmas: first nodes of the reference listings -/

theorem Tree.inorder_ne_nil {β : Type} (l r : Tree β) (x : β) :
    (Tree.node l x r).inorder ≠ [] := by
  simp [Tree.inorder]

theorem Tree.postorder_ne_nil {β : Type} (l r : Tree β) (x : β) :
    (Tree.node l x r).postorder ≠ [] := by
  simp [Tree.postorder]

theorem Tree.head_preorder (t : Tree (Nat × α)) :
    t.preorder.head?.map Prod.fst = t.rootPtr := by
  cases t <;> simp [Tree.preorder]

theorem Tree.head_inorder : ∀ t : Tree (Nat × α),
    t.inorder.head?.map Prod.fst = t.leftmostSub.rootPtr := by
  intro t
  induction t with
  | nil => rfl
  | node l x r ihl _ =>
    cases l with
    | nil => simp [Tree.inorder, Tree.leftmostSub]
    | node ll lx lr =>
      rw [Tree.leftmostSub, ← ihl, Tree.inorder,
        List.head?_append_of_ne_nil _ (Tree.inorder_ne_nil ll lr lx)]

theorem Tree.head_postorder : ∀ t : Tree (Nat × α),
    t.postorder.head?.map Prod.fst = t.firstPostSub.rootPtr := by
  intro t
  induction t with
  | nil => rfl
  | node l x r ihl ihr =>
    cases l with
    | nil =>
      cases r with
      | nil => simp [Tree.postorder, Tree.firstPostSub]
      | node rl rx rr =>
        have e : (Tree.node Tree.nil x (Tree.node rl rx rr)).postorder =
            (Tree.node rl rx rr).postorder ++ [x] := rfl
        rw [Tree.firstPostSub, ← ihr, e,
          List.head?_append_of_ne_nil _ (Tree.postorder_ne_nil rl rr rx)]
    | node ll lx lr =>
      rw [Tree.firstPostSub, ← ihl, Tree.postorder,
        List.head?_append_of_ne_nil _ (Tree.postorder_ne_nil ll lr lx)]

theorem Tree.leftmostSub_ne_nil {β : Type} : ∀ t : Tree β, t ≠ Tree.nil →
    t.leftmostSub ≠ Tree.nil := by
  intro t
  induction t with
  | nil => intro h; exact absurd rfl h
  | node l x r ihl _ =>
    intro _
    cases l with
    | nil => simp [Tree.leftmostSub]
    | node ll lx lr => exact ihl (by simp)

theorem Tree.firstPostSub_ne_nil {β : Type} : ∀ t : Tree β, t ≠ Tree.nil →
    t.firstPostSub ≠ Tree.nil := by
  intro t
  induction t with
  | nil => intro h; exact absurd rfl h
  | node l x r ihl ihr =>
    intro _
    cases l with
    | nil =>
      cases r with
      | nil => simp [Tree.firstPostSub]
      | node rl rx rr => exact ihr (by simp)
    | node ll lx lr => exact ihl (by simp)

/-! ## Lemmas: `begin` on a well-formed tree -/

/-- The closing `_TIterator(*tnode)` of `begin` at a live cell gives the cursor at that cell. -/
theorem _Iterator.ofRef_of_read {h : Heap α} {p : Ptr} {n : _Node α}
    (hr : h.read p = Except.ok n) : _Iterator.ofRef h p = Except.ok p := by
  simp only [_Iterator.ofRef, hr]

/-- The closing `_TIterator(*tnode)` of `begin` at the root of a linked non-empty tree. -/
theorem _Iterator.ofRef_of_linked {h : Heap α} {par : Ptr} {t : Tree (Nat × α)}
    (hl : Linked h par t) (hne : t ≠ Tree.nil) :
    _Iterator.ofRef h t.rootPtr = Except.ok t.rootPtr := by
  cases t with
  | nil => exact absurd rfl hne
  | node l x r => exact _Iterator.ofRef_of_read hl.1

/-- On a non-empty well-formed tree `begin` in preorder is the root. -/
theorem begin_preorder_of_wellFormed {tr : _Binary_Tree α} {t : Tree (Nat × α)}
    (hwf : WellFormed tr t) (hne : t ≠ Tree.nil) (fuel : Nat) :
    tr.begin traversal_order.preorder fuel = Except.ok t.rootPtr := by
  simp only [_Binary_Tree.begin, hwf.root]
  exact _Iterator.ofRef_of_linked hwf.linked hne

/-- On a non-empty well-formed tree `begin` in inorder is the leftmost node. -/
theorem begin_inorder_of_wellFormed {tr : _Binary_Tree α} {t : Tree (Nat × α)}
    (hwf : WellFormed tr t) (hne : t ≠ Tree.nil) {fuel : Nat} (hfuel : t.height ≤ fuel) :
    tr.begin traversal_order.inorder fuel = Except.ok t.leftmostSub.rootPtr := by
  obtain ⟨hb, par2, hl2⟩ := beginInorder_of_linked t none fuel hwf.linked hfuel
  simp only [_Binary_Tree.begin, hwf.root, hb]
  exact _Iterator.ofRef_of_linked hl2 (Tree.leftmostSub_ne_nil t hne)

/-- On a non-empty well-formed tree `begin` in postorder is the first node without children
met going left, else right. -/
theorem begin_postorder_of_wellFormed {tr : _Binary_Tree α} {t : Tree (Nat × α)}
    (hwf : WellFormed tr t) (hne : t ≠ Tree.nil) {fuel : Nat} (hfuel : t.height ≤ fuel) :
    tr.begin traversal_order.postorder fuel = Except.ok t.firstPostSub.rootPtr := by
  obtain ⟨hb, par2, hl2⟩ := beginPostorder_of_linked t none fuel hwf.linked hfuel
  simp only [_Binary_Tree.begin, hwf.root, hb]
  exact _Iterator.ofRef_of_linked hl2 (Tree.firstPostSub_ne_nil t hne)

/-! ## Lemmas: the preorder walk of a whole tree -/

/-- On a linked tree with distinct addresses and a null parent at the root, `size` preorder
increments from the root list the tree in preorder and end at null. -/
theorem preorder_walk_linked (h : Heap α) (t : Tree (Nat × α)) (fuel : Nat)
    (hlinked : Linked h none t) (hdist : t.addrs.Nodup) (hfuel : t.height < fuel) :
    _Iterator.walk traversal_order.preorder fuel h t.size t.rootPtr =
      Except.ok (asVisited t.preorder, none) := by
  have hK : t ≠ Tree.nil → ∀ f, 1 ≤ f →
      _PreOrder_Iterator.climb h f t.rootPtr = Except.ok none := by
    intro hne f hf
    obtain ⟨f1, rfl⟩ : ∃ f1, f = f1 + 1 := ⟨f - 1, by omega⟩
    cases t with
    | nil => exact absurd rfl hne
    | node l x r => exact preorder_climb_root f1 hlinked.1 rfl
  have hw := preorder_walk_subtree h t none none 1 hlinked hdist hK fuel (by omega) 0
  cases t with
  | nil => rfl
  | node l x r => simpa [Tree.entry, _Iterator.walk, prependVisited] using hw

theorem Tree.filter_encode [DecidableEq α] (M : α) : ∀ T : Tree α, (∀ x ∈ T.preorder, x ≠ M) →
    (T.encode M).filter (fun x => decide (x ≠ M)) = T.preorder := by
  intro T
  induction T with
  | nil => intro _; simp [Tree.encode, Tree.preorder]
  | node l v r ihl ihr =>
    intro hval
    have hv : v ≠ M := hval v (by simp [Tree.preorder])
    have hvl : ∀ x ∈ l.preorder, x ≠ M := fun x hx => hval x (by simp [Tree.preorder, hx])
    have hvr : ∀ x ∈ r.preorder, x ≠ M := fun x hx => hval x (by simp [Tree.preorder, hx])
    have hd : (fun x => decide (x ≠ M)) v = true := by simpa using hv
    rw [Tree.encode, Tree.preorder, List.filter_cons_of_pos (p := fun x => decide (x ≠ M)) hd, List.filter_append, ihl hvl,
      ihr hvr]

theorem Tree.preorder_label (T : Tree α) (b : Nat) :
    (Tree.label b T).preorder.map Prod.snd = T.preorder := by
  rw [← Tree.preorder_map, Tree.map_snd_label]

/-! ## Lemmas: back references of a linked tree -/

theorem Tree.mem_addrs_node {l r : Tree (Nat × α)} {x : Nat × α} {p : Nat} :
    p ∈ (Tree.node l x r).addrs ↔ p = x.1 ∨ p ∈ l.addrs ∨ p ∈ r.addrs := by
  simp [Tree.addrs_node]

/-- Every node of a linked tree is a live cell, and each child link of it leads to a node of
the tree whose parent link leads back. -/
theorem Linked.child_links {h : Heap α} : ∀ (t : Tree (Nat × α)) (par : Ptr), Linked h par t →
    ∀ p ∈ t.addrs, ∃ n, h.read (some p) = Except.ok n ∧
      ∀ q, n.left = some q ∨ n.right = some q →
        q ∈ t.addrs ∧ ∃ m, h.read (some q) = Except.ok m ∧ m.parent = some p := by
  intro t
  induction t with
  | nil => intro par _ p hp; simp [Tree.addrs, Tree.preorder] at hp
  | node l x r ihl ihr =>
    intro par hl p hp
    rcases Tree.mem_addrs_node.mp hp with rfl | hpl | hpr
    · refine ⟨_, hl.1, ?_⟩
      intro q hq
      rcases hq with hq | hq
      · simp only at hq
        obtain ⟨m, hm, hmp⟩ := hl.2.1.read_root hq
        exact ⟨Tree.mem_addrs_node.mpr (Or.inr (Or.inl (Tree.rootPtr_mem_addrs hq))), m, hm, hmp⟩
      · simp only at hq
        obtain ⟨m, hm, hmp⟩ := hl.2.2.read_root hq
        exact ⟨Tree.mem_addrs_node.mpr (Or.inr (Or.inr (Tree.rootPtr_mem_addrs hq))), m, hm, hmp⟩
    · obtain ⟨n, hn, hq⟩ := ihl _ hl.2.1 p hpl
      exact ⟨n, hn, fun q hc => ⟨Tree.mem_addrs_node.mpr (Or.inr (Or.inl (hq q hc).1)),
        (hq q hc).2⟩⟩
    · obtain ⟨n, hn, hq⟩ := ihr _ hl.2.2 p hpr
      exact ⟨n, hn, fun q hc => ⟨Tree.mem_addrs_node.mpr (Or.inr (Or.inr (hq q hc).1)),
        (hq q hc).2⟩⟩

/-- Every node of a linked tree other than its root is the child of a node of the tree. -/
theorem Linked.parent_exists {h : Heap α} : ∀ (t : Tree (Nat × α)) (par : Ptr), Linked h par t →
    ∀ q ∈ t.addrs, t.rootPtr ≠ some q →
      ∃ p ∈ t.addrs, ∃ n, h.read (some p) = Except.ok n ∧ (n.left = some q ∨ n.right = some q) := by
  intro t
  induction t with
  | nil => intro par _ q hq; simp [Tree.addrs, Tree.preorder] at hq
  | node l x r ihl ihr =>
    intro par hl q hq hne
    rcases Tree.mem_addrs_node.mp hq with rfl | hql | hqr
    · exact absurd rfl hne
    · by_cases hroot : l.rootPtr = some q
      · exact ⟨x.1, Tree.mem_addrs_node.mpr (Or.inl rfl), _, hl.1, Or.inl hroot⟩
      · obtain ⟨p, hp, n, hn, hc⟩ := ihl _ hl.2.1 q hql hroot
        exact ⟨p, Tree.mem_addrs_node.mpr (Or.inr (Or.inl hp)), n, hn, hc⟩
    · by_cases hroot : r.rootPtr = some q
      · exact ⟨x.1, Tree.mem_addrs_node.mpr (Or.inl rfl), _, hl.1, Or.inr hroot⟩
      · obtain ⟨p, hp, n, hn, hc⟩ := ihr _ hl.2.2 q hqr hroot
        exact ⟨p, Tree.mem_addrs_node.mpr (Or.inr (Or.inr hp)), n, hn, hc⟩

/-- In a linked tree with distinct addresses no node has the same node as left and as right
child. -/
theorem Linked.left_ne_right {h : Heap α} : ∀ (t : Tree (Nat × α)) (par : Ptr), Linked h par t →
    t.addrs.Nodup → ∀ p ∈ t.addrs, ∀ n, h.read (some p) = Except.ok n →
      ∀ q, n.left = some q → n.right ≠ some q := by
  intro t
  induction t with
  | nil => intro par _ _ p hp; simp [Tree.addrs, Tree.preorder] at hp
  | node l x r ihl ihr =>
    intro par hl hnd p hp n hn q hq hq2
    rw [Tree.addrs_node] at hnd
    have hndl : l.addrs.Nodup := ((List.nodup_cons.mp hnd).2).of_append_left
    have hndr : r.addrs.Nodup := ((List.nodup_cons.mp hnd).2).of_append_right
    have hdisj := List.disjoint_of_nodup_append (List.nodup_cons.mp hnd).2
    rcases Tree.mem_addrs_node.mp hp with rfl | hpl | hpr
    · rw [hl.1] at hn
      cases hn
      exact hdisj (Tree.rootPtr_mem_addrs hq) (Tree.rootPtr_mem_addrs hq2)
    · exact ihl _ hl.2.1 hndl p hpl n hn q hq hq2
    · exact ihr _ hl.2.2 hndr p hpr n hn q hq hq2

/-- In a tree allocated in preorder every child has a larger address than its parent. -/
theorem Linked.child_gt_of_label {h : Heap α} : ∀ (T : Tree α) (b : Nat) (par : Ptr),
    Linked h par (Tree.label b T) → ∀ p ∈ (Tree.label b T).addrs, ∀ n,
      h.read (some p) = Except.ok n → ∀ q, n.left = some q ∨ n.right = some q → p < q := by
  intro T
  induction T with
  | nil => intro b par _ p hp; simp [Tree.label, Tree.addrs, Tree.preorder] at hp
  | node l v r ihl ihr =>
    intro b par hl p hp n hn q hq
    simp only [Tree.label] at hl hp
    rcases Tree.mem_addrs_node.mp hp with rfl | hpl | hpr
    · rw [hl.1] at hn
      cases hn
      simp only [Tree.rootPtr_label] at hq
      rcases hq with hq | hq
      · cases l with
        | nil => simp at hq
        | node _ _ _ => simp at hq; omega
      · cases r with
        | nil => simp at hq
        | node _ _ _ => simp at hq; omega
    · exact ihl _ _ hl.2.1 p hpl n hn q hq
    · exact ihr _ _ hl.2.2 p hpr n hn q hq

/-! ## Lemmas: the postorder walk -/

theorem Tree.entryPost_of_ne_nil : ∀ (s : Tree (Nat × α)) (K K2 : Ptr), s ≠ Tree.nil →
    s.entryPost K = s.entryPost K2 := by
  intro s
  induction s with
  | nil => intro K K2 h; exact absurd rfl h
  | node l x r ihl ihr =>
    intro K K2 _
    rfl

theorem Tree.entryPost_eq_firstPostSub : ∀ (s : Tree (Nat × α)) (K : Ptr), s ≠ Tree.nil →
    s.entryPost K = s.firstPostSub.rootPtr := by
  intro s
  induction s with
  | nil => intro K h; exact absurd rfl h
  | node l x r ihl ihr =>
    intro K _
    cases l with
    | nil =>
      cases r with
      | nil => rfl
      | node rl rx rr =>
        have := ihr (some x.1) (by simp)
        simpa [Tree.entryPost, Tree.firstPostSub] using this
    | node ll lx lr =>
      have := ihl (Tree.entryPost r (some x.1)) (by simp)
      simpa [Tree.entryPost, Tree.firstPostSub] using this

/-- On a subtree in which a right child implies a left child, the left-only descent of the
postorder increment stops at the first postorder node. -/
theorem postorder_descend_of_linked {h : Heap α} : ∀ (s : Tree (Nat × α)) (par K : Ptr)
    (fuel : Nat), s ≠ Tree.nil → Linked h par s → s.leftFull → s.height ≤ fuel →
    _PostOrder_Iterator.descend h fuel s.rootPtr = Except.ok (s.entryPost K) := by
  intro s
  induction s with
  | nil => intro par K fuel h; exact absurd rfl h
  | node l x r ihl _ =>
    intro par K fuel _ hl hfull hf
    simp only [Tree.height] at hf
    obtain ⟨f, rfl⟩ : ∃ f, fuel = f + 1 := ⟨fuel - 1, by omega⟩
    cases l with
    | nil =>
      have hr : r = Tree.nil := by
        by_contra hne
        exact hfull.1 hne rfl
      subst hr
      simp [_PostOrder_Iterator.descend, hl.1, Tree.entryPost]
    | node ll lx lr =>
      have hmax1 : (Tree.node ll lx lr).height ≤ max (Tree.node ll lx lr).height r.height :=
        le_max_left _ _
      have ih := ihl (some x.1) (Tree.entryPost r (some x.1)) f (by simp) hl.2.1 hfull.2.1
        (by omega)
      simp only [Tree.rootPtr_node, _PostOrder_Iterator.descend, hl.1]
      simpa [Tree.entryPost] using ih

/-- Postorder walk over a subtree in which a right child implies a left child: from its first
postorder node, `size` increments list the subtree in postorder and arrive where the increment
at its root arrives. -/
theorem postorder_walk_subtree (h : Heap α) (fuel : Nat) :
    ∀ (s : Tree (Nat × α)) (par K : Ptr), Linked h par s → s.addrs.Nodup → s.leftFull →
      (s ≠ Tree.nil →
        _Iterator.increment traversal_order.postorder fuel h s.rootPtr = Except.ok K) →
      s.height ≤ fuel → ∀ k,
        _Iterator.walk traversal_order.postorder fuel h (s.size + k) (s.entryPost K) =
          prependVisited (asVisited s.postorder)
            (_Iterator.walk traversal_order.postorder fuel h k K) := by
  intro s
  induction s with
  | nil =>
    intro par K _ _ _ _ _ k
    simp [Tree.size, Tree.entryPost, Tree.postorder, asVisited, prependVisited_nil]
  | node l x r ihl ihr =>
    intro par K hlink hnd hfull hK hfuel k
    obtain ⟨hread, hl, hr⟩ := hlink
    rw [Tree.addrs_node] at hnd
    have hndl : l.addrs.Nodup := ((List.nodup_cons.mp hnd).2).of_append_left
    have hndr : r.addrs.Nodup := ((List.nodup_cons.mp hnd).2).of_append_right
    have hdisj := List.disjoint_of_nodup_append (List.nodup_cons.mp hnd).2
    simp only [Tree.height] at hfuel
    have hmax1 : l.height ≤ max l.height r.height := le_max_left _ _
    have hmax2 : r.height ≤ max l.height r.height := le_max_right _ _
    have hK1 := hK (by simp)
    simp only [Tree.rootPtr_node] at hK1
    have hKl : l ≠ Tree.nil →
        _Iterator.increment traversal_order.postorder fuel h l.rootPtr =
          Except.ok (r.entryPost (some x.1)) := by
      intro hne
      cases l with
      | nil => exact absurd rfl hne
      | node ll lx lr =>
        cases r with
        | nil =>
          simp [_Iterator.increment, _PostOrder_Iterator.increment, hl.1, hread, Tree.entryPost]
        | node rl rx rr =>
          have hd := postorder_descend_of_linked (Tree.node rl rx rr) (some x.1) (some x.1) fuel
            (by simp) hr hfull.2.2 (by omega)
          simp only [Tree.rootPtr_node] at hd
          simp [_Iterator.increment, _PostOrder_Iterator.increment, hl.1, hread, hd]
    have hKr : r ≠ Tree.nil →
        _Iterator.increment traversal_order.postorder fuel h r.rootPtr =
          Except.ok (some x.1) := by
      intro hne
      cases r with
      | nil => exact absurd rfl hne
      | node rl rx rr =>
        have hne2 : ¬ some rx.1 = l.rootPtr := by
          intro hc
          exact hdisj (Tree.rootPtr_mem_addrs hc.symm) (by rw [Tree.addrs_node]; simp)
        simp [_Iterator.increment, _PostOrder_Iterator.increment, hr.1, hread, hne2]
    have e1 : (Tree.node l x r).size + k = l.size + (r.size + (k + 1)) := by
      simp only [Tree.size]; omega
    rw [e1, Tree.entryPost, ihl (some x.1) (r.entryPost (some x.1)) hl hndl hfull.2.1 hKl
        (by omega),
      ihr (some x.1) (some x.1) hr hndr hfull.2.2 hKr (by omega),
      walk_succ_of _ _ _ _ _ _ _ hread hK1]
    simp only [Tree.postorder, asVisited, List.map_cons, List.map_append, List.map_nil]
    rw [← prependVisited_append, ← prependVisited_append]
    simp

theorem Tree.postorder_map {β γ : Type} (f : β → γ) (t : Tree β) :
    (t.map f).postorder = t.postorder.map f := by
  induction t with
  | nil => rfl
  | node l x r ihl ihr => simp [Tree.map, Tree.postorder, ihl, ihr]

theorem Tree.inorder_map {β γ : Type} (f : β → γ) (t : Tree β) :
    (t.map f).inorder = t.inorder.map f := by
  induction t with
  | nil => rfl
  | node l x r ihl ihr => simp [Tree.map, Tree.inorder, ihl, ihr]

/-! ## Lemmas: the inorder walk -/

theorem Tree.entryIn_of_ne_nil : ∀ (s : Tree (Nat × α)) (K K2 : Ptr), s ≠ Tree.nil →
    s.entryIn K = s.entryIn K2 := by
  intro s
  cases s with
  | nil => intro K K2 h; exact absurd rfl h
  | node l x r => intro K K2 _; rfl

theorem Tree.entryIn_eq_leftmostSub : ∀ (s : Tree (Nat × α)) (K : Ptr), s ≠ Tree.nil →
    s.entryIn K = s.leftmostSub.rootPtr := by
  intro s
  induction s with
  | nil => intro K h; exact absurd rfl h
  | node l x r ihl _ =>
    intro K _
    cases l with
    | nil => rfl
    | node ll lx lr =>
      have := ihl (some x.1) (by simp)
      simpa [Tree.entryIn, Tree.leftmostSub] using this

/-- The left descent of the inorder increment stops at the leftmost node. -/
theorem inorder_descend_of_linked {h : Heap α} : ∀ (s : Tree (Nat × α)) (par K : Ptr)
    (fuel : Nat), s ≠ Tree.nil → Linked h par s → s.height ≤ fuel →
    _InOrder_Iterator.descend h fuel s.rootPtr = Except.ok (s.entryIn K) := by
  intro s
  induction s with
  | nil => intro par K fuel h; exact absurd rfl h
  | node l x r ihl _ =>
    intro par K fuel _ hl hf
    simp only [Tree.height] at hf
    obtain ⟨f, rfl⟩ : ∃ f, fuel = f + 1 := ⟨fuel - 1, by omega⟩
    cases l with
    | nil => simp [_InOrder_Iterator.descend, hl.1, Tree.entryIn]
    | node ll lx lr =>
      have hmax1 : (Tree.node ll lx lr).height ≤ max (Tree.node ll lx lr).height r.height :=
        le_max_left _ _
      have ih := ihl (some x.1) (some x.1) f (by simp) hl.2.1 (by omega)
      simp only [Tree.rootPtr_node, _InOrder_Iterator.descend, hl.1]
      simpa [Tree.entryIn] using ih

/-- At a node without right child the inorder increment is its `else` branch. -/
theorem inorder_increment_of_no_right {h : Heap α} {a : Nat} {n : _Node α} (fuel : Nat)
    (hr : h.read (some a) = Except.ok n) (hn : n.right = none) :
    _Iterator.increment traversal_order.inorder fuel h (some a) =
      _InOrder_Iterator.ascend h fuel (some a) n.parent := by
  simp [_Iterator.increment, _InOrder_Iterator.increment, hr, hn, _InOrder_Iterator.ascend]

/-- From a left child the `else` branch stops at the parent. -/
theorem inorder_ascend_left {h : Heap α} {a c : Nat} {n m : _Node α} (fuel : Nat)
    (hc : h.read (some c) = Except.ok m) (ha : h.read (some a) = Except.ok n)
    (hne : n.right ≠ some c) (hne2 : m.right ≠ some a) :
    _InOrder_Iterator.ascend h (fuel + 1) (some c) (some a) = Except.ok (some a) := by
  have h1 : ¬ some c = n.right := fun e => hne e.symm
  simp [_InOrder_Iterator.ascend, _InOrder_Iterator.climb, ha, h1, hc, hne2]

/-- From a right child the `else` branch goes on from the parent. -/
theorem inorder_ascend_right {h : Heap α} {a c : Nat} {n : _Node α} (fuel : Nat)
    (ha : h.read (some a) = Except.ok n) (hr : n.right = some c) :
    _InOrder_Iterator.ascend h (fuel + 1) (some c) (some a) =
      _InOrder_Iterator.ascend h fuel (some a) n.parent := by
  simp [_InOrder_Iterator.ascend, _InOrder_Iterator.climb, ha, hr]

/-- Inorder walk over a subtree: from its leftmost node, `size` increments list the subtree in
inorder and arrive where the `else` branch started at its root arrives. -/
theorem inorder_walk_subtree (h : Heap α) :
    ∀ (s : Tree (Nat × α)) (par K : Ptr) (F : Nat), Linked h par s → s.addrs.Nodup →
      (s ≠ Tree.nil → ∀ fuel, F ≤ fuel →
        _InOrder_Iterator.ascend h fuel s.rootPtr par = Except.ok K) →
      ∀ fuel, 1 ≤ F → F + s.height ≤ fuel → ∀ k,
        _Iterator.walk traversal_order.inorder fuel h (s.size + k) (s.entryIn K) =
          prependVisited (asVisited s.inorder)
            (_Iterator.walk traversal_order.inorder fuel h k K) := by
  intro s
  induction s with
  | nil =>
    intro par K F _ _ _ fuel _ _ k
    simp [Tree.size, Tree.entryIn, Tree.inorder, asVisited, prependVisited_nil]
  | node l x r ihl ihr =>
    intro par K F hlink hnd hK fuel hF hfuel k
    obtain ⟨hread, hl, hr⟩ := hlink
    rw [Tree.addrs_node] at hnd
    have hxl : x.1 ∉ l.addrs := fun hc => (List.nodup_cons.mp hnd).1 (by simp [hc])
    have hndl : l.addrs.Nodup := ((List.nodup_cons.mp hnd).2).of_append_left
    have hndr : r.addrs.Nodup := ((List.nodup_cons.mp hnd).2).of_append_right
    have hdisj := List.disjoint_of_nodup_append (List.nodup_cons.mp hnd).2
    simp only [Tree.height] at hfuel
    have hmax1 : l.height ≤ max l.height r.height := le_max_left _ _
    have hmax2 : r.height ≤ max l.height r.height := le_max_right _ _
    have hK1 := hK (by simp)
    simp only [Tree.rootPtr_node] at hK1
    have hKl : l ≠ Tree.nil → ∀ fuel, 1 ≤ fuel →
        _InOrder_Iterator.ascend h fuel l.rootPtr (some x.1) = Except.ok (some x.1) := by
      intro hne fuel hf
      obtain ⟨f, rfl⟩ : ∃ f, fuel = f + 1 := ⟨fuel - 1, by omega⟩
      cases l with
      | nil => exact absurd rfl hne
      | node ll lx lr =>
        refine inorder_ascend_left f hl.1 hread ?_ ?_
        · intro hc
          exact hdisj (by rw [Tree.addrs_node]; simp) (Tree.rootPtr_mem_addrs hc)
        · intro hc
          exact hxl (by
            rw [Tree.addrs_node]
            exact List.mem_cons_of_mem _ (List.mem_append_right _ (Tree.rootPtr_mem_addrs hc)))
    have hKr : r ≠ Tree.nil → ∀ fuel, F + 1 ≤ fuel →
        _InOrder_Iterator.ascend h fuel r.rootPtr (some x.1) = Except.ok K := by
      intro hne fuel hf
      obtain ⟨f, rfl⟩ : ∃ f, fuel = f + 1 := ⟨fuel - 1, by omega⟩
      cases r with
      | nil => exact absurd rfl hne
      | node rl rx rr =>
        rw [Tree.rootPtr_node, inorder_ascend_right f hread rfl]
        exact hK1 f (by omega)
    have hinc : _Iterator.increment traversal_order.inorder fuel h (some x.1) =
        Except.ok (r.entryIn K) := by
      cases r with
      | nil =>
        rw [inorder_increment_of_no_right fuel hread rfl]
        exact hK1 fuel (by omega)
      | node rl rx rr =>
        have hd := inorder_descend_of_linked (Tree.node rl rx rr) (some x.1) K fuel (by simp) hr
          (by omega)
        simp only [Tree.rootPtr_node] at hd
        simp [_Iterator.increment, _InOrder_Iterator.increment, hread, hd]
    have e1 : (Tree.node l x r).size + k = l.size + ((r.size + k) + 1) := by
      simp only [Tree.size]; omega
    rw [e1, Tree.entryIn, ihl (some x.1) (some x.1) 1 hl hndl hKl fuel (le_refl 1) (by omega),
      walk_succ_of _ _ _ _ _ _ _ hread hinc,
      ihr (some x.1) K (F + 1) hr hndr hKr fuel (by omega) (by omega)]
    simp only [Tree.inorder, asVisited, List.map_cons, List.map_append]
    rw [← prependVisited_append, ← prependVisited_append]
    simp

/-! ## Lemmas: successors read off a walk -/

theorem walk_succ_inv {order : traversal_order} {fuel : Nat} {h : Heap α} {k : Nat} {p : Ptr}
    {vis : List (Ptr × α)} {r : Ptr}
    (hw : _Iterator.walk order fuel h (k + 1) p = Except.ok (vis, r)) :
    ∃ v q ps, _Iterator.increment order fuel h p = Except.ok q ∧
      _Iterator.walk order fuel h k q = Except.ok (ps, r) ∧ vis = (p, v) :: ps := by
  simp only [_Iterator.walk] at hw
  cases hd : _Iterator.deref h p with
  | error e => simp [hd] at hw
  | ok v =>
    cases hi : _Iterator.increment order fuel h p with
    | error e => simp [hd, hi] at hw
    | ok q =>
      cases hk : _Iterator.walk order fuel h k q with
      | error e => simp [hd, hi, hk] at hw
      | ok res =>
        obtain ⟨ps, r2⟩ := res
        simp only [hd, hi, hk, Except.ok.injEq, Prod.mk.injEq] at hw
        obtain ⟨h1, h2⟩ := hw
        subst h1 h2
        exact ⟨v, q, ps, rfl, hk, rfl⟩

/-- When a walk stands at the nodes of a listing, the increment at each of them leads to the
next one of the listing, and at the last one to the cursor the walk ends at. -/
theorem walk_next {order : traversal_order} {fuel : Nat} {h : Heap α} :
    ∀ (L : List (Nat × α)) (p r : Ptr),
      _Iterator.walk order fuel h L.length p = Except.ok (asVisited L, r) →
      ∀ a ∈ L.map Prod.fst,
        _Iterator.increment order fuel h (some a) = Except.ok (nextAfter r (L.map Prod.fst) a) := by
  intro L
  induction L with
  | nil => intro p r _ a ha; simp at ha
  | cons x rest ih =>
    intro p r hw a ha
    obtain ⟨v, q, ps, hi, hk, hvis⟩ := walk_succ_inv hw
    simp only [asVisited, List.map_cons, List.cons.injEq, Prod.mk.injEq] at hvis
    obtain ⟨⟨hp, _⟩, hps⟩ := hvis
    subst hp
    have hk2 : _Iterator.walk order fuel h rest.length q = Except.ok (asVisited rest, r) := by
      rw [hk, ← hps]; rfl
    by_cases hxa : x.1 = a
    · subst hxa
      cases rest with
      | nil =>
        simp only [List.length_nil, _Iterator.walk, Except.ok.injEq, Prod.mk.injEq] at hk2
        simp [nextAfter, hi, hk2.2]
      | cons y rest2 =>
        obtain ⟨_, _, _, _, _, hvis2⟩ := walk_succ_inv hk2
        simp only [asVisited, List.map_cons, List.cons.injEq, Prod.mk.injEq] at hvis2
        simp [nextAfter, hi, hvis2.1.1]
    · have ha2 : a ∈ rest.map Prod.fst := by
        simp only [List.map_cons, List.mem_cons] at ha
        rcases ha with ha | ha
        · exact absurd ha.symm hxa
        · exact ha
      simp only [List.map_cons, nextAfter, hxa, if_false]
      exact ih q r hk2 a ha2

theorem nextAfter_of_mem_init (K K2 : Ptr) (z : Nat) : ∀ (L : List Nat) (a : Nat), a ∈ L →
    nextAfter K (L ++ [z]) a = nextAfter K2 (L ++ [z]) a := by
  intro L
  induction L with
  | nil => intro a ha; simp at ha
  | cons x rest ih =>
    intro a ha
    by_cases hxa : x = a
    · cases rest <;> simp [nextAfter, hxa]
    · have : a ∈ rest := by
        rcases List.mem_cons.mp ha with h | h
        · exact absurd h.symm hxa
        · exact h
      simp only [List.cons_append, nextAfter, hxa, if_false]
      exact ih a this

theorem nextAfter_last (K : Ptr) (z : Nat) : ∀ (L : List Nat), z ∉ L →
    nextAfter K (L ++ [z]) z = K := by
  intro L
  induction L with
  | nil => intro _; simp [nextAfter]
  | cons x rest ih =>
    intro hz
    have hxz : ¬ x = z := fun e => hz (by simp [e])
    simp only [List.cons_append, nextAfter, hxz, if_false]
    exact ih (fun hc => hz (List.mem_cons_of_mem _ hc))

theorem Tree.mem_inorder_iff {β : Type} (t : Tree β) (x : β) :
    x ∈ t.inorder ↔ x ∈ t.preorder := by
  induction t with
  | nil => simp [Tree.inorder, Tree.preorder]
  | node l y r ihl ihr =>
    simp only [Tree.inorder, Tree.preorder, List.mem_append, List.mem_cons, ihl, ihr]
    constructor
    · rintro (h | h | h)
      · exact Or.inr (Or.inl h)
      · exact Or.inl h
      · exact Or.inr (Or.inr h)
    · rintro (h | h | h)
      · exact Or.inr (Or.inl h)
      · exact Or.inl h
      · exact Or.inr (Or.inr h)

theorem Tree.mem_map_fst_inorder_iff (t : Tree (Nat × α)) (a : Nat) :
    a ∈ t.inorder.map Prod.fst ↔ a ∈ t.addrs := by
  simp only [Tree.addrs, List.mem_map, Tree.mem_inorder_iff]

theorem Tree.length_inorder {β : Type} (t : Tree β) : t.inorder.length = t.size := by
  induction t with
  | nil => rfl
  | node l x r ihl ihr => simp [Tree.inorder, Tree.size, ihl, ihr]; omega

/-- In a linked tree whose root has a null parent, only the root has a null parent. -/
theorem Linked.root_of_parent_none {h : Heap α} (t : Tree (Nat × α)) (hl : Linked h none t)
    (a : Nat) (ha : a ∈ t.addrs) (n : _Node α) (hn : h.read (some a) = Except.ok n)
    (hp : n.parent = none) : t.rootPtr = some a := by
  by_contra hne
  obtain ⟨p, hp1, k, hk, hc⟩ := Linked.parent_exists t none hl a ha hne
  obtain ⟨k2, hk2, hq⟩ := Linked.child_links t none hl p hp1
  cases hk2.symm.trans hk
  obtain ⟨_, m, hm, hmp⟩ := hq a hc
  cases hm.symm.trans hn
  rw [hp] at hmp
  cases hmp

/-- On a linked tree with distinct addresses and a null parent at the root, `size` inorder
increments from the leftmost node list the tree in inorder; they end at null when the root has
a right child and at the root when it has none. -/
theorem inorder_walk_linked (h : Heap α) (t : Tree (Nat × α)) (fuel : Nat)
    (hlinked : Linked h none t) (hdist : t.addrs.Nodup) (hfuel : t.height < fuel) :
    _Iterator.walk traversal_order.inorder fuel h t.size (t.entryIn t.inorderExit) =
      Except.ok (asVisited t.inorder, t.inorderExit) := by
  have hK : t ≠ Tree.nil → ∀ f, 1 ≤ f →
      _InOrder_Iterator.ascend h f t.rootPtr none = Except.ok t.inorderExit := by
    intro hne f _
    cases t with
    | nil => exact absurd rfl hne
    | node l x r =>
      have hread := hlinked.1
      cases r <;> cases f <;>
        simp [_InOrder_Iterator.ascend, _InOrder_Iterator.climb, hread, Tree.inorderExit]
  have hw := inorder_walk_subtree h t none t.inorderExit 1 hlinked hdist hK fuel (le_refl 1)
    (by omega) 0
  rw [Nat.add_zero] at hw
  rw [hw]
  show prependVisited _ (Except.ok ([], t.inorderExit)) = _
  simp [prependVisited]

/-! ## Lemmas: deep copy -/

theorem Heap.attach_eq {h : Heap α} {p : Nat} {n : _Node α} (sd : Side) (x : α) (q : Ptr)
    (hr : h.read (some p) = Except.ok n) :
    ((h ++ [some (_Node.mk1 x)]).set p (some (n.setSlot sd (some h.length)))).set h.length
        (some { _Node.mk1 x with parent := q }) =
      h.setSlot p sd (some h.length) ++
        [some { value := x, parent := q, left := none, right := none }] := by
  have hlt := Heap.lt_length_of_read hr
  simp only [Heap.setSlot, Heap.read_eq_ok.mp hr]
  rw [List.set_append_left _ _ hlt, List.set_append_right _ _ (by simp)]
  simp [_Node.mk1]

theorem Linked.lt_length {h : Heap α} (t : Tree (Nat × α)) (par : Ptr) (hl : Linked h par t)
    (d : Nat) (hd : d ∈ t.addrs) : d < h.length := by
  obtain ⟨n, hn, _⟩ := Linked.child_links t par hl d hd
  exact Heap.lt_length_of_read hn

/-- Copying a linked subtree into a child member of a live node `b`: the copies are grafted
below `b`, and `_root` is not touched. -/
theorem deep_copy_member : ∀ (s : Tree (Nat × α)) (t : _Binary_Tree α) (par : Ptr) (b : Nat)
    (sd : Side) (nb : _Node α) (fuel : Nat), Linked t.mem par s → b ∉ s.addrs →
    t.mem.read (some b) = Except.ok nb → s.height ≤ fuel →
    _Binary_Tree.deep_copy fuel t s.rootPtr (NodeRef.member (some b, sd)) (some b) =
      Except.ok { mem := t.mem.graft b sd (s.map Prod.snd), _root := t._root } := by
  intro s
  induction s with
  | nil =>
    intro t par b sd nb fuel _ _ _ _
    cases fuel <;> rfl
  | node l x r ihl ihr =>
    intro t par b sd nb fuel hlink hb hrb hfuel
    obtain ⟨hread, hl, hr⟩ := hlink
    simp only [Tree.height] at hfuel
    obtain ⟨f, rfl⟩ : ∃ f, fuel = f + 1 := ⟨fuel - 1, by omega⟩
    have hmax1 : l.height ≤ max l.height r.height := le_max_left _ _
    have hmax2 : r.height ≤ max l.height r.height := le_max_right _ _
    have hbx : b ≠ x.1 := fun e => hb (by rw [Tree.addrs_node]; simp [e])
    have hbl : b ∉ l.addrs := fun e => hb (by rw [Tree.addrs_node]; simp [e])
    have hbr : b ∉ r.addrs := fun e => hb (by rw [Tree.addrs_node]; simp [e])
    have hblt := Heap.lt_length_of_read hrb
    have hxlt := Heap.lt_length_of_read hread
    -- the heap once the copy of the root is attached
    obtain ⟨A, hA⟩ : ∃ A : Heap α, A = t.mem.setSlot b sd (some t.mem.length) ++
        [some ({ value := x.2, parent := some b, left := none, right := none } : _Node α)] :=
      ⟨_, rfl⟩
    have hlenA : A.length = t.mem.length + 1 := by rw [hA]; simp [Heap.length_setSlot]
    have hrAc : A.read (some t.mem.length) =
        Except.ok { value := x.2, parent := some b, left := none, right := none } := by
      have := Heap.read_append_new (t.mem.setSlot b sd (some t.mem.length))
        ({ value := x.2, parent := some b, left := none, right := none } : _Node α)
      rw [Heap.length_setSlot] at this
      rw [hA]; exact this
    have hrAb : A.read (some b) = Except.ok (nb.setSlot sd (some t.mem.length)) := by
      rw [hA, Heap.read_append_left _ (by rw [Heap.length_setSlot]; exact hblt)]
      exact Heap.read_setSlot_self sd _ hrb
    have hframeA : ∀ d, d < t.mem.length → d ≠ b → A.read (some d) = t.mem.read (some d) := by
      intro d hd hdb
      rw [hA, Heap.read_append_left _ (by rw [Heap.length_setSlot]; exact hd)]
      exact Heap.read_setSlot_ne _ sd _ hdb
    have hrAx := (hframeA x.1 hxlt (Ne.symm hbx)).trans hread
    -- the first statements of the body
    have hr1 : Heap.read (t.mem ++ [some (_Node.mk1 x.2)]) (some b) = Except.ok nb := by
      rw [Heap.read_append_left _ hblt, hrb]
    have hr2 : Heap.read ((t.mem ++ [some (_Node.mk1 x.2)]).set b
        (some (nb.setSlot sd (some t.mem.length)))) (some b) =
          Except.ok (nb.setSlot sd (some t.mem.length)) :=
      Heap.read_set_self _ (by simp; omega)
    have hr2c : Heap.read ((t.mem ++ [some (_Node.mk1 x.2)]).set b
        (some (nb.setSlot sd (some t.mem.length)))) (some t.mem.length) =
          Except.ok (_Node.mk1 x.2) := by
      rw [Heap.read_set_ne _ _ (by omega), Heap.read_append_new]
    have hAeq := Heap.attach_eq sd x.2 (some b) hrb
    rw [← hA] at hAeq
    -- the two recursive calls
    have hLl : Linked A (some x.1) l :=
      Linked.frame l _ (fun d hd => hframeA d (Linked.lt_length l _ hl d hd)
        (fun e => hbl (e ▸ hd))) hl
    have hcl : t.mem.length ∉ l.addrs := fun e => by
      have := Linked.lt_length l _ hl _ e
      omega
    have e1 := ihl { mem := A, _root := t._root } (some x.1) t.mem.length Side.left _ f hLl hcl
      hrAc (by omega)
    have hlen3 : (A.graft t.mem.length Side.left (l.map Prod.snd)).length =
        A.length + (l.map Prod.snd).size := Heap.length_graft _ _ _ _
    have hframe3 : ∀ d, d < t.mem.length →
        Heap.read (A.graft t.mem.length Side.left (l.map Prod.snd)) (some d) =
          A.read (some d) :=
      fun d hd => Heap.read_graft_frame _ A t.mem.length Side.left (by omega) (by omega)
    have hr3x := (hframe3 x.1 hxlt).trans hrAx
    have hr3b := (hframe3 b hblt).trans hrAb
    have hr3c := Heap.read_graft_parent (l.map Prod.snd) A t.mem.length Side.left _ hrAc
    have hLr : Linked (A.graft t.mem.length Side.left (l.map Prod.snd)) (some x.1) r :=
      Linked.frame r _ (fun d hd => by
        have hdlt := Linked.lt_length r _ hr d hd
        rw [hframe3 d hdlt]
        exact hframeA d hdlt (fun e => hbr (e ▸ hd))) hr
    have hcr : t.mem.length ∉ r.addrs := fun e => by
      have := Linked.lt_length r _ hr _ e
      omega
    have e2 := ihr { mem := A.graft t.mem.length Side.left (l.map Prod.snd), _root := t._root }
      (some x.1) t.mem.length Side.right _ f hLr hcr hr3c (by omega)
    simp only [Tree.rootPtr_node, _Binary_Tree.deep_copy, _Iterator.deref, hread, Heap.alloc,
      _Binary_Tree.writeRef, Heap.modify_of_read _ hr1, _Binary_Tree.readRef,
      Heap.readSlot_of_read sd hr2, _Node.slot_setSlot, Heap.modify_of_read _ hr2c, hAeq,
      _Iterator.left, hrAx, Heap.readSlot_of_read sd hrAb, e1, _Iterator.right, hr3x,
      Heap.readSlot_of_read sd hr3b, e2]
    rw [hA]
    rfl

/-- Copying a linked non-empty subtree into `_root`: the copies are appended in preorder, the
parent of the first is null, and `_root` is its address. -/
theorem deep_copy_root (l r : Tree (Nat × α)) (x : Nat × α) (t : _Binary_Tree α) (par : Ptr)
    (fuel : Nat) (hlink : Linked t.mem par (Tree.node l x r))
    (hfuel : (Tree.node l x r).height ≤ fuel) :
    _Binary_Tree.deep_copy fuel t (some x.1) NodeRef.root none =
      Except.ok { mem := copiedMem t.mem (l.map Prod.snd) x.2 (r.map Prod.snd),
                  _root := some t.mem.length } := by
  obtain ⟨hread, hl, hr⟩ := hlink
  simp only [Tree.height] at hfuel
  obtain ⟨f, rfl⟩ : ∃ f, fuel = f + 1 := ⟨fuel - 1, by omega⟩
  have hmax1 : l.height ≤ max l.height r.height := le_max_left _ _
  have hmax2 : r.height ≤ max l.height r.height := le_max_right _ _
  have hxlt := Heap.lt_length_of_read hread
  obtain ⟨A, hA⟩ : ∃ A : Heap α, A = t.mem ++
      [some ({ value := x.2, parent := none, left := none, right := none } : _Node α)] :=
    ⟨_, rfl⟩
  have hlenA : A.length = t.mem.length + 1 := by rw [hA]; simp
  have hrAc : A.read (some t.mem.length) =
      Except.ok { value := x.2, parent := none, left := none, right := none } := by
    rw [hA]; exact Heap.read_append_new _ _
  have hframeA : ∀ d, d < t.mem.length → A.read (some d) = t.mem.read (some d) := by
    intro d hd
    rw [hA, Heap.read_append_left _ hd]
  have hrAx := (hframeA x.1 hxlt).trans hread
  have hr1c : Heap.read (t.mem ++ [some (_Node.mk1 x.2)]) (some t.mem.length) =
      Except.ok (_Node.mk1 x.2) := Heap.read_append_new _ _
  have hAeq : (t.mem ++ [some (_Node.mk1 x.2)]).set t.mem.length
      (some { _Node.mk1 x.2 with parent := none }) = A := by
    rw [hA, List.set_append_right _ _ (le_refl _)]
    simp [_Node.mk1]
  have hLl : Linked A (some x.1) l :=
    Linked.frame l _ (fun d hd => hframeA d (Linked.lt_length l _ hl d hd)) hl
  have hcl : t.mem.length ∉ l.addrs := fun e => by
    have := Linked.lt_length l _ hl _ e
    omega
  have e1 := deep_copy_member l { mem := A, _root := some t.mem.length } (some x.1) t.mem.length
    Side.left _ f hLl hcl hrAc (by omega)
  have hframe3 : ∀ d, d < t.mem.length →
      Heap.read (A.graft t.mem.length Side.left (l.map Prod.snd)) (some d) =
        A.read (some d) :=
    fun d hd => Heap.read_graft_frame _ A t.mem.length Side.left (by omega) (by omega)
  have hr3x := (hframe3 x.1 hxlt).trans hrAx
  have hr3c := Heap.read_graft_parent (l.map Prod.snd) A t.mem.length Side.left _ hrAc
  have hLr : Linked (A.graft t.mem.length Side.left (l.map Prod.snd)) (some x.1) r :=
    Linked.frame r _ (fun d hd => by
      have hdlt := Linked.lt_length r _ hr d hd
      rw [hframe3 d hdlt]
      exact hframeA d hdlt) hr
  have hcr : t.mem.length ∉ r.addrs := fun e => by
    have := Linked.lt_length r _ hr _ e
    omega
  have e2 := deep_copy_member r
    { mem := A.graft t.mem.length Side.left (l.map Prod.snd), _root := some t.mem.length }
    (some x.1) t.mem.length Side.right _ f hLr hcr hr3c (by omega)
  simp only [_Binary_Tree.deep_copy, _Iterator.deref, hread, Heap.alloc,
    _Binary_Tree.writeRef, _Binary_Tree.readRef, Heap.modify_of_read _ hr1c, hAeq,
    _Iterator.left, hrAx, e1, _Iterator.right, hr3x, e2]
  rw [hA]
  rfl

/-- A deep copy leaves the old cells as they were. -/
theorem getElem?_copiedMem (mem : Heap α) (l : Tree α) (v : α) (r : Tree α) (d : Nat)
    (hd : d < mem.length) : (copiedMem mem l v r)[d]? = mem[d]? := by
  unfold copiedMem
  rw [Heap.getElem?_graft_frame _ _ _ _ d (by rw [Heap.length_graft]; simp; omega) (by omega),
    Heap.getElem?_graft_frame _ _ _ _ d (by simp; omega) (by omega),
    List.getElem?_append_left hd]

/-- The copies are linked as the copied tree, with a null parent at the first. -/
theorem linked_copiedMem (mem : Heap α) (l : Tree α) (v : α) (r : Tree α) :
    Linked (copiedMem mem l v r) none (Tree.label mem.length (Tree.node l v r)) := by
  have hlenA : (mem ++
      [some ({ value := v, parent := none, left := none, right := none } : _Node α)]).length =
        mem.length + 1 := by simp
  have h1 : Heap.read (mem ++
      [some ({ value := v, parent := none, left := none, right := none } : _Node α)])
        (some mem.length) =
      Except.ok { value := v, parent := none, left := none, right := none } :=
    Heap.read_append_new _ _
  have h2 := Heap.read_graft_parent l _ mem.length Side.left _ h1
  have h3 := Heap.read_graft_parent r _ mem.length Side.right _ h2
  have hLl := Heap.linked_graft l (mem ++
      [some ({ value := v, parent := none, left := none, right := none } : _Node α)])
      mem.length Side.left
  have hLr := Heap.linked_graft r (Heap.graft (mem ++
      [some ({ value := v, parent := none, left := none, right := none } : _Node α)])
      mem.length Side.left l) mem.length Side.right
  have hlen3 : (Heap.graft (mem ++
      [some ({ value := v, parent := none, left := none, right := none } : _Node α)])
      mem.length Side.left l).length = mem.length + 1 + l.size := by
    rw [Heap.length_graft, hlenA]
  rw [hlenA] at hLl
  rw [hlen3] at hLr
  refine ⟨?_, ?_, hLr⟩
  · unfold copiedMem
    rw [h3]
    cases l <;> cases r <;>
      simp [Tree.rootPtr_label, _Node.setSlot, Heap.length_graft, Tree.size]
  · refine Linked.frame _ _ (fun c hc => ?_) hLl
    rw [Tree.mem_addrs_label] at hc
    exact Heap.read_graft_frame r _ mem.length Side.right (by rw [hlen3]; omega) (by omega)

theorem Tree.size_map {β γ : Type} (f : β → γ) (t : Tree β) : (t.map f).size = t.size := by
  induction t with
  | nil => rfl
  | node l x r ihl ihr => simp [Tree.map, Tree.size, ihl, ihr]

theorem Tree.height_map {β γ : Type} (f : β → γ) (t : Tree β) : (t.map f).height = t.height := by
  induction t with
  | nil => rfl
  | node l x r ihl ihr => simp [Tree.map, Tree.height, ihl, ihr]

/-! ## The claims -/

/-- C1: for every non-empty tree `T` whose values all differ from the marker, `construct` run on
the preorder encoding of `T` returns a tree object, the tree of values read back from its root
through `left` and `right` is `T` itself (same shape, same value at every position), and that
is the tree the recursive parser of `Subtree ::= MARKER | VALUE Subtree Subtree` returns on the
same tokens, with no token left over. -/
theorem construct_roundtrip [DecidableEq α] (M : α) (T : Tree α) (mem : Heap α) (hdr : _Node α)
    (fuel : Nat) (hne : T ≠ Tree.nil) (hval : ∀ x ∈ T.preorder, x ≠ M)
    (hfuel : (T.encode M).length < fuel) :
    ∃ tr : _Binary_Tree α,
      _Binary_Tree.construct fuel mem hdr (T.encode M) M = Except.ok tr ∧
      readTree tr.mem fuel tr._root = some T ∧
      parseSubtree M fuel (T.encode M) = some (T, []) := by
  have hh := Tree.height_le_size T
  have hlen := Tree.length_encode M T
  cases T with
  | nil => exact absurd rfl hne
  | node l v r =>
    refine ⟨_, construct_encode M l v r mem hdr fuel hval hfuel, ?_, ?_⟩
    · have h1 := readTree_of_linked _ _ fuel (linked_constructedMem mem hdr l v r)
        (by rw [Tree.height_label]; omega)
      rw [Tree.map_snd_label] at h1
      exact h1
    · have h2 := parseSubtree_encode M (Tree.node l v r) [] fuel hval (by omega)
      simpa using h2

theorem construct_roundtrip_witness :
    balanced3 ≠ Tree.nil ∧ (∀ x ∈ balanced3.preorder, x ≠ 0) ∧
      (balanced3.encode 0).length < 8 ∧
      ∃ tr : _Binary_Tree Nat,
        _Binary_Tree.construct 8 [] hdr0 (balanced3.encode 0) 0 = Except.ok tr ∧
        readTree tr.mem 8 tr._root = some balanced3 ∧
        parseSubtree 0 8 (balanced3.encode 0) = some (balanced3, []) :=
  ⟨by decide, by decide, by decide,
    construct_roundtrip 0 balanced3 [] hdr0 8 (by decide) (by decide) (by decide)⟩

/-- C2: for every non-empty well-formed tree, `begin<preorder>()` is the cursor at the root,
and `count()` preorder increments from it end at `end()`, having stood exactly at the nodes of
the reference preorder listing (node, left subtree, right subtree) in that order: the values
read are the preorder listing of the values, no cursor on the way is `end()`, and no node is
visited twice. -/
theorem preorder_walk_correct (tr : _Binary_Tree α) (t : Tree (Nat × α)) (fuel : Nat)
    (hwf : WellFormed tr t) (hne : t ≠ Tree.nil) (hfuel : t.height < fuel) :
    BiTree.count tr fuel = Except.ok t.size ∧
      tr.begin traversal_order.preorder fuel = Except.ok t.rootPtr ∧
      t.rootPtr ≠ tr.end traversal_order.preorder ∧
      _Iterator.walk traversal_order.preorder fuel tr.mem t.size t.rootPtr =
        Except.ok (asVisited t.preorder, tr.end traversal_order.preorder) ∧
      (asVisited t.preorder).map Prod.snd = (t.map Prod.snd).preorder ∧
      (∀ c ∈ asVisited t.preorder, c.1 ≠ tr.end traversal_order.preorder) ∧
      ((asVisited t.preorder).map Prod.fst).Nodup := by
  obtain ⟨hroot, hlinked, hdist⟩ := hwf
  have hK : t ≠ Tree.nil → ∀ f, 1 ≤ f →
      _PreOrder_Iterator.climb tr.mem f t.rootPtr = Except.ok none := by
    intro _ f hf
    obtain ⟨f1, rfl⟩ : ∃ f1, f = f1 + 1 := ⟨f - 1, by omega⟩
    cases t with
    | nil => exact absurd rfl hne
    | node l x r => exact preorder_climb_root f1 hlinked.1 rfl
  have hw := preorder_walk_subtree tr.mem t none none 1 hlinked hdist hK fuel (by omega) 0
  have hbeg := begin_preorder_of_wellFormed (WellFormed.mk hroot hlinked hdist) hne fuel
  refine ⟨?_, hbeg, ?_, ?_, ?_, ?_, ?_⟩
  · simp only [BiTree.count, hbeg]
    exact countAt_of_linked t none fuel hlinked (by omega)
  · cases t with
    | nil => exact absurd rfl hne
    | node l x r => simp [_Binary_Tree.end]
  · cases t with
    | nil => exact absurd rfl hne
    | node l x r =>
      simpa [Tree.entry, _Iterator.walk, prependVisited, _Binary_Tree.end] using hw
  · rw [map_snd_asVisited, Tree.preorder_map]
  · intro c hc
    simp only [asVisited, List.mem_map] at hc
    obtain ⟨x, _, rfl⟩ := hc
    simp [_Binary_Tree.end]
  · rw [map_fst_asVisited]
    exact hdist.map (Option.some_injective _)

theorem preorder_walk_correct_witness :
    WellFormed balanced3Obj (Tree.label 1 balanced3) ∧ Tree.label 1 balanced3 ≠ Tree.nil ∧
      (Tree.label 1 balanced3).height < 3 ∧
      BiTree.count balanced3Obj 3 = Except.ok 3 ∧
      _Iterator.walk traversal_order.preorder 3 balanced3Obj.mem 3 (some 1) =
        Except.ok ([(some 1, 1), (some 2, 2), (some 3, 3)], none) :=
  ⟨wellFormed_balanced3Obj, by decide, by decide,
    (preorder_walk_correct balanced3Obj (Tree.label 1 balanced3) 3 wellFormed_balanced3Obj
      (by decide) (by decide)).1,
    (preorder_walk_correct balanced3Obj (Tree.label 1 balanced3) 3 wellFormed_balanced3Obj
      (by decide) (by decide)).2.2.2.1⟩

theorem inorder_increment_stuck (h : Heap α) (a : Nat) (v : α) (l : Ptr) (fuel : Nat)
    (hr : h.read (some a) = Except.ok { value := v, parent := none, left := l, right := none }) :
    _Iterator.increment traversal_order.inorder fuel h (some a) = Except.ok (some a) := by
  cases fuel <;>
    simp [_Iterator.increment, _InOrder_Iterator.increment, hr, _InOrder_Iterator.climb]

theorem inorder_walk_stuck (h : Heap α) (a : Nat) (v : α) (l : Ptr) (fuel : Nat)
    (hr : h.read (some a) = Except.ok { value := v, parent := none, left := l, right := none }) :
    ∀ k, _Iterator.walk traversal_order.inorder fuel h k (some a) =
      Except.ok (List.replicate k (some a, v), some a) := by
  intro k
  induction k with
  | zero => rfl
  | succ k ih =>
    simp [_Iterator.walk, _Iterator.deref, hr, inorder_increment_stuck h a v l fuel hr, ih,
      List.replicate_succ]

/-- C3 (evaluation at the failing inputs): on the single-node tree decoded from `[1, 0, 0]`
the inorder walk starts at the root and every increment leaves the cursor at the root, so
`end()` is never reached; on the left-skewed tree decoded from `[1, 2, 3, 0, 0, 0, 0]` the walk
visits 3, 2, 1 and then stays at the root for ever. -/
theorem inorder_walk_never_ends (fuel k : Nat) :
    _Binary_Tree.construct 4 [] hdr0 [1, 0, 0] 0 = Except.ok single1Obj ∧
      single1Obj.begin traversal_order.inorder 2 = Except.ok (some 1) ∧
      BiTree.count single1Obj 2 = Except.ok 1 ∧
      _Iterator.walk traversal_order.inorder fuel single1Obj.mem k (some 1) =
        Except.ok (List.replicate k (some 1, 1), some 1) ∧
      _Binary_Tree.construct 8 [] hdr0 [1, 2, 3, 0, 0, 0, 0] 0 = Except.ok skewed3Obj ∧
      skewed3Obj.begin traversal_order.inorder 4 = Except.ok (some 3) ∧
      BiTree.count skewed3Obj 4 = Except.ok 3 ∧
      _Iterator.walk traversal_order.inorder 4 skewed3Obj.mem 3 (some 3) =
        Except.ok ([(some 3, 3), (some 2, 2), (some 1, 1)], some 1) ∧
      _Iterator.walk traversal_order.inorder fuel skewed3Obj.mem k (some 1) =
        Except.ok (List.replicate k (some 1, 1), some 1) :=
  ⟨by decide, by decide, by decide, inorder_walk_stuck single1Obj.mem 1 1 none fuel rfl k,
    by decide, by decide, by decide, by decide, inorder_walk_stuck skewed3Obj.mem 1 1 (some 2) fuel rfl k⟩

/-- C4 (evaluation at the failing input): on the tree decoded from
`[1, 2, 0, 0, 3, 0, 4, 0, 0]`, whose reference postorder listing is 2, 4, 3, 1 and whose
`count()` is 4, the postorder walk from `begin<postorder>()` is at `end()` after 3 increments
and has visited 2, 3, 1: from the left child 2 the increment goes to its sibling 3, not to 4,
the first postorder node of the sibling subtree. -/
theorem postorder_walk_skips_node :
    _Binary_Tree.construct 10 [] hdr0 [1, 2, 0, 0, 3, 0, 4, 0, 0] 0 = Except.ok rightTail4Obj ∧
      readTree rightTail4Obj.mem 4 rightTail4Obj._root = some rightTail4 ∧
      rightTail4.postorder = [2, 4, 3, 1] ∧
      BiTree.count rightTail4Obj 4 = Except.ok 4 ∧
      rightTail4Obj.begin traversal_order.postorder 4 = Except.ok (some 2) ∧
      _Iterator.increment traversal_order.postorder 4 rightTail4Obj.mem (some 2) =
        Except.ok (some 3) ∧
      _Iterator.walk traversal_order.postorder 4 rightTail4Obj.mem 3 (some 2) =
        Except.ok ([(some 2, 2), (some 3, 3), (some 1, 1)], none) := by
  decide

/-- C5 (counterexample): neither `[1, 0, 0, 2]` (a token remains after the outer subtree has
closed) nor `[1]` (the stream ends with both slots of the root pending) is one `Subtree` of the
grammar, and on both `construct` returns a tree instead of failing. -/
theorem construct_accepts_malformed :
    parseSubtree 0 9 [1, 0, 0, 2] = some (Tree.node Tree.nil 1 Tree.nil, [2]) ∧
      _Binary_Tree.construct 9 [] hdr0 [1, 0, 0, 2] 0 = Except.ok
        { mem := [none, some { value := 1, parent := none, left := none, right := some 2 },
            some { value := 2, parent := some 1, left := none, right := none }],
          _root := some 1 } ∧
      parseSubtree 0 9 [1] = none ∧
      _Binary_Tree.construct 9 [] hdr0 [1] 0 = Except.ok single1Obj := by
  decide

/-- C5 (amended): `construct` has no decode error.  For values `v`, `w` other than the marker,
on `[v, M, M, w]` (a token after the outer subtree has closed) it returns the tree it returns
on `[v, M, w, M, M]`, root `v` with right child `w`, and on `[v]` (the stream ends while slots
are pending) it returns the tree it returns on `[v, M, M]`, the single node `v`. -/
theorem construct_malformed_returns [DecidableEq α] (M v w : α) (mem : Heap α) (hdr : _Node α)
    (fuel : Nat) (hv : v ≠ M) (hw : w ≠ M) (hfuel : 3 < fuel) :
    (∃ tr : _Binary_Tree α,
      _Binary_Tree.construct fuel mem hdr [v, M, M, w] M = Except.ok tr ∧
      readTree tr.mem fuel tr._root =
        some (Tree.node Tree.nil v (Tree.node Tree.nil w Tree.nil))) ∧
    (∃ tr : _Binary_Tree α,
      _Binary_Tree.construct fuel mem hdr [v] M = Except.ok tr ∧
      readTree tr.mem fuel tr._root = some (Tree.node Tree.nil v Tree.nil)) := by
  have hr0 : Heap.read (mem ++ [some hdr]) (some mem.length) = Except.ok hdr :=
    Heap.read_append_new mem hdr
  have hlen0 : (mem ++ [some hdr]).length = mem.length + 1 := by simp
  obtain ⟨g, rfl⟩ : ∃ g, fuel = g + 1 + 1 + 1 + 1 := ⟨fuel - 4, by omega⟩
  -- the heap once the root is attached
  have hrA : Heap.read ((mem ++ [some hdr]).setSlot mem.length Side.left
      (some (mem ++ [some hdr]).length) ++
      [some ({ value := v, parent := some mem.length, left := none, right := none } : _Node α)])
        (some (mem ++ [some hdr]).length) =
      Except.ok { value := v, parent := some mem.length, left := none, right := none } := by
    have := Heap.read_append_new ((mem ++ [some hdr]).setSlot mem.length Side.left
      (some (mem ++ [some hdr]).length))
      ({ value := v, parent := some mem.length, left := none, right := none } : _Node α)
    rwa [Heap.length_setSlot] at this
  have hK : _Binary_Tree.constructAscend ((mem ++ [some hdr]).setSlot mem.length Side.left
      (some (mem ++ [some hdr]).length) ++
      [some ({ value := v, parent := some mem.length, left := none, right := none } : _Node α)])
      (some mem.length) (g + 1 + 1 + 1 + 1) (some (mem ++ [some hdr]).length) =
        Except.ok (some (mem ++ [some hdr]).length) := by
    rw [_Binary_Tree.constructAscend, hrA]
    simp
  constructor
  · have e1 := constructLoop_value M [v, M, M, w]
          (some mem.length) (g + 1 + 1 + 1 + 1) (g + 1 + 1 + 1) Side.left hr0 (i := 0) rfl hv
    have e2 := constructLoop_marker_marker M [v, M, M, w]
          (some mem.length) (g + 1 + 1 + 1 + 1) (g + 1 + 1) hrA (i := 0 + 1) rfl rfl hK
    have e3 := constructLoop_value M [v, M, M, w]
          (some mem.length) (g + 1 + 1 + 1 + 1) (g + 1) Side.right hrA
      (i := 0 + 1 + 1 + 1) rfl hw
    have e4 : ∀ (h : Heap α) (q : Ptr) (sp : SlotPtr), _Binary_Tree.constructLoop M [v, M, M, w]
        (some mem.length) (g + 1 + 1 + 1 + 1) (g + 1) h q sp (0 + 1 + 1 + 1 + 1) = Except.ok h := by
      intro h q sp
      rw [_Binary_Tree.constructLoop]; simp
    have eloop := e1.trans (e2.trans (e3.trans (e4 _ _ _)))
    refine ⟨_, construct_finish M _ Tree.nil v (Tree.node Tree.nil w Tree.nil) mem hdr _ eloop, ?_⟩
    have h1 := readTree_of_linked _ _ (g + 1 + 1 + 1 + 1)
      (linked_constructedMem mem hdr Tree.nil v (Tree.node Tree.nil w Tree.nil))
      (by simp [Tree.height_label, Tree.height])
    rw [Tree.map_snd_label] at h1
    exact h1
  · have e1 := constructLoop_value M [v]
          (some mem.length) (g + 1 + 1 + 1 + 1) (g + 1 + 1 + 1) Side.left hr0 (i := 0) rfl hv
    have e4 : ∀ (h : Heap α) (q : Ptr) (sp : SlotPtr), _Binary_Tree.constructLoop M [v]
        (some mem.length) (g + 1 + 1 + 1 + 1) (g + 1 + 1 + 1) h q sp (0 + 1) = Except.ok h := by
      intro h q sp
      rw [_Binary_Tree.constructLoop]; simp
    have eloop := e1.trans (e4 _ _ _)
    refine ⟨_, construct_finish M _ Tree.nil v Tree.nil mem hdr _ eloop, ?_⟩
    have h1 := readTree_of_linked _ _ (g + 1 + 1 + 1 + 1)
      (linked_constructedMem mem hdr Tree.nil v Tree.nil)
      (by simp [Tree.height_label, Tree.height])
    rw [Tree.map_snd_label] at h1
    exact h1

theorem construct_malformed_returns_witness :
    (1 : Nat) ≠ 0 ∧ (2 : Nat) ≠ 0 ∧ 3 < 9 ∧
    (∃ tr : _Binary_Tree Nat,
      _Binary_Tree.construct 9 [] hdr0 [1, 0, 0, 2] 0 = Except.ok tr ∧
      readTree tr.mem 9 tr._root =
        some (Tree.node Tree.nil 1 (Tree.node Tree.nil 2 Tree.nil))) ∧
    (∃ tr : _Binary_Tree Nat,
      _Binary_Tree.construct 9 [] hdr0 [1] 0 = Except.ok tr ∧
      readTree tr.mem 9 tr._root = some (Tree.node Tree.nil 1 Tree.nil)) :=
  ⟨by decide, by decide, by decide,
    construct_malformed_returns 0 1 2 [] hdr0 9 (by decide) (by decide) (by decide)⟩

/-- C6 (evaluation at the failing inputs): `construct` does not return an empty tree on `[]`
or on `[M]`.  On `[]` the loop body never runs and `_root = troot->left` is read from the
header that `new node_type()` left unassigned; when that pointer is null, `delete
_root->parent` dereferences null.  On `[M]`, whatever the header holds, the first `if` takes
the marker and advances `First` to `Last`, and the second `if` reads `*First` past the end. -/
theorem construct_empty_input_faults [DecidableEq α] (M : α) (mem : Heap α) (hdr : _Node α)
    (fuel : Nat) (hl : hdr.left = none) :
    _Binary_Tree.construct (fuel + 1) mem hdr [] M = Except.error Fault.nullDeref ∧
      _Binary_Tree.construct (fuel + 1) mem hdr [M] M = Except.error Fault.pastTheEnd := by
  have hr0 : Heap.read (mem ++ [some hdr]) (some mem.length) = Except.ok hdr :=
    Heap.read_append_new mem hdr
  constructor
  · simp [_Binary_Tree.construct, Heap.alloc, _Binary_Tree.constructLoop, hr0, hl, Heap.read]
  · simp [_Binary_Tree.construct, Heap.alloc, _Binary_Tree.constructLoop,
      _Binary_Tree.slotAndMarker, _Binary_Tree.slotIs, Heap.readSlot, hr0, _Binary_Tree.tokenIs]

theorem construct_empty_input_faults_witness :
    hdr0.left = none ∧
      _Binary_Tree.construct 9 [] hdr0 [] 0 = Except.error Fault.nullDeref ∧
      _Binary_Tree.construct 9 [] hdr0 [0] 0 = Except.error Fault.pastTheEnd :=
  ⟨rfl, construct_empty_input_faults 0 [] hdr0 8 rfl⟩

/-- C7 (evaluation at the failing input): on the tree decoded from
`[1, 2, 0, 0, 3, 0, 4, 0, 0]` the value 4 occurs (it is second in the reference postorder
listing 2, 4, 3, 1), `find<preorder>(4)` and `find<inorder>(4)` return the cursor at its node,
and `find<postorder>(4)` returns the end sentinel. -/
theorem find_postorder_misses_value :
    _Binary_Tree.construct 10 [] hdr0 [1, 2, 0, 0, 3, 0, 4, 0, 0] 0 = Except.ok rightTail4Obj ∧
      rightTail4.postorder = [2, 4, 3, 1] ∧
      _Iterator.deref rightTail4Obj.mem (some 4) = Except.ok 4 ∧
      BiTree.find rightTail4Obj traversal_order.preorder 5 4 = Except.ok (some 4) ∧
      BiTree.find rightTail4Obj traversal_order.inorder 5 4 = Except.ok (some 4) ∧
      BiTree.find rightTail4Obj traversal_order.postorder 5 4 =
        Except.ok (rightTail4Obj.end traversal_order.postorder) := by
  decide

theorem findLoop_inorder_stuck [DecidableEq α] (h : Heap α) (a : Nat) (v val : α) (l : Ptr)
    (inner : Nat)
    (hr : h.read (some a) = Except.ok { value := v, parent := none, left := l, right := none })
    (hv : v ≠ val) :
    ∀ k, BiTree.findLoop traversal_order.inorder h val inner k (some a) =
      Except.error Fault.outOfFuel := by
  intro k
  induction k with
  | zero => rfl
  | succ k ih =>
    simp [BiTree.findLoop, _Iterator.deref, hr, hv, inorder_increment_stuck h a v l inner hr, ih]

/-- C8 (evaluation at the failing input): on the left-skewed tree decoded from
`[1, 2, 3, 0, 0, 0, 0]`, where 99 does not occur, `find<inorder>(99)` returns for no amount of
fuel: its loop reaches the root and the increment keeps the cursor there.  In preorder and in
postorder the same search returns the end sentinel. -/
theorem find_inorder_absent_diverges (fuel : Nat) :
    _Binary_Tree.construct 8 [] hdr0 [1, 2, 3, 0, 0, 0, 0] 0 = Except.ok skewed3Obj ∧
      99 ∉ skewed3.inorder ∧
      BiTree.find skewed3Obj traversal_order.inorder fuel 99 = Except.error Fault.outOfFuel ∧
      BiTree.find skewed3Obj traversal_order.preorder 4 99 = Except.ok none ∧
      BiTree.find skewed3Obj traversal_order.postorder 4 99 = Except.ok none := by
  refine ⟨by decide, by decide, ?_, by decide, by decide⟩
  have hstuck := fun inner k =>
    findLoop_inorder_stuck skewed3Obj.mem 1 1 99 (some 2) inner rfl (by decide) k
  match fuel with
  | 0 => rfl
  | 1 => rfl
  | 2 => rfl
  | f + 3 =>
    have hb : skewed3Obj.begin traversal_order.inorder (f + 3) = Except.ok (some 3) := rfl
    have h3 : _Iterator.increment traversal_order.inorder (f + 3) skewed3Obj.mem (some 3) =
        Except.ok (some 2) := rfl
    have h2 : _Iterator.increment traversal_order.inorder (f + 3) skewed3Obj.mem (some 2) =
        Except.ok (some 1) := rfl
    have d3 : _Iterator.deref skewed3Obj.mem (some 3) = Except.ok 3 := rfl
    have d2 : _Iterator.deref skewed3Obj.mem (some 2) = Except.ok 2 := rfl
    have e3 : BiTree.findLoop traversal_order.inorder skewed3Obj.mem 99 (f + 3) (f + 2 + 1)
        (some 3) = BiTree.findLoop traversal_order.inorder skewed3Obj.mem 99 (f + 3) (f + 2)
          (some 2) := by
      rw [BiTree.findLoop]; simp [d3, h3]
    have e2 : BiTree.findLoop traversal_order.inorder skewed3Obj.mem 99 (f + 3) (f + 1 + 1)
        (some 2) = BiTree.findLoop traversal_order.inorder skewed3Obj.mem 99 (f + 3) (f + 1)
          (some 1) := by
      rw [BiTree.findLoop]; simp [d2, h2]
    simp only [BiTree.find, hb]
    exact e3.trans (e2.trans (hstuck _ _))

/-- C9 (counterexample): on the tree decoded from `[1, 2, 3, 0, 0, 0, 0]`, `find<inorder>(3)`
returns the cursor at the node of value 3, the cursor reached by two inorder increments from
`begin<inorder>()` is at the root, of value 1, and the two cursors differ. -/
theorem find_inorder_three_not_two_steps :
    _Binary_Tree.construct 8 [] hdr0 [1, 2, 3, 0, 0, 0, 0] 0 = Except.ok skewed3Obj ∧
      BiTree.find skewed3Obj traversal_order.inorder 4 3 = Except.ok (some 3) ∧
      skewed3Obj.begin traversal_order.inorder 4 = Except.ok (some 3) ∧
      _Iterator.walk traversal_order.inorder 4 skewed3Obj.mem 2 (some 3) =
        Except.ok ([(some 3, 3), (some 2, 2)], some 1) ∧
      BiTree.find skewed3Obj traversal_order.inorder 4 3 ≠ Except.ok (some 1) := by
  decide

/-- C9 (amended): on the tree decoded from `[1, 2, 3, 0, 0, 0, 0]`, `find<inorder>(3)` returns
a cursor equal to `begin<inorder>()` itself, the node of value 3 being first in inorder; the
cursor reached by two inorder increments from `begin<inorder>()` is the one `find<inorder>(1)`
returns. -/
theorem find_inorder_three_is_begin :
    _Binary_Tree.construct 8 [] hdr0 [1, 2, 3, 0, 0, 0, 0] 0 = Except.ok skewed3Obj ∧
      BiTree.find skewed3Obj traversal_order.inorder 4 3 =
        skewed3Obj.begin traversal_order.inorder 4 ∧
      skewed3Obj.begin traversal_order.inorder 4 = Except.ok (some 3) ∧
      _Iterator.walk traversal_order.inorder 4 skewed3Obj.mem 2 (some 3) =
        Except.ok ([(some 3, 3), (some 2, 2)], some 1) ∧
      BiTree.find skewed3Obj traversal_order.inorder 4 1 = Except.ok (some 1) := by
  decide

/-- C10 (counterexample): on the tree decoded from `[1, 2, 0, 0, 3, 0, 0]`,
`count(begin<preorder>())` is 3 while `count(begin<inorder>())` and `count(begin<postorder>())`
are 1. -/
theorem count_begin_differs :
    _Binary_Tree.construct 8 [] hdr0 [1, 2, 0, 0, 3, 0, 0] 0 = Except.ok balanced3Obj ∧
      (balanced3Obj.begin traversal_order.preorder 3).bind (BiTree.countAt balanced3Obj.mem 3) =
        Except.ok 3 ∧
      (balanced3Obj.begin traversal_order.inorder 3).bind (BiTree.countAt balanced3Obj.mem 3) =
        Except.ok 1 ∧
      (balanced3Obj.begin traversal_order.postorder 3).bind (BiTree.countAt balanced3Obj.mem 3) =
        Except.ok 1 := by
  decide

/-- C10 (amended): for every non-empty well-formed tree, `count(begin<order>())` is the number
of nodes of the subtree rooted at the first node of that order: the whole tree for preorder;
the leftmost node with its right subtree for inorder, at least one node and at most the whole
tree; a single node for postorder. -/
theorem count_begin_by_order (tr : _Binary_Tree α) (t : Tree (Nat × α)) (fuel : Nat)
    (hwf : WellFormed tr t) (hne : t ≠ Tree.nil) (hfuel : t.height ≤ fuel) :
    (tr.begin traversal_order.preorder fuel).bind (BiTree.countAt tr.mem fuel) =
        Except.ok t.size ∧
      (tr.begin traversal_order.inorder fuel).bind (BiTree.countAt tr.mem fuel) =
        Except.ok t.leftmostSub.size ∧
      (tr.begin traversal_order.postorder fuel).bind (BiTree.countAt tr.mem fuel) =
        Except.ok 1 ∧
      1 ≤ t.leftmostSub.size ∧ t.leftmostSub.size ≤ t.size := by
  have hbpre := begin_preorder_of_wellFormed hwf hne fuel
  have hbin := begin_inorder_of_wellFormed hwf hne hfuel
  have hbpo := begin_postorder_of_wellFormed hwf hne hfuel
  obtain ⟨hroot, hlinked, _⟩ := hwf
  obtain ⟨_, pi, hli⟩ := beginInorder_of_linked t none fuel hlinked hfuel
  obtain ⟨_, pp, hlp⟩ := beginPostorder_of_linked t none fuel hlinked hfuel
  have hpos : 1 ≤ t.size := by
    cases t with
    | nil => exact absurd rfl hne
    | node l x r => simp only [Tree.size]; omega
  have hlpos : 1 ≤ t.leftmostSub.size := by
    have hn := Tree.leftmostSub_ne_nil t hne
    cases hls : t.leftmostSub with
    | nil => exact absurd hls hn
    | node l x r => simp only [Tree.size]; omega
  have hone : t.firstPostSub.size = 1 := by
    rw [Tree.size_firstPostSub]; omega
  refine ⟨?_, ?_, ?_, hlpos, Tree.size_leftmostSub t⟩
  · simp only [hbpre, Except.bind]
    exact countAt_of_linked t none fuel hlinked hfuel
  · simp only [hbin, Except.bind]
    exact countAt_of_linked _ pi fuel hli (le_trans (Tree.height_leftmostSub t) hfuel)
  · simp only [hbpo, Except.bind]
    rw [← hone]
    exact countAt_of_linked _ pp fuel hlp (le_trans (Tree.height_firstPostSub t) hfuel)

theorem count_begin_by_order_witness :
    WellFormed balanced3Obj (Tree.label 1 balanced3) ∧ Tree.label 1 balanced3 ≠ Tree.nil ∧
      (Tree.label 1 balanced3).height ≤ 3 ∧
      (balanced3Obj.begin traversal_order.preorder 3).bind (BiTree.countAt balanced3Obj.mem 3) =
        Except.ok 3 ∧
      (balanced3Obj.begin traversal_order.inorder 3).bind (BiTree.countAt balanced3Obj.mem 3) =
        Except.ok 1 ∧
      (balanced3Obj.begin traversal_order.postorder 3).bind (BiTree.countAt balanced3Obj.mem 3) =
        Except.ok 1 ∧
      1 ≤ (Tree.label 1 balanced3).leftmostSub.size ∧
      (Tree.label 1 balanced3).leftmostSub.size ≤ (Tree.label 1 balanced3).size :=
  ⟨wellFormed_balanced3Obj, by decide, by decide,
    count_begin_by_order balanced3Obj (Tree.label 1 balanced3) 3 wellFormed_balanced3Obj
      (by decide) (by decide)⟩

/-- C11: for every cursor, `BiTree::count(c)` and `BiTree::depth(c)` are `_Node::count` and
`_Node::depth` of the node under the cursor: 0 at the end sentinel, and at a node one more than
the sum of the counts, resp. the larger of the depths, of its two children.  Hence on every
non-empty well-formed tree `count()` is the number of nodes and `depth()` the number of nodes on
the longest path from the root down: 1 and 1 on the single-node tree, depth 3 on the tree
decoded from `[1, 2, 3, 0, 0, 0, 0]`. -/
theorem count_depth_correct (tr : _Binary_Tree α) (t : Tree (Nat × α)) (fuel : Nat)
    (hwf : WellFormed tr t) (hne : t ≠ Tree.nil) (hfuel : t.height ≤ fuel) :
    (∀ (h : Heap α) (f : Nat) (c : Ptr),
        BiTree.countAt h f c = _Node.count h f c ∧ BiTree.depthAt h f c = _Node.depth h f c) ∧
      (∀ (h : Heap α) (f : Nat),
        BiTree.countAt h f none = Except.ok 0 ∧ BiTree.depthAt h f none = Except.ok 0) ∧
      (∀ (h : Heap α) (f a : Nat) (n : _Node α) (cl cr dl dr : Nat),
        h.read (some a) = Except.ok n →
        BiTree.countAt h f n.left = Except.ok cl → BiTree.countAt h f n.right = Except.ok cr →
        BiTree.depthAt h f n.left = Except.ok dl → BiTree.depthAt h f n.right = Except.ok dr →
        BiTree.countAt h (f + 1) (some a) = Except.ok (1 + cl + cr) ∧
          BiTree.depthAt h (f + 1) (some a) = Except.ok (1 + max dl dr)) ∧
      t.rootPtr ≠ none ∧
      BiTree.count tr fuel = Except.ok t.preorder.length ∧
      BiTree.depth tr fuel = Except.ok t.height ∧
      BiTree.count single1Obj 1 = Except.ok 1 ∧ BiTree.depth single1Obj 1 = Except.ok 1 ∧
      BiTree.depth skewed3Obj 3 = Except.ok 3 := by
  have hbeg := begin_preorder_of_wellFormed hwf hne fuel
  obtain ⟨hroot, hlinked, _⟩ := hwf
  refine ⟨fun h f c => ⟨countAt_eq_node_count h f c, depthAt_eq_node_depth h f c⟩,
    fun h f => ⟨by cases f <;> rfl, by cases f <;> rfl⟩, ?_, ?_, ?_, ?_, by decide, by decide,
    by decide⟩
  · intro h f a n cl cr dl dr hr hcl hcr hdl hdr
    simp only [BiTree.countAt, BiTree.depthAt, hr, hcl, hcr, hdl, hdr]
    constructor
    · congr 1; omega
    · congr 1; omega
  · cases t with
    | nil => exact absurd rfl hne
    | node l x r => simp
  · rw [Tree.length_preorder]
    simp only [BiTree.count, hbeg]
    exact countAt_of_linked t none fuel hlinked hfuel
  · simp only [BiTree.depth, hbeg]
    exact depthAt_of_linked t none fuel hlinked hfuel

theorem count_depth_correct_witness :
    WellFormed skewed3Obj (Tree.label 1 skewed3) ∧ Tree.label 1 skewed3 ≠ Tree.nil ∧
      (Tree.label 1 skewed3).height ≤ 3 ∧
      BiTree.count skewed3Obj 3 = Except.ok 3 ∧ BiTree.depth skewed3Obj 3 = Except.ok 3 :=
  ⟨wellFormed_skewed3Obj, by decide, by decide,
    (count_depth_correct skewed3Obj (Tree.label 1 skewed3) 3 wellFormed_skewed3Obj
      (by decide) (by decide)).2.2.2.2.1,
    (count_depth_correct skewed3Obj (Tree.label 1 skewed3) 3 wellFormed_skewed3Obj
      (by decide) (by decide)).2.2.2.2.2.1⟩

/-- C13 (the code at the failing input): the default-constructed tree, in any memory, is a
well-formed empty tree, and the loops of `begin` leave its null `_root` alone; the closing
`return _TIterator(*tnode);` then dereferences that null pointer, for each of the three orders
and whatever the fuel.  `count()`, `depth()` and `empty()` start with `begin()` and fault with
it: none of them returns the end sentinel, 0, 0 or true.  Only the queries at a cursor,
`count(end())` and `depth(end())`, return 0. -/
theorem empty_tree_queries_null_deref (mem : Heap α) (fuel : Nat) (order : traversal_order) :
    WellFormed (_Binary_Tree.empty mem) Tree.nil ∧
      (_Binary_Tree.empty mem)._root = (_Binary_Tree.empty mem).end order ∧
      _Binary_Tree.beginInorder mem fuel (_Binary_Tree.empty mem)._root = Except.ok none ∧
      _Binary_Tree.beginPostorder mem fuel (_Binary_Tree.empty mem)._root = Except.ok none ∧
      (_Binary_Tree.empty mem).begin order fuel = Except.error Fault.nullDeref ∧
      BiTree.count (_Binary_Tree.empty mem) fuel = Except.error Fault.nullDeref ∧
      BiTree.depth (_Binary_Tree.empty mem) fuel = Except.error Fault.nullDeref ∧
      BiTree.isEmpty (_Binary_Tree.empty mem) fuel = Except.error Fault.nullDeref ∧
      Fault.nullDeref.isUndefinedBehaviour = true ∧
      BiTree.countAt mem fuel ((_Binary_Tree.empty mem).end order) = Except.ok 0 ∧
      BiTree.depthAt mem fuel ((_Binary_Tree.empty mem).end order) = Except.ok 0 := by
  refine ⟨⟨rfl, trivial, List.nodup_nil⟩, rfl, ?_, ?_, ?_, rfl, rfl, rfl, rfl, ?_, ?_⟩
  · cases fuel <;> rfl
  · cases fuel <;> rfl
  · cases order <;> cases fuel <;> rfl
  · cases fuel <;> rfl
  · cases fuel <;> rfl

/-- C14 (counterexample): reading the value of the end sentinel of the single-node tree, and
incrementing it in inorder, are null pointer dereferences: undefined behaviour, not a reported
error. -/
theorem end_sentinel_access_is_undefined :
    _Iterator.deref single1Obj.mem (single1Obj.end traversal_order.inorder) =
        Except.error Fault.nullDeref ∧
      _Iterator.increment traversal_order.inorder 2 single1Obj.mem
          (single1Obj.end traversal_order.inorder) = Except.error Fault.nullDeref ∧
      Fault.nullDeref.isUndefinedBehaviour = true := by
  decide

/-- C14 (amended): for each traversal order, reading the value of the end sentinel
(`operator*`, `operator->`) and navigating from it with the increment, `left()`, `right()` or
`parent()` dereference the null pointer, which is undefined behaviour; no value and no cursor
is produced, and nothing is reported. -/
theorem end_sentinel_access_null_deref (h : Heap α) (order : traversal_order) (fuel : Nat) :
    _Iterator.deref h none = Except.error Fault.nullDeref ∧
      _Iterator.increment order fuel h none = Except.error Fault.nullDeref ∧
      _Iterator.left h none = Except.error Fault.nullDeref ∧
      _Iterator.right h none = Except.error Fault.nullDeref ∧
      _Iterator.parent h none = Except.error Fault.nullDeref ∧
      Fault.nullDeref.isUndefinedBehaviour = true := by
  cases order <;> exact ⟨rfl, rfl, rfl, rfl, rfl, rfl⟩

/-- C15: for every non-empty well-formed tree, `begin<preorder>()` is the cursor at the root,
`begin<inorder>()` the cursor at the leftmost descendant of the root, and `begin<postorder>()`
the cursor at the node reached from the root by taking the left child if there is one, else
the right child, until a node without children; each is the first node of the reference
listing of its order, and none is the end sentinel. -/
theorem begin_is_first (tr : _Binary_Tree α) (t : Tree (Nat × α)) (fuel : Nat)
    (hwf : WellFormed tr t) (hne : t ≠ Tree.nil) (hfuel : t.height ≤ fuel) :
    (tr.begin traversal_order.preorder fuel = Except.ok t.rootPtr ∧
        t.rootPtr = t.preorder.head?.map Prod.fst ∧ t.rootPtr ≠ none) ∧
      (tr.begin traversal_order.inorder fuel = Except.ok t.leftmostSub.rootPtr ∧
        t.leftmostSub.rootPtr = t.inorder.head?.map Prod.fst ∧ t.leftmostSub.rootPtr ≠ none) ∧
      (tr.begin traversal_order.postorder fuel = Except.ok t.firstPostSub.rootPtr ∧
        t.firstPostSub.rootPtr = t.postorder.head?.map Prod.fst ∧
        t.firstPostSub.rootPtr ≠ none) := by
  refine ⟨⟨begin_preorder_of_wellFormed hwf hne fuel, (Tree.head_preorder t).symm, ?_⟩,
    ⟨begin_inorder_of_wellFormed hwf hne hfuel, (Tree.head_inorder t).symm, ?_⟩,
    ⟨begin_postorder_of_wellFormed hwf hne hfuel, (Tree.head_postorder t).symm, ?_⟩⟩
  · exact fun h => hne (Tree.rootPtr_eq_none.mp h)
  · exact fun h => Tree.leftmostSub_ne_nil t hne (Tree.rootPtr_eq_none.mp h)
  · exact fun h => Tree.firstPostSub_ne_nil t hne (Tree.rootPtr_eq_none.mp h)

theorem begin_is_first_witness :
    WellFormed skewed3Obj (Tree.label 1 skewed3) ∧ Tree.label 1 skewed3 ≠ Tree.nil ∧
      (Tree.label 1 skewed3).height ≤ 3 ∧
      skewed3Obj.begin traversal_order.preorder 3 = Except.ok (some 1) ∧
      skewed3Obj.begin traversal_order.inorder 3 = Except.ok (some 3) ∧
      skewed3Obj.begin traversal_order.postorder 3 = Except.ok (some 3) :=
  ⟨wellFormed_skewed3Obj, by decide, by decide,
    (begin_is_first skewed3Obj (Tree.label 1 skewed3) 3 wellFormed_skewed3Obj
      (by decide) (by decide)).1.1,
    (begin_is_first skewed3Obj (Tree.label 1 skewed3) 3 wellFormed_skewed3Obj
      (by decide) (by decide)).2.1.1,
    (begin_is_first skewed3Obj (Tree.label 1 skewed3) 3 wellFormed_skewed3Obj
      (by decide) (by decide)).2.2.1⟩

/-- C19: for every non-empty tree `T` whose values differ from the marker, the tree object
`construct` builds from the encoding of `T` is walked in preorder from `begin<preorder>()` to
`end()` in `count()` increments, and the values read on the way are exactly the input tokens
with every marker removed, in the same order. -/
theorem construct_then_preorder [DecidableEq α] (M : α) (T : Tree α) (mem : Heap α)
    (hdr : _Node α) (fuel : Nat) (hne : T ≠ Tree.nil) (hval : ∀ x ∈ T.preorder, x ≠ M)
    (hfuel : (T.encode M).length < fuel) :
    ∃ (tr : _Binary_Tree α) (n : Nat) (visited : List (Ptr × α)),
      _Binary_Tree.construct fuel mem hdr (T.encode M) M = Except.ok tr ∧
      tr.begin traversal_order.preorder fuel = Except.ok tr._root ∧
      BiTree.count tr fuel = Except.ok n ∧
      _Iterator.walk traversal_order.preorder fuel tr.mem n tr._root =
        Except.ok (visited, tr.end traversal_order.preorder) ∧
      (∀ c ∈ visited, c.1 ≠ tr.end traversal_order.preorder) ∧
      visited.map Prod.snd = (T.encode M).filter (fun x => decide (x ≠ M)) := by
  have hh := Tree.height_le_size T
  have hlen := Tree.length_encode M T
  cases T with
  | nil => exact absurd rfl hne
  | node l v r =>
    have hwf := wellFormed_constructed mem hdr l v r
    have hht : (Tree.label (mem.length + 1) (Tree.node l v r)).height < fuel := by
      rw [Tree.height_label]; omega
    refine ⟨_, (Tree.node l v r).size, asVisited (Tree.label (mem.length + 1)
      (Tree.node l v r)).preorder, construct_encode M l v r mem hdr fuel hval hfuel, ?_, ?_, ?_,
      ?_, ?_⟩
    · exact begin_preorder_of_wellFormed hwf (by simp [Tree.label]) fuel
    · have hc := countAt_of_linked _ none fuel hwf.linked (le_of_lt hht)
      rw [Tree.size_label] at hc
      simp only [BiTree.count, begin_preorder_of_wellFormed hwf (by simp [Tree.label]) fuel]
      exact hc
    · have hw := preorder_walk_linked _ _ fuel hwf.linked hwf.distinct hht
      rw [Tree.size_label] at hw
      exact hw
    · intro c hc
      simp only [asVisited, List.mem_map] at hc
      obtain ⟨x, _, rfl⟩ := hc
      simp [_Binary_Tree.end]
    · rw [map_snd_asVisited, Tree.preorder_label, Tree.filter_encode M _ hval]

theorem construct_then_preorder_witness :
    balanced3 ≠ Tree.nil ∧ (∀ x ∈ balanced3.preorder, x ≠ 0) ∧
      (balanced3.encode 0).length < 8 ∧
      ∃ (tr : _Binary_Tree Nat) (n : Nat) (visited : List (Ptr × Nat)),
        _Binary_Tree.construct 8 [] hdr0 (balanced3.encode 0) 0 = Except.ok tr ∧
        tr.begin traversal_order.preorder 8 = Except.ok tr._root ∧
        BiTree.count tr 8 = Except.ok n ∧
        _Iterator.walk traversal_order.preorder 8 tr.mem n tr._root =
          Except.ok (visited, tr.end traversal_order.preorder) ∧
        (∀ c ∈ visited, c.1 ≠ tr.end traversal_order.preorder) ∧
        visited.map Prod.snd = (balanced3.encode 0).filter (fun x => decide (x ≠ 0)) :=
  ⟨by decide, by decide, by decide,
    construct_then_preorder 0 balanced3 [] hdr0 8 (by decide) (by decide) (by decide)⟩

/-- C16: for every non-empty tree `T` whose values differ from the marker, the node graph
`construct` leaves on the encoding of `T` is back-reference consistent.  The header cell is
freed and no node points at it; the parent of the root is null; the nodes are those of `T`,
linked as `T`, at distinct addresses; from every node each child link leads to a node whose
parent link leads back; every link goes to a larger address, so there is no cycle; no node is
both left and right child of a node; and every node other than the root is the child of
exactly one node. -/
theorem construct_back_references [DecidableEq α] (M : α) (T : Tree α) (mem : Heap α)
    (hdr : _Node α) (fuel : Nat) (hne : T ≠ Tree.nil) (hval : ∀ x ∈ T.preorder, x ≠ M)
    (hfuel : (T.encode M).length < fuel) :
    ∃ tr : _Binary_Tree α,
      _Binary_Tree.construct fuel mem hdr (T.encode M) M = Except.ok tr ∧
      tr._root = some (mem.length + 1) ∧
      WellFormed tr (Tree.label (mem.length + 1) T) ∧
      tr.mem[mem.length]? = some none ∧
      (∃ n, tr.mem.read tr._root = Except.ok n ∧ n.parent = none) ∧
      (∀ p ∈ (Tree.label (mem.length + 1) T).addrs, ∃ n, tr.mem.read (some p) = Except.ok n ∧
        n.parent ≠ some mem.length ∧
        (∀ q, n.left = some q ∨ n.right = some q →
          p < q ∧ q ∈ (Tree.label (mem.length + 1) T).addrs ∧
            ∃ m, tr.mem.read (some q) = Except.ok m ∧ m.parent = some p) ∧
        (∀ q, n.left = some q → n.right ≠ some q)) ∧
      (∀ q ∈ (Tree.label (mem.length + 1) T).addrs, some q ≠ tr._root →
        ∃ p ∈ (Tree.label (mem.length + 1) T).addrs,
          (∃ n, tr.mem.read (some p) = Except.ok n ∧ (n.left = some q ∨ n.right = some q)) ∧
          ∀ p2 ∈ (Tree.label (mem.length + 1) T).addrs,
            (∃ n2, tr.mem.read (some p2) = Except.ok n2 ∧
              (n2.left = some q ∨ n2.right = some q)) → p2 = p) := by
  cases T with
  | nil => exact absurd rfl hne
  | node l v r =>
    have hwf := wellFormed_constructed mem hdr l v r
    have hlk := linked_constructedMem mem hdr l v r
    have hparent : ∀ q ∈ (Tree.label (mem.length + 1) (Tree.node l v r)).addrs,
        some q ≠ some (mem.length + 1) →
        ∃ p ∈ (Tree.label (mem.length + 1) (Tree.node l v r)).addrs,
          ∃ n, Heap.read (constructedMem mem hdr l v r) (some p) = Except.ok n ∧
            (n.left = some q ∨ n.right = some q) :=
      fun q hq hqr => Linked.parent_exists _ none hlk q hq (fun e => hqr e.symm)
    refine ⟨_, construct_encode M l v r mem hdr fuel hval hfuel, rfl, hwf, ?_, ⟨_, hlk.1, rfl⟩,
      ?_, ?_⟩
    · have hlen : mem.length <
          ((mem ++ [some hdr]).graft mem.length Side.left (Tree.node l v r)).length := by
        rw [Heap.length_graft]; simp; omega
      simp only [constructedMem]
      rw [List.getElem?_set_ne (by omega), List.getElem?_set_self hlen]
    · intro p hp
      obtain ⟨n, hn, hch⟩ := Linked.child_links _ none hlk p hp
      refine ⟨n, hn, ?_, ?_, Linked.left_ne_right _ none hlk hwf.distinct p hp n hn⟩
      · by_cases hpr : some p = some (mem.length + 1)
        · cases hpr
          cases hlk.1.symm.trans hn
          simp
        · obtain ⟨pp, hpp, n2, hn2, hc⟩ := hparent p hp hpr
          obtain ⟨k, hk, hkq⟩ := Linked.child_links _ none hlk pp hpp
          cases hk.symm.trans hn2
          obtain ⟨_, m, hm, hmp⟩ := hkq p hc
          cases hm.symm.trans hn
          rw [hmp]
          have := ((Tree.mem_addrs_label _ _ _).mp hpp).1
          intro e
          cases e
          omega
      · intro q hq
        exact ⟨Linked.child_gt_of_label _ _ none hlk p hp n hn q hq, hch q hq⟩
    · intro q hq hqr
      obtain ⟨p, hp, n, hn, hc⟩ := hparent q hq hqr
      refine ⟨p, hp, ⟨n, hn, hc⟩, ?_⟩
      intro p2 hp2 hex
      obtain ⟨n2, hn2, hc2⟩ := hex
      obtain ⟨k1, hk1, hq1⟩ := Linked.child_links _ none hlk p hp
      obtain ⟨k2, hk2, hq2⟩ := Linked.child_links _ none hlk p2 hp2
      cases hk1.symm.trans hn
      cases hk2.symm.trans hn2
      obtain ⟨_, m1, hm1, hmp1⟩ := hq1 q hc
      obtain ⟨_, m2, hm2, hmp2⟩ := hq2 q hc2
      cases hm1.symm.trans hm2
      cases hmp1.symm.trans hmp2
      rfl

theorem construct_back_references_witness :
    balanced3 ≠ Tree.nil ∧ (∀ x ∈ balanced3.preorder, x ≠ 0) ∧
      (balanced3.encode 0).length < 8 ∧
      ∃ tr : _Binary_Tree Nat,
        _Binary_Tree.construct 8 [] hdr0 (balanced3.encode 0) 0 = Except.ok tr ∧
        tr._root = some 1 ∧ WellFormed tr (Tree.label 1 balanced3) :=
  ⟨by decide, by decide, by decide,
    (construct_back_references 0 balanced3 [] hdr0 8 (by decide) (by decide) (by decide)).imp
      (fun _ h => ⟨h.1, h.2.1, h.2.2.1⟩)⟩

/-- C18: for every non-empty well-formed tree in which every node that has a right child also
has a left child, `count()` postorder increments from `begin<postorder>()` end at `end()`,
having stood exactly at the nodes of the reference postorder listing (left subtree, right
subtree, node) in that order; no cursor on the way is `end()`. -/
theorem postorder_walk_left_full (tr : _Binary_Tree α) (t : Tree (Nat × α)) (fuel : Nat)
    (hwf : WellFormed tr t) (hne : t ≠ Tree.nil) (hfull : t.leftFull) (hfuel : t.height ≤ fuel) :
    ∃ b : Ptr,
      tr.begin traversal_order.postorder fuel = Except.ok b ∧
      b ≠ tr.end traversal_order.postorder ∧
      BiTree.count tr fuel = Except.ok t.size ∧
      _Iterator.walk traversal_order.postorder fuel tr.mem t.size b =
        Except.ok (asVisited t.postorder, tr.end traversal_order.postorder) ∧
      (asVisited t.postorder).map Prod.snd = (t.map Prod.snd).postorder ∧
      (∀ c ∈ asVisited t.postorder, c.1 ≠ tr.end traversal_order.postorder) := by
  have hbeg := begin_preorder_of_wellFormed hwf hne fuel
  have hb := begin_postorder_of_wellFormed hwf hne hfuel
  obtain ⟨hroot, hlinked, hdist⟩ := hwf
  have hK : t ≠ Tree.nil →
      _Iterator.increment traversal_order.postorder fuel tr.mem t.rootPtr = Except.ok none := by
    intro _
    cases t with
    | nil => exact absurd rfl hne
    | node l x r =>
      simp [_Iterator.increment, _PostOrder_Iterator.increment, hlinked.1]
  have hw := postorder_walk_subtree tr.mem fuel t none none hlinked hdist hfull hK hfuel 0
  refine ⟨t.firstPostSub.rootPtr, hb, ?_, ?_, ?_, ?_, ?_⟩
  · exact fun h => Tree.firstPostSub_ne_nil t hne (Tree.rootPtr_eq_none.mp h)
  · simp only [BiTree.count, hbeg]
    exact countAt_of_linked t none fuel hlinked hfuel
  · rw [← Tree.entryPost_eq_firstPostSub t none hne]
    simpa [_Iterator.walk, prependVisited, _Binary_Tree.end] using hw
  · rw [map_snd_asVisited, Tree.postorder_map]
  · intro c hc
    simp only [asVisited, List.mem_map] at hc
    obtain ⟨x, _, rfl⟩ := hc
    simp [_Binary_Tree.end]

theorem postorder_walk_left_full_witness :
    WellFormed balanced3Obj (Tree.label 1 balanced3) ∧ Tree.label 1 balanced3 ≠ Tree.nil ∧
      (Tree.label 1 balanced3).leftFull ∧ (Tree.label 1 balanced3).height ≤ 3 ∧
      ∃ b : Ptr,
        balanced3Obj.begin traversal_order.postorder 3 = Except.ok b ∧
        b ≠ balanced3Obj.end traversal_order.postorder ∧
        BiTree.count balanced3Obj 3 = Except.ok 3 ∧
        _Iterator.walk traversal_order.postorder 3 balanced3Obj.mem 3 b =
          Except.ok ([(some 2, 2), (some 3, 3), (some 1, 1)], none) :=
  ⟨wellFormed_balanced3Obj, by decide, by simp [Tree.leftFull, Tree.label, balanced3],
    by decide,
    (postorder_walk_left_full balanced3Obj (Tree.label 1 balanced3) 3 wellFormed_balanced3Obj
      (by decide) (by simp [Tree.leftFull, Tree.label, balanced3]) (by decide)).imp
      (fun _ h => ⟨h.1, h.2.1, h.2.2.1, h.2.2.2.1⟩)⟩

/-- C17: for every node of a well-formed tree, the inorder increment moves a cursor at the
node to the next node of the reference inorder listing, and to the end sentinel from the last
one, except when the node has neither a parent nor a right child: then the cursor stays at the
node.  Consequently, on every tree whose root has a right child, `count()` increments from
`begin<inorder>()` end at `end()` and stand at the nodes of the reference inorder listing. -/
theorem inorder_increment_behaviour (tr : _Binary_Tree α) (t : Tree (Nat × α)) (fuel : Nat)
    (hwf : WellFormed tr t) (hfuel : t.height < fuel) :
    (∀ a ∈ t.addrs, ∃ n, tr.mem.read (some a) = Except.ok n ∧
        _Iterator.increment traversal_order.inorder fuel tr.mem (some a) =
          Except.ok (if n.parent = none ∧ n.right = none then some a
            else nextAfter none (t.inorder.map Prod.fst) a)) ∧
      (∀ nr, tr.mem.read tr._root = Except.ok nr → nr.right ≠ none →
        ∃ b : Ptr,
          tr.begin traversal_order.inorder fuel = Except.ok b ∧
          BiTree.count tr fuel = Except.ok t.size ∧
          _Iterator.walk traversal_order.inorder fuel tr.mem t.size b =
            Except.ok (asVisited t.inorder, tr.end traversal_order.inorder) ∧
          (asVisited t.inorder).map Prod.snd = (t.map Prod.snd).inorder ∧
          (∀ c ∈ asVisited t.inorder, c.1 ≠ tr.end traversal_order.inorder)) := by
  obtain ⟨hroot, hlinked, hdist⟩ := hwf
  cases t with
  | nil =>
    refine ⟨fun a ha => by simp [Tree.addrs, Tree.preorder] at ha, ?_⟩
    intro nr hnr _
    rw [hroot] at hnr
    simp [Heap.read] at hnr
  | node l x r =>
    have hread := hlinked.1
    have hw := inorder_walk_linked tr.mem (Tree.node l x r) fuel hlinked hdist hfuel
    have hbeg : tr.begin traversal_order.preorder fuel = Except.ok (Tree.node l x r).rootPtr :=
      begin_preorder_of_wellFormed (WellFormed.mk hroot hlinked hdist) (by simp) fuel
    have hb : tr.begin traversal_order.inorder fuel =
        Except.ok (Tree.node l x r).leftmostSub.rootPtr :=
      begin_inorder_of_wellFormed (WellFormed.mk hroot hlinked hdist) (by simp) (by omega)
    rw [← Tree.entryIn_eq_leftmostSub (Tree.node l x r) (Tree.node l x r).inorderExit
      (by simp)] at hb
    constructor
    · intro a ha
      obtain ⟨n, hn, _⟩ := Linked.child_links _ none hlinked a ha
      refine ⟨n, hn, ?_⟩
      have hw2 := hw
      rw [← Tree.length_inorder] at hw2
      rw [walk_next _ _ _ hw2 a ((Tree.mem_map_fst_inorder_iff _ a).mpr ha)]
      have hrootcase : n.parent = none → a = x.1 := by
        intro hp
        have := Linked.root_of_parent_none _ hlinked a ha n hn hp
        simpa using this.symm
      cases r with
      | nil =>
        by_cases hax : a = x.1
        · subst hax
          cases hread.symm.trans hn
          have hxl : x.1 ∉ l.inorder.map Prod.fst := by
            rw [Tree.mem_map_fst_inorder_iff]
            have hd2 : (x.1 :: (l.addrs ++ (Tree.nil : Tree (Nat × α)).addrs)).Nodup := by
              rw [← Tree.addrs_node]; exact hdist
            exact fun hc => (List.nodup_cons.mp hd2).1 (by simp [hc])
          simp only [Tree.inorder, List.map_append, List.map_cons, List.map_nil, Tree.rootPtr_nil,
            and_self, if_true, Tree.inorderExit]
          rw [nextAfter_last _ _ _ hxl]
        · have hnp : ¬ (n.parent = none ∧ n.right = none) := fun hc => hax (hrootcase hc.1)
          have hal : a ∈ l.inorder.map Prod.fst := by
            rw [Tree.mem_map_fst_inorder_iff]
            rcases Tree.mem_addrs_node.mp ha with h1 | h1 | h1
            · exact absurd h1 hax
            · exact h1
            · simp [Tree.addrs, Tree.preorder] at h1
          simp only [hnp, if_false, Tree.inorder, List.map_append, List.map_cons, List.map_nil,
            Tree.inorderExit]
          rw [nextAfter_of_mem_init (some x.1) none x.1 _ a hal]
      | node rl rx rr =>
        have hnp : ¬ (n.parent = none ∧ n.right = none) := by
          intro hc
          have hax := hrootcase hc.1
          subst hax
          cases hread.symm.trans hn
          simp at hc
        simp only [hnp, if_false, Tree.inorderExit]
    · intro nr hnr hright
      rw [hroot, Tree.rootPtr_node, hread] at hnr
      cases hnr
      cases r with
      | nil => simp at hright
      | node rl rx rr =>
        refine ⟨_, hb, ?_, hw, ?_, ?_⟩
        · simp only [BiTree.count, hbeg]
          exact countAt_of_linked _ none fuel hlinked (by omega)
        · rw [map_snd_asVisited, Tree.inorder_map]
        · intro c hc
          simp only [asVisited, List.mem_map] at hc
          obtain ⟨y, _, rfl⟩ := hc
          simp [_Binary_Tree.end]

theorem inorder_increment_behaviour_witness :
    WellFormed skewed3Obj (Tree.label 1 skewed3) ∧ (Tree.label 1 skewed3).height < 4 ∧
      (∃ n, skewed3Obj.mem.read (some 3) = Except.ok n ∧
        _Iterator.increment traversal_order.inorder 4 skewed3Obj.mem (some 3) =
          Except.ok (if n.parent = none ∧ n.right = none then some 3
            else nextAfter none ((Tree.label 1 skewed3).inorder.map Prod.fst) 3)) ∧
      (∃ n, skewed3Obj.mem.read (some 1) = Except.ok n ∧
        _Iterator.increment traversal_order.inorder 4 skewed3Obj.mem (some 1) =
          Except.ok (if n.parent = none ∧ n.right = none then some 1
            else nextAfter none ((Tree.label 1 skewed3).inorder.map Prod.fst) 1)) ∧
      WellFormed balanced3Obj (Tree.label 1 balanced3) ∧ (Tree.label 1 balanced3).height < 3 ∧
      balanced3Obj.mem.read balanced3Obj._root =
        Except.ok { value := 1, parent := none, left := some 2, right := some 3 } ∧
      ∃ b : Ptr,
        balanced3Obj.begin traversal_order.inorder 3 = Except.ok b ∧
        BiTree.count balanced3Obj 3 = Except.ok 3 ∧
        _Iterator.walk traversal_order.inorder 3 balanced3Obj.mem 3 b =
          Except.ok ([(some 2, 2), (some 1, 1), (some 3, 3)], none) :=
  ⟨wellFormed_skewed3Obj, by decide,
    (inorder_increment_behaviour skewed3Obj (Tree.label 1 skewed3) 4 wellFormed_skewed3Obj
      (by decide)).1 3 (by decide),
    (inorder_increment_behaviour skewed3Obj (Tree.label 1 skewed3) 4 wellFormed_skewed3Obj
      (by decide)).1 1 (by decide),
    wellFormed_balanced3Obj, by decide, rfl,
    ((inorder_increment_behaviour balanced3Obj (Tree.label 1 balanced3) 3 wellFormed_balanced3Obj
      (by decide)).2 { value := 1, parent := none, left := some 2, right := some 3 } rfl
      (by decide)).imp (fun _ h => ⟨h.1, h.2.1, h.2.2.1⟩)⟩

/-- C12 (the code at the failing input, and what holds elsewhere): the copy constructors
assign `_root` only inside `deep_copy`, which returns at once on a null cursor.  Constructing
from the end sentinel, by the constructor from a cursor or by `subtree`, therefore leaves
`_root` at the value `root0` it held before, which is null only by chance: `empty()` on the
result returns false when `root0` points at a node and faults otherwise.  The copy constructor
applied to the empty tree does not reach `deep_copy`: its `Other.begin()` dereferences the
null root of the source.  From a cursor at a node, whatever the parent `par` of that node in
the source, the copy constructor, the constructor from a cursor and `subtree` return a tree of
fresh nodes with the shape and values of the subtree below the cursor, linked both ways, with
a null parent at the root, and leave every old cell as it was. -/
theorem deep_copy_behaviour (mem : Heap α) (par : Ptr) (s : Tree (Nat × α)) (fuel : Nat)
    (root0 : Ptr) (hl : Linked mem par s) (hne : s ≠ Tree.nil) (hfuel : s.height ≤ fuel) :
    (_Binary_Tree.copy fuel (_Binary_Tree.empty mem) root0 = Except.error Fault.nullDeref ∧
      _Binary_Tree.fromCursor fuel mem root0 none = Except.ok { mem := mem, _root := root0 } ∧
      _Binary_Tree.subtree { mem := mem, _root := s.rootPtr } fuel root0 none =
        Except.ok { mem := mem, _root := root0 } ∧
      BiTree.isEmpty { mem := mem, _root := root0 } fuel =
        (match mem.read root0 with
          | Except.error e => Except.error e
          | Except.ok _ => Except.ok false)) ∧
    ∃ cp : _Binary_Tree α,
      _Binary_Tree.copy fuel { mem := mem, _root := s.rootPtr } root0 = Except.ok cp ∧
      _Binary_Tree.fromCursor fuel mem root0 s.rootPtr = Except.ok cp ∧
      _Binary_Tree.subtree { mem := mem, _root := s.rootPtr } fuel root0 s.rootPtr =
        Except.ok cp ∧
      cp._root = some mem.length ∧
      WellFormed cp (Tree.label mem.length (s.map Prod.snd)) ∧
      readTree cp.mem fuel cp._root = some (s.map Prod.snd) ∧
      (∃ n, cp.mem.read cp._root = Except.ok n ∧ n.parent = none) ∧
      (∀ d, d < mem.length → cp.mem[d]? = mem[d]?) ∧
      Linked cp.mem par s := by
  constructor
  · refine ⟨rfl, ?_, ?_, ?_⟩
    · cases fuel <;> rfl
    · cases fuel <;> rfl
    · cases root0 with
      | none => rfl
      | some a =>
        simp only [BiTree.isEmpty, _Binary_Tree.begin, _Binary_Tree.end, _Iterator.ofRef]
        cases mem.read (some a) with
        | error e => rfl
        | ok n => simp
  · cases s with
    | nil => exact absurd rfl hne
    | node l x r =>
      have hcopy := deep_copy_root l r x { mem := mem, _root := root0 } par fuel hl hfuel
      have hlk := linked_copiedMem mem (l.map Prod.snd) x.2 (r.map Prod.snd)
      have hframe := getElem?_copiedMem mem (l.map Prod.snd) x.2 (r.map Prod.snd)
      refine ⟨_, ?_, hcopy, hcopy, rfl, ⟨rfl, hlk, Tree.nodup_addrs_label _ _⟩, ?_,
        ⟨_, hlk.1, rfl⟩, hframe, ?_⟩
      · have hof : _Iterator.ofRef mem (Tree.node l x r).rootPtr =
            Except.ok (some x.1) := _Iterator.ofRef_of_read hl.1
        simp only [_Binary_Tree.copy, _Binary_Tree.begin, hof]
        exact hcopy
      · have h1 := readTree_of_linked _ _ fuel hlk (by
          rw [Tree.height_label]
          have := Tree.height_map Prod.snd (Tree.node l x r)
          simp only [Tree.map] at this
          omega)
        rw [Tree.map_snd_label] at h1
        exact h1
      · exact Linked.frame _ _ (fun d hd =>
          Heap.read_congr (hframe d (Linked.lt_length _ _ hl d hd))) hl

theorem deep_copy_behaviour_witness :
    Linked rightTail4Obj.mem (some 1)
        (Tree.label 3 (Tree.node Tree.nil 3 (Tree.node Tree.nil 4 Tree.nil))) ∧
      Tree.label 3 (Tree.node Tree.nil 3 (Tree.node Tree.nil 4 Tree.nil)) ≠ Tree.nil ∧
      (Tree.label 3 (Tree.node Tree.nil 3 (Tree.node Tree.nil 4 Tree.nil))).height ≤ 2 ∧
      _Binary_Tree.copy 2 (_Binary_Tree.empty rightTail4Obj.mem) (some 1) =
        Except.error Fault.nullDeref ∧
      _Binary_Tree.subtree rightTail4Obj 2 (some 1) none =
        Except.ok { mem := rightTail4Obj.mem, _root := some 1 } ∧
      BiTree.isEmpty { mem := rightTail4Obj.mem, _root := some 1 } 2 = Except.ok false ∧
      ∃ cp : _Binary_Tree Nat,
        _Binary_Tree.subtree rightTail4Obj 2 (some 1) (some 3) = Except.ok cp ∧
        cp._root = some 5 ∧
        readTree cp.mem 2 cp._root = some (Tree.node Tree.nil 3 (Tree.node Tree.nil 4 Tree.nil)) :=
  ⟨⟨rfl, trivial, ⟨rfl, trivial, trivial⟩⟩, by decide, by decide,
    (deep_copy_behaviour rightTail4Obj.mem (some 1)
      (Tree.label 3 (Tree.node Tree.nil 3 (Tree.node Tree.nil 4 Tree.nil))) 2 (some 1)
      ⟨rfl, trivial, ⟨rfl, trivial, trivial⟩⟩ (by decide) (by decide)).1.1,
    (deep_copy_behaviour rightTail4Obj.mem (some 1)
      (Tree.label 3 (Tree.node Tree.nil 3 (Tree.node Tree.nil 4 Tree.nil))) 2 (some 1)
      ⟨rfl, trivial, ⟨rfl, trivial, trivial⟩⟩ (by decide) (by decide)).1.2.2.1,
    (deep_copy_behaviour rightTail4Obj.mem (some 1)
      (Tree.label 3 (Tree.node Tree.nil 3 (Tree.node Tree.nil 4 Tree.nil))) 2 (some 1)
      ⟨rfl, trivial, ⟨rfl, trivial, trivial⟩⟩ (by decide) (by decide)).1.2.2.2,
    (deep_copy_behaviour rightTail4Obj.mem (some 1)
      (Tree.label 3 (Tree.node Tree.nil 3 (Tree.node Tree.nil 4 Tree.nil))) 2 (some 1)
      ⟨rfl, trivial, ⟨rfl, trivial, trivial⟩⟩ (by decide) (by decide)).2.imp
      (fun _ h => ⟨h.2.2.1, h.2.2.2.1, h.2.2.2.2.2.1⟩)⟩

end BinaryTree
